import Mathlib

/-!
Verification of the rctree library (a reference-counted "DOM-like" tree).

The Rust source stores each tree node as a heap record
(`NodeData<T>`) with six navigation links: `parent`, `previous_sibling`,
`last_child`, `root` are weak references, `first_child` and `next_sibling`
are strong (owning) references.  We shallowly embed the program state as a
heap: a list of optional records indexed by `Nat` node identities (an
`Rc` pointer is its index; `Rc::ptr_eq` is index equality; a dead weak
reference is a link to a `none` slot).  Every mutation algorithm of
`src/lib.rs` is translated field-write by field-write.
-/

namespace Rctree

/-- The record behind a node pointer: mirrors `struct NodeData<T>` of the
source (six links plus payload).  Weak links and strong links are both
indices; the weak/strong distinction matters only for liveness and for
the strong-edge graph defined below. -/
structure NodeData (T : Type) where
  root : Option Nat
  parent : Option Nat
  first_child : Option Nat
  last_child : Option Nat
  previous_sibling : Option Nat
  next_sibling : Option Nat
  data : T
deriving DecidableEq, Repr

/-- The program heap: slot `i` holds the record of node `i`, or `none`
once that record has been destroyed. -/
abbrev Heap (T : Type) : Type := List (Option (NodeData T))

/-- Dereference a pointer: the record at slot `i`, if the slot exists and
is alive. -/
def Heap.node {T : Type} : Heap T → Nat → Option (NodeData T)
  | [], _ => none
  | x :: _, 0 => x
  | _ :: xs, n + 1 => Heap.node xs n

/-- Overwrite the record in slot `i` (no-op outside the heap, which the
translated operations never do on live pointers). -/
def Heap.setN {T : Type} : Heap T → Nat → NodeData T → Heap T
  | [], _, _ => []
  | _ :: xs, 0, d => some d :: xs
  | x :: xs, n + 1, d => x :: Heap.setN xs n d

/-- `Weak::upgrade`: a weak link resolves iff its target is still alive. -/
def upgrade {T : Type} (h : Heap T) (w : Option Nat) : Option Nat :=
  match w with
  | none => none
  | some i => match h.node i with
    | some _ => some i
    | none => none

/-- Apply `f` to the record in slot `i` if it is alive. -/
def Heap.update {T : Type} (h : Heap T) (i : Nat) (f : NodeData T → NodeData T) : Heap T :=
  match h.node i with
  | some d => h.setN i (f d)
  | none => h

/-- Raw `parent` field of node `i` (not upgraded). -/
def parF {T : Type} (h : Heap T) (i : Nat) : Option Nat := (h.node i).bind (·.parent)

/-- Raw `previous_sibling` field of node `i` (not upgraded). -/
def psF {T : Type} (h : Heap T) (i : Nat) : Option Nat := (h.node i).bind (·.previous_sibling)

/-- Raw `first_child` field of node `i`. -/
def fcF {T : Type} (h : Heap T) (i : Nat) : Option Nat := (h.node i).bind (·.first_child)

/-- Raw `last_child` field of node `i` (not upgraded). -/
def lcF {T : Type} (h : Heap T) (i : Nat) : Option Nat := (h.node i).bind (·.last_child)

/-- Raw `next_sibling` field of node `i`. -/
def nsF {T : Type} (h : Heap T) (i : Nat) : Option Nat := (h.node i).bind (·.next_sibling)

/-- Raw `root` field of node `i` (not upgraded). -/
def rootF {T : Type} (h : Heap T) (i : Nat) : Option Nat := (h.node i).bind (·.root)

/-- `Node::parent`: follow the weak `parent` link, upgrading it. -/
def parentAcc {T : Type} (h : Heap T) (i : Nat) : Option Nat := upgrade h (parF h i)

/-- `Node::first_child`: clone the strong `first_child` link. -/
def firstChildAcc {T : Type} (h : Heap T) (i : Nat) : Option Nat := fcF h i

/-- `Node::last_child`: follow the weak `last_child` link, upgrading it. -/
def lastChildAcc {T : Type} (h : Heap T) (i : Nat) : Option Nat := upgrade h (lcF h i)

/-- `Node::previous_sibling`: follow the weak link, upgrading it. -/
def prevSiblingAcc {T : Type} (h : Heap T) (i : Nat) : Option Nat := upgrade h (psF h i)

/-- `Node::next_sibling`: clone the strong `next_sibling` link. -/
def nextSiblingAcc {T : Type} (h : Heap T) (i : Nat) : Option Nat := nsF h i

/-- `Node::root`: resolve the cached weak `root` link if set (the source
`unwrap()`s the upgrade, so a dangling cached root is a panic, embedded
as `none`); with no cached root the node is its own root. -/
def rootAcc {T : Type} (h : Heap T) (i : Nat) : Option Nat :=
  match h.node i with
  | none => none
  | some d => match d.root with
    | some w => upgrade h (some w)
    | none => some i

/-- `Node::new`: allocate a fresh isolated record at the end of the heap
(all links absent) and return its pointer. -/
def newNode {T : Type} (h : Heap T) (d : T) : Heap T × Nat :=
  (h ++ [some { root := none, parent := none, first_child := none, last_child := none,
                previous_sibling := none, next_sibling := none, data := d }], h.length)

/-- `NodeData::detach` (`src/lib.rs:424-450`): take the node's
`parent`/`previous_sibling`/`next_sibling` links, then rewire the
neighbours: the next sibling (or else the parent's `last_child`) gets the
old previous sibling, and the previous sibling (or else the parent's
`first_child`) gets the old next sibling. -/
def detach {T : Type} (h : Heap T) (n : Nat) : Heap T :=
  match h.node n with
  | none => h
  | some nd =>
    let pw := nd.parent
    let vw := nd.previous_sibling
    let nstrong := nd.next_sibling
    let h1 := h.setN n { nd with parent := none, previous_sibling := none, next_sibling := none }
    let vopt := upgrade h1 vw
    let h2 := match nstrong with
      | some b => h1.update b (fun bd => { bd with previous_sibling := vw })
      | none => match upgrade h1 pw with
        | some p => h1.update p (fun pd => { pd with last_child := vw })
        | none => h1
    match vopt with
    | some a => h2.update a (fun ad => { ad with next_sibling := nstrong })
    | none => match upgrade h2 pw with
      | some p => h2.update p (fun pd => { pd with first_child := nstrong })
      | none => h2

/-- Contract violations of the library, surfaced as explicit errors: the
source `assert!`s/`panic!`s in these situations. -/
inductive RcError where
  | selfInsertion : RcError
  | borrowConflict : RcError
  | invalidHandle : RcError
deriving DecidableEq, Repr

/-- `Node::append` (`src/lib.rs:239-267`): fail on self-insertion, else
implicitly detach the new child, cache the parent's root (or the parent
itself) on it, link it after the parent's last child (or as the first
child when there is none) and make it the new `last_child`. -/
def append {T : Type} (h : Heap T) (s c : Nat) : Except RcError (Heap T) :=
  if s = c then .error .selfInsertion
  else match h.node s, h.node c with
    | some _, some _ =>
      let h1 := detach h c
      match h1.node s with
      | none => .error .invalidHandle
      | some sd =>
        let lopt := upgrade h1 sd.last_child
        let h2 := h1.update c (fun cd =>
          { cd with root := some (sd.root.getD s), parent := some s,
                    previous_sibling := lopt })
        let h3 := h2.update s (fun sd2 => { sd2 with last_child := some c })
        match lopt with
        | some l => .ok (h3.update l (fun ld => { ld with next_sibling := some c }))
        | none => .ok (h3.update s (fun sd2 => { sd2 with first_child := some c }))
    | _, _ => .error .invalidHandle

/-- `Node::prepend` (`src/lib.rs:274-299`): symmetric to `append`,
splicing the new child before the parent's first child. -/
def prepend {T : Type} (h : Heap T) (s c : Nat) : Except RcError (Heap T) :=
  if s = c then .error .selfInsertion
  else match h.node s, h.node c with
    | some _, some _ =>
      let h1 := detach h c
      match h1.node s with
      | none => .error .invalidHandle
      | some sd =>
        let h2 := h1.update c (fun cd =>
          { cd with root := some (sd.root.getD s), parent := some s,
                    next_sibling := sd.first_child })
        let h3 := match sd.first_child with
          | some f => h2.update f (fun fd => { fd with previous_sibling := some c })
          | none => h2.update s (fun sd2 => { sd2 with last_child := some c })
        .ok (h3.update s (fun sd2 => { sd2 with first_child := some c }))
    | _, _ => .error .invalidHandle

/-- `Node::insert_after` (`src/lib.rs:306-339`): fail on self-insertion,
else detach the new sibling, give it this node's `root` and `parent`
links verbatim, splice it between this node and its old next sibling
(updating the parent's `last_child` when there was none). -/
def insert_after {T : Type} (h : Heap T) (s c : Nat) : Except RcError (Heap T) :=
  if s = c then .error .selfInsertion
  else match h.node s, h.node c with
    | some _, some _ =>
      let h1 := detach h c
      match h1.node s with
      | none => .error .invalidHandle
      | some sd =>
        let h2 := h1.update c (fun cd =>
          { cd with root := sd.root, parent := sd.parent,
                    previous_sibling := some s, next_sibling := sd.next_sibling })
        let h3 := match sd.next_sibling with
          | some nx => h2.update nx (fun nd => { nd with previous_sibling := some c })
          | none => match upgrade h2 sd.parent with
            | some p => h2.update p (fun pd => { pd with last_child := some c })
            | none => h2
        .ok (h3.update s (fun sd2 => { sd2 with next_sibling := some c }))
    | _, _ => .error .invalidHandle

/-- `Node::insert_before` (`src/lib.rs:346-382`): fail on self-insertion,
else detach the new sibling, give it this node's `root` and `parent`
links verbatim, splice it between this node's old previous sibling (or
the parent's `first_child` slot when there was none) and this node. -/
def insert_before {T : Type} (h : Heap T) (s c : Nat) : Except RcError (Heap T) :=
  if s = c then .error .selfInsertion
  else match h.node s, h.node c with
    | some _, some _ =>
      let h1 := detach h c
      match h1.node s with
      | none => .error .invalidHandle
      | some sd =>
        let vopt := upgrade h1 sd.previous_sibling
        let h2 := h1.update c (fun cd =>
          { cd with root := sd.root, parent := sd.parent,
                    next_sibling := some s, previous_sibling := vopt })
        let h3 := h2.update s (fun sd2 => { sd2 with previous_sibling := some c })
        match vopt with
        | some v => .ok (h3.update v (fun vd => { vd with next_sibling := some c }))
        | none => match upgrade h3 sd.parent with
          | some p => .ok (h3.update p (fun pd => { pd with first_child := some c }))
          | none => .ok h3
    | _, _ => .error .invalidHandle

/-- State of the double-ended `Children` iterator (`src/iterator.rs:56-60`):
a forward cursor and a backward cursor. -/
structure Children where
  next : Option Nat
  next_back : Option Nat
deriving DecidableEq, Repr

/-- `Children::new` (`src/iterator.rs:63-68`): seed the cursors at the
node's first and last child. -/
def Children.new {T : Type} (h : Heap T) (i : Nat) : Children :=
  { next := firstChildAcc h i, next_back := lastChildAcc h i }

/-- `Children::finished` (`src/iterator.rs:71-76`): the range is exhausted
once the backward cursor's next sibling equals the forward cursor. -/
def Children.finished {T : Type} (h : Heap T) (s : Children) : Bool :=
  match s.next_back with
  | some nb => nextSiblingAcc h nb == s.next
  | none => true

/-- `<Children as Iterator>::next` (`src/iterator.rs:85-97`). -/
def Children.nextF {T : Type} (h : Heap T) (s : Children) : Option Nat × Children :=
  if s.finished h then (none, s)
  else match s.next with
    | some n => (some n, { s with next := nextSiblingAcc h n })
    | none => (none, { s with next := none })

/-- `<Children as DoubleEndedIterator>::next_back` (`src/iterator.rs:104-116`). -/
def Children.nextBackF {T : Type} (h : Heap T) (s : Children) : Option Nat × Children :=
  if s.finished h then (none, s)
  else match s.next_back with
    | some n => (some n, { s with next_back := prevSiblingAcc h n })
    | none => (none, { s with next_back := none })

/-- Drain the `Children` iterator forwards (fuelled; the iterator itself is
lazy and finite on a static tree). -/
def childrenFwd {T : Type} (h : Heap T) : Nat → Children → List Nat
  | 0, _ => []
  | fuel + 1, s => match s.nextF h with
    | (some n, s') => n :: childrenFwd h fuel s'
    | (none, _) => []

/-- Drain the `Children` iterator backwards (fuelled). -/
def childrenBwd {T : Type} (h : Heap T) : Nat → Children → List Nat
  | 0, _ => []
  | fuel + 1, s => match s.nextBackF h with
    | (some n, s') => n :: childrenBwd h fuel s'
    | (none, _) => []

/-- `NodeEdge` (`src/iterator.rs:148-158`): pre-order entry / post-order
exit marker.  Its `PartialEq` compares tag and node identity. -/
inductive NodeEdge where
  | Start : Nat → NodeEdge
  | End : Nat → NodeEdge
deriving DecidableEq, Repr

/-- `NodeEdge::next_item` (`src/iterator.rs:172-197`), identical to the
inline successor computation of `Traverse::next` in `src/lib.rs:544-578`:
the forward pre/post-order step bounded by the captured root. -/
def NodeEdge.next_item {T : Type} (h : Heap T) (root : Nat) : NodeEdge → Option NodeEdge
  | .Start n => match firstChildAcc h n with
    | some f => some (.Start f)
    | none => some (.End n)
  | .End n =>
    if n = root then none
    else match nextSiblingAcc h n with
      | some s => some (.Start s)
      | none => match parentAcc h n with
        | some p => some (.End p)
        | none => none

/-- `NodeEdge::previous_item` (`src/iterator.rs:199-224`): the mirror-image
backward step. -/
def NodeEdge.previous_item {T : Type} (h : Heap T) (root : Nat) : NodeEdge → Option NodeEdge
  | .End n => match lastChildAcc h n with
    | some l => some (.End l)
    | none => some (.Start n)
  | .Start n =>
    if n = root then none
    else match prevSiblingAcc h n with
      | some v => some (.End v)
      | none => match parentAcc h n with
        | some p => some (.Start p)
        | none => none

/-- State of the double-ended `Traverse` iterator (`src/iterator.rs:229-233`). -/
structure Traverse where
  root : Nat
  next : Option NodeEdge
  next_back : Option NodeEdge
deriving DecidableEq, Repr

/-- `Traverse::new` (`src/iterator.rs:236-244`). -/
def Traverse.new (i : Nat) : Traverse :=
  { root := i, next := some (.Start i), next_back := some (.End i) }

/-- `Traverse::finished` (`src/iterator.rs:247-252`): exhausted once the
backward cursor's forward successor equals the forward cursor. -/
def Traverse.finished {T : Type} (h : Heap T) (t : Traverse) : Bool :=
  match t.next_back with
  | some nb => nb.next_item h t.root == t.next
  | none => true

/-- `<Traverse as Iterator>::next` (`src/iterator.rs:261-273`). -/
def Traverse.nextF {T : Type} (h : Heap T) (t : Traverse) : Option NodeEdge × Traverse :=
  if t.finished h then (none, t)
  else match t.next with
    | some item => (some item, { t with next := item.next_item h t.root })
    | none => (none, { t with next := none })

/-- Drain the `Traverse` iterator forwards (fuelled). -/
def traverseFwd {T : Type} (h : Heap T) : Nat → Traverse → List NodeEdge
  | 0, _ => []
  | fuel + 1, t => match t.nextF h with
    | (some e, t') => e :: traverseFwd h fuel t'
    | (none, _) => []

/-- `Descendants` (`src/iterator.rs:128-143`): the `Start` edges of the
forward traversal, i.e. the pre-order node sequence. -/
def descList {T : Type} (h : Heap T) (i fuel : Nat) : List Nat :=
  (traverseFwd h fuel (Traverse.new i)).filterMap
    (fun e => match e with | .Start n => some n | .End _ => none)

/-- The payload labels along the descendants sequence (what the
`it_works` test collects through `borrow()`). -/
def descLabels (h : Heap Nat) (i fuel : Nat) : List Nat :=
  (descList h i fuel).filterMap (fun n => (h.node n).map (·.data))

/-- How many strong links (`first_child`/`next_sibling`) record `i` holds
onto `x`. -/
def strongInAt {T : Type} (h : Heap T) (x i : Nat) : Nat :=
  match h.node i with
  | some d => (if d.first_child = some x then 1 else 0) +
              (if d.next_sibling = some x then 1 else 0)
  | none => 0

/-- Total number of strong links held on `x` from inside the heap. -/
def strongIn {T : Type} (h : Heap T) (x : Nat) : Nat :=
  ((List.range h.length).map (strongInAt h x)).sum

/-- The records whose strong ownership count is zero: alive, no strong
link from inside the heap, and no external `Node` handle.  Under `Rc`
semantics exactly these records are destroyed. -/
def destroyedSet {T : Type} (h : Heap T) (handles : List Nat) : List Nat :=
  (List.range h.length).filter
    (fun i => (h.node i).isSome && strongIn h i == 0 && !(handles.contains i))

/-- A link is sound when it is absent or its target is alive. -/
def aliveB {T : Type} (h : Heap T) (w : Option Nat) : Bool :=
  match w with
  | none => true
  | some j => (h.node j).isSome

/-- Per-record well-formedness check: the invariant set of the spec (link
liveness, sibling-chain and child-chain mirror consistency, no
self-parent).  `true` for dead slots. -/
def WFatB {T : Type} (h : Heap T) (i : Nat) : Bool :=
  match h.node i with
  | none => true
  | some d =>
    aliveB h d.root && aliveB h d.parent && aliveB h d.first_child &&
    aliveB h d.last_child && aliveB h d.previous_sibling && aliveB h d.next_sibling &&
    (d.parent != some i) &&
    (match d.next_sibling with
     | some j => psF h j == some i && parF h j == d.parent
     | none => true) &&
    (match d.previous_sibling with
     | some j => nsF h j == some i
     | none => true) &&
    (match d.first_child with
     | some j => psF h j == none && parF h j == some i
     | none => true) &&
    (match d.last_child with
     | some j => nsF h j == none && parF h j == some i
     | none => true) &&
    (match d.parent, d.previous_sibling with
     | some q, none => fcF h q == some i
     | _, _ => true) &&
    (match d.parent, d.next_sibling with
     | some q, none => lcF h q == some i
     | _, _ => true) &&
    (d.first_child.isNone == d.last_child.isNone)

/-- Heap well-formedness: every slot passes `WFatB`. -/
def WF {T : Type} (h : Heap T) : Prop := ∀ i, i < h.length → WFatB h i = true

instance {T : Type} (h : Heap T) : Decidable (WF h) := Nat.decidableBallLT _ _

/-- The strong-reference edge `i ⟶ j`: record `i`'s `first_child` or
`next_sibling` is `j` (Boolean form). -/
def sedgeB {T : Type} (h : Heap T) (i j : Nat) : Bool :=
  match h.node i with
  | some d => d.first_child == some j || d.next_sibling == some j
  | none => false

/-- The strong-reference edge as a proposition. -/
def sedge {T : Type} (h : Heap T) (i j : Nat) : Prop := sedgeB h i j = true

/-- Strong reachability: `i` reaches `j` along `first_child`/`next_sibling`
links (reflexively). -/
def Reaches {T : Type} (h : Heap T) : Nat → Nat → Prop :=
  Relation.ReflTransGen (sedge h)

/-- Acyclicity of the strong-reference subgraph: no record strongly
reaches itself (spec invariant 1). -/
def Acyclic {T : Type} (h : Heap T) : Prop :=
  ∀ i, ¬ Relation.TransGen (sedge h) i i

/-- Per-record check that a rank function increases along both strong
links; used to certify acyclicity of concrete heaps. -/
def rankOKatB {T : Type} (h : Heap T) (f : Nat → Nat) (i : Nat) : Bool :=
  match h.node i with
  | none => true
  | some d =>
    (match d.first_child with | some j => decide (f i < f j) | none => true) &&
    (match d.next_sibling with | some j => decide (f i < f j) | none => true)

/-- A rank function increasing along every strong edge of the heap. -/
def rankOK {T : Type} (h : Heap T) (f : Nat → Nat) : Prop :=
  ∀ i, i < h.length → rankOKatB h f i = true

instance {T : Type} (h : Heap T) (f : Nat → Nat) : Decidable (rankOK h f) :=
  Nat.decidableBallLT _ _

/-- Modelled from the spec: the iterative destruction routine of §4.5 is
not in `src/` (the shipped `lib.rs` variant predates it and relies on the
runtime's recursive drop; only the spec and the crate's commented-out
stack-overflow test witness it).  This is its worklist collection phase:
an explicit work-stack walk over the dying record's first child that
pushes each visited node's next sibling and first child — the
sibling-then-descendants walk — accumulating every descendant. -/
def collectDesc {T : Type} (h : Heap T) : Nat → List Nat → List Nat → List Nat
  | 0, _, acc => acc.reverse
  | _ + 1, [], acc => acc.reverse
  | fuel + 1, x :: stack, acc =>
    let stack1 := match nsF h x with
      | some s => s :: stack
      | none => stack
    let stack2 := match fcF h x with
      | some f => f :: stack1
      | none => stack1
    collectDesc h fuel stack2 (x :: acc)

/-- Modelled from the spec: the destruction routine of §4.5, run when a
record's strong count reaches zero — collect every descendant of the
record's first child into an explicit worklist, detach each collected
node from its structural position before any is freed, then free the
record together with every collected node.  Returns the post-detach heap
and the list of freed records (in collection order). -/
def dropSub {T : Type} (h : Heap T) (n fuel : Nat) : Heap T × List Nat :=
  let work := match fcF h n with
    | some f => collectDesc h fuel [f] []
    | none => []
  (work.foldl (fun g x => detach g x) h, n :: work)

/-- A single-child chain record: node `i` of an `m`-node chain built by
repeated `append`, with node `i + 1` as its only child. -/
def chainNode (m i : Nat) : NodeData Unit :=
  { root := if i = 0 then none else some 0,
    parent := if i = 0 then none else some (i - 1),
    first_child := if i + 1 < m then some (i + 1) else none,
    last_child := if i + 1 < m then some (i + 1) else none,
    previous_sibling := none, next_sibling := none, data := () }

/-- The deep single-child chain of `m` nodes (the shape of the spec's
10^6-node destruction test). -/
def chainHeap (m : Nat) : Heap Unit :=
  (List.range m).map (fun i => some (chainNode m i))

/-- Per-record dynamic aliasing state (§4.4): the state of the `RefCell`
guarding the record. -/
inductive BorrowState where
  | free : BorrowState
  | shared : Nat → BorrowState
  | exclusive : BorrowState
deriving DecidableEq, Repr

/-- The borrow state of every record. -/
abbrev Borrows := Nat → BorrowState

/-- `Node::first_child` through `RefCell::borrow`: panics — embedded as
`BorrowConflict` — when the record is exclusively borrowed
(`src/lib.rs:105-107`). -/
def firstChildChecked {T : Type} (h : Heap T) (bs : Borrows) (i : Nat) :
    Except RcError (Option Nat) :=
  match bs i with
  | .exclusive => .error .borrowConflict
  | _ => .ok (firstChildAcc h i)

/-- `Node::last_child` with the borrow check. -/
def lastChildChecked {T : Type} (h : Heap T) (bs : Borrows) (i : Nat) :
    Except RcError (Option Nat) :=
  match bs i with
  | .exclusive => .error .borrowConflict
  | _ => .ok (lastChildAcc h i)

/-- `Node::next_sibling` with the borrow check. -/
def nextSiblingChecked {T : Type} (h : Heap T) (bs : Borrows) (i : Nat) :
    Except RcError (Option Nat) :=
  match bs i with
  | .exclusive => .error .borrowConflict
  | _ => .ok (nextSiblingAcc h i)

/-- `Node::previous_sibling` with the borrow check. -/
def prevSiblingChecked {T : Type} (h : Heap T) (bs : Borrows) (i : Nat) :
    Except RcError (Option Nat) :=
  match bs i with
  | .exclusive => .error .borrowConflict
  | _ => .ok (prevSiblingAcc h i)

/-- `Node::parent` with the borrow check. -/
def parentChecked {T : Type} (h : Heap T) (bs : Borrows) (i : Nat) :
    Except RcError (Option Nat) :=
  match bs i with
  | .exclusive => .error .borrowConflict
  | _ => .ok (parentAcc h i)

/-- `Node::root` with the borrow check (`src/lib.rs:84-89`). -/
def rootChecked {T : Type} (h : Heap T) (bs : Borrows) (i : Nat) :
    Except RcError (Option Nat) :=
  match bs i with
  | .exclusive => .error .borrowConflict
  | _ => .ok (rootAcc h i)

/-- `Node::borrow`: shared read of the payload; fails while an exclusive
accessor is open (`src/lib.rs:141-143`). -/
def borrowChecked {T : Type} (h : Heap T) (bs : Borrows) (i : Nat) :
    Except RcError T :=
  match bs i with
  | .exclusive => .error .borrowConflict
  | _ => match h.node i with
    | some d => .ok d.data
    | none => .error .invalidHandle

/-- `Node::borrow_mut`: exclusive access to the payload; requires the
record to be entirely free (`src/lib.rs:150-152`). -/
def borrowMutChecked {T : Type} (h : Heap T) (bs : Borrows) (i : Nat) :
    Except RcError T :=
  match bs i with
  | .free => match h.node i with
    | some d => .ok d.data
    | none => .error .invalidHandle
  | _ => .error .borrowConflict

/-- The forward traversal step with borrow checks: each link it follows
goes through a checked accessor, as in the source where every
`first_child()` / `next_sibling()` / `parent()` call borrows the record. -/
def nextItemChecked {T : Type} (h : Heap T) (bs : Borrows) (root : Nat) :
    NodeEdge → Except RcError (Option NodeEdge)
  | .Start n => match firstChildChecked h bs n with
    | .error e => .error e
    | .ok (some f) => .ok (some (.Start f))
    | .ok none => .ok (some (.End n))
  | .End n =>
    if n = root then .ok none
    else match nextSiblingChecked h bs n with
      | .error e => .error e
      | .ok (some s) => .ok (some (.Start s))
      | .ok none => match parentChecked h bs n with
        | .error e => .error e
        | .ok (some p) => .ok (some (.End p))
        | .ok none => .ok none

/-- `Clone for Node` (`src/lib.rs:33-38`): cloning a handle copies the
pointer — same record identity, no allocation. -/
def cloneNode {T : Type} (h : Heap T) (i : Nat) : Heap T × Nat := (h, i)

/-- `PartialEq for Node` (`src/lib.rs:40-44`): `Rc::ptr_eq`, i.e. record
identity, never payload comparison. -/
def nodeEq (i j : Nat) : Bool := i == j

/-- Strong ownership count of record `i`: strong links from inside the
heap plus external `Node` handles. -/
def strongCount {T : Type} (h : Heap T) (handles : List Nat) (i : Nat) : Nat :=
  strongIn h i + handles.count i

/-- The ten-node end-to-end fixture of `tests/tests.rs::it_works`:
labels 1-10 allocated in creation order (ids 0-9), built by the exact
call sequence of the test. -/
def fixture : Except RcError (Heap Nat) := do
  let (h, a) := newNode ([] : Heap Nat) 1
  let (h, n2) := newNode h 2
  let h ← append h a n2
  let (h, n3) := newNode h 3
  let h ← append h a n3
  let (h, n4) := newNode h 4
  let h ← prepend h a n4
  let (h, b) := newNode h 5
  let h ← append h b a
  let (h, n6) := newNode h 6
  let h ← insert_before h a n6
  let (h, n7) := newNode h 7
  let h ← insert_before h a n7
  let (h, n8) := newNode h 8
  let h ← insert_after h a n8
  let (h, n9) := newNode h 9
  let h ← insert_after h a n9
  let (h, c) := newNode h 10
  append h b c

/-- The fixture after `c.previous_sibling().unwrap().detach()`. -/
def fixtureDetached : Except RcError (Heap Nat) := do
  let h ← fixture
  match prevSiblingAcc h 9 with
  | some p => pure (detach h p)
  | none => .error .invalidHandle

/-- `parent.append(Node::new(d))`: append a freshly created node. -/
def appendNew {T : Type} (h : Heap T) (s : Nat) (d : T) : Except RcError (Heap T) :=
  let (h1, c) := newNode h d
  append h1 s c

/-- Append a list of freshly created children to `s`, in order. -/
def appendNewList {T : Type} (h : Heap T) (s : Nat) : List T → Except RcError (Heap T)
  | [] => .ok h
  | d :: ds => do
    let h1 ← appendNew h s d
    appendNewList h1 s ds

/-- Node 0 with child 1 (built by `append`), then `1.append(0)`: the
argument is a strong-link ancestor of the node operated on. -/
def cycleFixture : Except RcError (Heap Nat) := do
  let (h, r) := newNode ([] : Heap Nat) 0
  let (h, a) := newNode h 1
  let h ← append h r a
  append h a r

/-- Parent 0 with child 1 (so node 1 caches root 0), then the child
detached again. -/
def staleRootFixture : Except RcError (Heap Nat) := do
  let (h, p) := newNode ([] : Heap Nat) 0
  let (h, c) := newNode h 1
  let h ← append h p c
  pure (detach h 1)

/-- Chain 0 → 1 → 2 (each caching root 0) plus isolated node 3; then the
subtree rooted at 1 is relocated under 3 by `append`. -/
def relocateFixture : Except RcError (Heap Nat) := do
  let (h, r1) := newNode ([] : Heap Nat) 0
  let (h, a) := newNode h 1
  let h ← append h r1 a
  let (h, g) := newNode h 2
  let h ← append h a g
  let (h, r2) := newNode h 3
  append h r2 a

/-- Per-record well-formedness, in propositional form over the raw field
readers (equivalent to `WFatB` on every slot; trivially true for dead or
out-of-range slots, whose field reads are all `none`). -/
structure WFatP {T : Type} (h : Heap T) (i : Nat) : Prop where
  root_alive : ∀ j, rootF h i = some j → (h.node j).isSome
  par_alive : ∀ j, parF h i = some j → (h.node j).isSome
  fc_alive : ∀ j, fcF h i = some j → (h.node j).isSome
  lc_alive : ∀ j, lcF h i = some j → (h.node j).isSome
  ps_alive : ∀ j, psF h i = some j → (h.node j).isSome
  ns_alive : ∀ j, nsF h i = some j → (h.node j).isSome
  par_ne_self : parF h i ≠ some i
  ns_ps : ∀ j, nsF h i = some j → psF h j = some i
  ns_par : ∀ j, nsF h i = some j → parF h j = parF h i
  ps_ns : ∀ j, psF h i = some j → nsF h j = some i
  fc_ps : ∀ j, fcF h i = some j → psF h j = none
  fc_par : ∀ j, fcF h i = some j → parF h j = some i
  lc_ns : ∀ j, lcF h i = some j → nsF h j = none
  lc_par : ∀ j, lcF h i = some j → parF h j = some i
  par_ps_fc : ∀ q, parF h i = some q → psF h i = none → fcF h q = some i
  par_ns_lc : ∀ q, parF h i = some q → nsF h i = none → lcF h q = some i
  fc_lc_none : (fcF h i).isNone = (lcF h i).isNone

/-- Concrete well-formed heap: node 0 with children 1, 2, 3 in order
(each caching root 0), plus an isolated node 4. -/
def exH3 : Heap Nat :=
  [some { root := none, parent := none, first_child := some 1, last_child := some 3,
          previous_sibling := none, next_sibling := none, data := 0 },
   some { root := some 0, parent := some 0, first_child := none, last_child := none,
          previous_sibling := none, next_sibling := some 2, data := 1 },
   some { root := some 0, parent := some 0, first_child := none, last_child := none,
          previous_sibling := some 1, next_sibling := some 3, data := 2 },
   some { root := some 0, parent := some 0, first_child := none, last_child := none,
          previous_sibling := some 2, next_sibling := none, data := 3 },
   some { root := none, parent := none, first_child := none, last_child := none,
          previous_sibling := none, next_sibling := none, data := 4 }]

/-- Concrete heap of two isolated singleton nodes. -/
def exW1 : Heap Nat :=
  [some { root := none, parent := none, first_child := none, last_child := none,
          previous_sibling := none, next_sibling := none, data := 0 },
   some { root := none, parent := none, first_child := none, last_child := none,
          previous_sibling := none, next_sibling := none, data := 1 }]

/-- Concrete heap of one isolated singleton node. -/
def exS1 : Heap Nat :=
  [some { root := none, parent := none, first_child := none, last_child := none,
          previous_sibling := none, next_sibling := none, data := 0 }]

/-- Borrow states with record 0 exclusively borrowed and all others free. -/
def exBorrow : Borrows := fun i => if i = 0 then .exclusive else .free

/-- The heap `exW1` after `append 0 1` (equivalently `prepend 0 1`):
node 1 is the only child of node 0 and caches root 0. -/
def exW1A : Heap Nat :=
  [some { root := none, parent := none, first_child := some 1, last_child := some 1,
          previous_sibling := none, next_sibling := none, data := 0 },
   some { root := some 0, parent := some 0, first_child := none, last_child := none,
          previous_sibling := none, next_sibling := none, data := 1 }]

/-- The heap `exW1` after `insert_after 0 1`: 1 becomes 0's next sibling. -/
def exW1IA : Heap Nat :=
  [some { root := none, parent := none, first_child := none, last_child := none,
          previous_sibling := none, next_sibling := some 1, data := 0 },
   some { root := none, parent := none, first_child := none, last_child := none,
          previous_sibling := some 0, next_sibling := none, data := 1 }]

/-- The heap `exW1` after `insert_before 0 1`: 1 becomes 0's previous sibling. -/
def exW1IB : Heap Nat :=
  [some { root := none, parent := none, first_child := none, last_child := none,
          previous_sibling := some 1, next_sibling := none, data := 0 },
   some { root := none, parent := none, first_child := none, last_child := none,
          previous_sibling := none, next_sibling := some 0, data := 1 }]

/-- The strong-reference cycle produced by `cycleFixture`: 0 and 1 are
each other's `first_child`. -/
def cycleHeap : Heap Nat :=
  [some { root := some 0, parent := some 1, first_child := some 1, last_child := some 1,
          previous_sibling := none, next_sibling := none, data := 0 },
   some { root := some 0, parent := some 0, first_child := some 0, last_child := some 0,
          previous_sibling := none, next_sibling := none, data := 1 }]

/-- Region invariant for repeated fresh appends: after `k` appends to `p`
(a node of the original `N`-slot heap), ids `N..N+k-1` form `p`'s sibling
chain in order, `p`'s child links frame it, and the new nodes are leaves. -/
def ChainInv {T : Type} (g : Heap T) (p N k : Nat) : Prop :=
  g.length = N + k ∧ p < N ∧ (g.node p).isSome = true ∧
  fcF g p = (if k = 0 then none else some N) ∧
  lcF g p = (if k = 0 then none else some (N + k - 1)) ∧
  ∀ j, j < k →
    (g.node (N + j)).isSome = true ∧ parF g (N + j) = some p ∧
    fcF g (N + j) = none ∧ lcF g (N + j) = none ∧
    psF g (N + j) = (if j = 0 then none else some (N + j - 1)) ∧
    nsF g (N + j) = (if j = k - 1 then none else some (N + j + 1))

/-- The single-child chain of `chainHeap m` after the first `k` collected
descendants have been detached by the destruction routine: nodes `1..k`
have lost their parent link, nodes `0..k-1` their child links. -/
def chainMid (m k x : Nat) : NodeData Unit :=
  { root := if x = 0 then none else some 0,
    parent := if x = 0 ∨ x ≤ k then none else some (x - 1),
    first_child := if k ≤ x ∧ x + 1 < m then some (x + 1) else none,
    last_child := if k ≤ x ∧ x + 1 < m then some (x + 1) else none,
    previous_sibling := none, next_sibling := none, data := () }

theorem node_lt_length {T : Type} {h : Heap T} {i : Nat} {d : NodeData T}
    (hn : h.node i = some d) : i < h.length := by
  induction h generalizing i with
  | nil => simp [Heap.node] at hn
  | cons x xs ih =>
    cases i with
    | zero => simp
    | succ n =>
      have : Heap.node xs n = some d := hn
      simpa using Nat.succ_lt_succ (ih this)

theorem node_eq_none_of_ge {T : Type} {h : Heap T} {i : Nat}
    (hi : h.length ≤ i) : h.node i = none := by
  cases hn : h.node i with
  | none => rfl
  | some d => exact absurd (node_lt_length hn) (Nat.not_lt.mpr hi)

theorem length_setN {T : Type} (h : Heap T) (i : Nat) (d : NodeData T) :
    (h.setN i d).length = h.length := by
  induction h generalizing i with
  | nil => rfl
  | cons x xs ih => cases i <;> simp [Heap.setN, ih]

theorem node_setN_self {T : Type} {h : Heap T} {i : Nat} (d : NodeData T)
    (hi : i < h.length) : (h.setN i d).node i = some d := by
  induction h generalizing i with
  | nil => simp at hi
  | cons x xs ih =>
    cases i with
    | zero => rfl
    | succ n => exact ih (Nat.lt_of_succ_lt_succ hi)

theorem node_setN_ne {T : Type} {i j : Nat} (h : Heap T) (d : NodeData T)
    (hne : j ≠ i) : (h.setN i d).node j = h.node j := by
  induction h generalizing i j with
  | nil => rfl
  | cons x xs ih =>
    cases i with
    | zero =>
      cases j with
      | zero => exact absurd rfl hne
      | succ m => rfl
    | succ n =>
      cases j with
      | zero => rfl
      | succ m => exact ih (fun hc => hne (by rw [hc]))

theorem node_update_self {T : Type} {h : Heap T} {i : Nat} {d : NodeData T}
    (f : NodeData T → NodeData T) (hn : h.node i = some d) :
    (h.update i f).node i = some (f d) := by
  unfold Heap.update
  rw [hn]
  exact node_setN_self _ (node_lt_length hn)

theorem node_update_ne {T : Type} {i j : Nat} (h : Heap T)
    (f : NodeData T → NodeData T) (hne : j ≠ i) :
    (h.update i f).node j = h.node j := by
  unfold Heap.update
  cases hn : h.node i with
  | none => rfl
  | some d => exact node_setN_ne h (f d) hne

theorem length_update {T : Type} (h : Heap T) (i : Nat)
    (f : NodeData T → NodeData T) : (h.update i f).length = h.length := by
  unfold Heap.update
  cases h.node i <;> simp [length_setN]

theorem isSome_node_update {T : Type} (h : Heap T) (i j : Nat)
    (f : NodeData T → NodeData T) :
    ((h.update i f).node j).isSome = (h.node j).isSome := by
  by_cases hj : j = i
  · subst hj
    cases hn : h.node j with
    | none => simp [Heap.update, hn]
    | some d => rw [node_update_self f hn]; rfl
  · rw [node_update_ne h f hj]

theorem isSome_node_setN {T : Type} {h : Heap T} {i : Nat} {d0 : NodeData T}
    (d : NodeData T) (hn : h.node i = some d0) (j : Nat) :
    ((h.setN i d).node j).isSome = (h.node j).isSome := by
  by_cases hj : j = i
  · subst hj
    rw [node_setN_self d (node_lt_length hn)]; rw [hn]; rfl
  · rw [node_setN_ne h d hj]

theorem node_append_lt {T : Type} (h l : Heap T) (i : Nat) (hi : i < h.length) :
    Heap.node (h ++ l) i = h.node i := by
  induction h generalizing i with
  | nil => simp at hi
  | cons x xs ih =>
    cases i with
    | zero => rfl
    | succ n => exact ih n (Nat.lt_of_succ_lt_succ hi)

theorem node_append_self {T : Type} (h : Heap T) (x : Option (NodeData T)) :
    Heap.node (h ++ [x]) h.length = x := by
  induction h with
  | nil => rfl
  | cons y ys ih => exact ih

theorem sedge_iff {T : Type} (h : Heap T) (i j : Nat) :
    sedge h i j ↔ fcF h i = some j ∨ nsF h i = some j := by
  unfold sedge sedgeB fcF nsF
  cases hn : h.node i with
  | none => simp
  | some d => simp

theorem sedge_of_fc {T : Type} {h : Heap T} {i j : Nat}
    (hf : fcF h i = some j) : sedge h i j := (sedge_iff h i j).mpr (Or.inl hf)

theorem sedge_of_ns {T : Type} {h : Heap T} {i j : Nat}
    (hf : nsF h i = some j) : sedge h i j := (sedge_iff h i j).mpr (Or.inr hf)

theorem rank_lt_of_sedge {T : Type} {h : Heap T} {f : Nat → Nat}
    (hr : rankOK h f) {i j : Nat} (he : sedge h i j) : f i < f j := by
  rcases (sedge_iff h i j).mp he with hf | hf <;>
  · simp only [fcF, nsF] at hf
    cases hn : h.node i with
    | none => rw [hn] at hf; simp at hf
    | some d =>
      rw [hn] at hf
      simp at hf
      have hb := hr i (node_lt_length hn)
      unfold rankOKatB at hb
      rw [hn] at hb
      simp only [Bool.and_eq_true] at hb
      first
      | (rw [hf] at hb
         exact of_decide_eq_true hb.1)
      | (rw [hf] at hb
         exact of_decide_eq_true hb.2)

theorem rank_le_of_reaches {T : Type} {h : Heap T} {f : Nat → Nat}
    (hr : rankOK h f) {i j : Nat}
    (hp : Relation.ReflTransGen (sedge h) i j) : f i ≤ f j := by
  induction hp with
  | refl => exact Nat.le_refl _
  | tail _ he ih => exact Nat.le_of_lt (Nat.lt_of_le_of_lt ih (rank_lt_of_sedge hr he))

theorem acyclic_of_rank {T : Type} {h : Heap T} (f : Nat → Nat)
    (hr : rankOK h f) : Acyclic h := by
  intro i hcyc
  rcases (Relation.TransGen.tail'_iff).mp hcyc with ⟨w, hw, he⟩
  exact absurd (Nat.lt_of_le_of_lt (rank_le_of_reaches hr hw) (rank_lt_of_sedge hr he))
    (Nat.lt_irrefl _)

theorem not_reaches_of_rank {T : Type} {h : Heap T} (f : Nat → Nat)
    (hr : rankOK h f) {i j : Nat} (hij : f j < f i) :
    ¬ Relation.ReflTransGen (sedge h) i j := by
  intro hp
  exact absurd (rank_le_of_reaches hr hp) (Nat.not_le.mpr hij)

theorem parF_eq {T : Type} {h : Heap T} {i : Nat} {d : NodeData T}
    (hn : h.node i = some d) : parF h i = d.parent := by simp [parF, hn]

theorem psF_eq {T : Type} {h : Heap T} {i : Nat} {d : NodeData T}
    (hn : h.node i = some d) : psF h i = d.previous_sibling := by simp [psF, hn]

theorem fcF_eq {T : Type} {h : Heap T} {i : Nat} {d : NodeData T}
    (hn : h.node i = some d) : fcF h i = d.first_child := by simp [fcF, hn]

theorem lcF_eq {T : Type} {h : Heap T} {i : Nat} {d : NodeData T}
    (hn : h.node i = some d) : lcF h i = d.last_child := by simp [lcF, hn]

theorem nsF_eq {T : Type} {h : Heap T} {i : Nat} {d : NodeData T}
    (hn : h.node i = some d) : nsF h i = d.next_sibling := by simp [nsF, hn]

theorem rootF_eq {T : Type} {h : Heap T} {i : Nat} {d : NodeData T}
    (hn : h.node i = some d) : rootF h i = d.root := by simp [rootF, hn]

theorem wfatP_of_dead {T : Type} {h : Heap T} {i : Nat}
    (hn : h.node i = none) : WFatP h i := by
  constructor <;> simp [rootF, parF, fcF, lcF, psF, nsF, hn]

theorem wfatP_of_wfatB {T : Type} {h : Heap T} {i : Nat}
    (hb : WFatB h i = true) : WFatP h i := by
  cases hn : h.node i with
  | none => exact wfatP_of_dead hn
  | some d =>
    unfold WFatB at hb
    rw [hn] at hb
    simp only [Bool.and_eq_true] at hb
    obtain ⟨⟨⟨⟨⟨⟨⟨⟨⟨⟨⟨⟨⟨ha1, ha2⟩, ha3⟩, ha4⟩, ha5⟩, ha6⟩, hx1⟩,
      hm1⟩, hm2⟩, hm3⟩, hm6⟩, hm4⟩, hm7⟩, hm8⟩ := hb
    constructor
    · intro j hj
      rw [rootF_eq hn] at hj
      rw [hj] at ha1
      simpa [aliveB] using ha1
    · intro j hj
      rw [parF_eq hn] at hj
      rw [hj] at ha2
      simpa [aliveB] using ha2
    · intro j hj
      rw [fcF_eq hn] at hj
      rw [hj] at ha3
      simpa [aliveB] using ha3
    · intro j hj
      rw [lcF_eq hn] at hj
      rw [hj] at ha4
      simpa [aliveB] using ha4
    · intro j hj
      rw [psF_eq hn] at hj
      rw [hj] at ha5
      simpa [aliveB] using ha5
    · intro j hj
      rw [nsF_eq hn] at hj
      rw [hj] at ha6
      simpa [aliveB] using ha6
    · rw [parF_eq hn]
      simpa using hx1
    · intro j hj
      rw [nsF_eq hn] at hj
      rw [hj] at hm1
      simp only [Bool.and_eq_true, beq_iff_eq] at hm1
      exact hm1.1
    · intro j hj
      rw [nsF_eq hn] at hj
      rw [hj] at hm1
      simp only [Bool.and_eq_true, beq_iff_eq] at hm1
      rw [parF_eq hn]
      exact hm1.2
    · intro j hj
      rw [psF_eq hn] at hj
      rw [hj] at hm2
      simpa using hm2
    · intro j hj
      rw [fcF_eq hn] at hj
      rw [hj] at hm3
      simp only [Bool.and_eq_true, beq_iff_eq] at hm3
      exact hm3.1
    · intro j hj
      rw [fcF_eq hn] at hj
      rw [hj] at hm3
      simp only [Bool.and_eq_true, beq_iff_eq] at hm3
      exact hm3.2
    · intro j hj
      rw [lcF_eq hn] at hj
      rw [hj] at hm6
      simp only [Bool.and_eq_true, beq_iff_eq] at hm6
      exact hm6.1
    · intro j hj
      rw [lcF_eq hn] at hj
      rw [hj] at hm6
      simp only [Bool.and_eq_true, beq_iff_eq] at hm6
      exact hm6.2
    · intro q hq hps
      rw [parF_eq hn] at hq
      rw [psF_eq hn] at hps
      rw [hq, hps] at hm4
      simpa using hm4
    · intro q hq hns
      rw [parF_eq hn] at hq
      rw [nsF_eq hn] at hns
      rw [hq, hns] at hm7
      simpa using hm7
    · rw [fcF_eq hn, lcF_eq hn]
      simpa using hm8

theorem wfatB_of_wfatP {T : Type} {h : Heap T} {i : Nat}
    (hp : WFatP h i) : WFatB h i = true := by
  unfold WFatB
  cases hn : h.node i with
  | none => rfl
  | some d =>
    simp only [Bool.and_eq_true]
    refine ⟨⟨⟨⟨⟨⟨⟨⟨⟨⟨⟨⟨⟨?_, ?_⟩, ?_⟩, ?_⟩, ?_⟩, ?_⟩, ?_⟩,
      ?_⟩, ?_⟩, ?_⟩, ?_⟩, ?_⟩, ?_⟩, ?_⟩
    · cases hr : d.root with
      | none => rfl
      | some j => simpa [aliveB] using hp.root_alive j (by rw [rootF_eq hn, hr])
    · cases hr : d.parent with
      | none => rfl
      | some j => simpa [aliveB] using hp.par_alive j (by rw [parF_eq hn, hr])
    · cases hr : d.first_child with
      | none => rfl
      | some j => simpa [aliveB] using hp.fc_alive j (by rw [fcF_eq hn, hr])
    · cases hr : d.last_child with
      | none => rfl
      | some j => simpa [aliveB] using hp.lc_alive j (by rw [lcF_eq hn, hr])
    · cases hr : d.previous_sibling with
      | none => rfl
      | some j => simpa [aliveB] using hp.ps_alive j (by rw [psF_eq hn, hr])
    · cases hr : d.next_sibling with
      | none => rfl
      | some j => simpa [aliveB] using hp.ns_alive j (by rw [nsF_eq hn, hr])
    · have := hp.par_ne_self
      rw [parF_eq hn] at this
      simpa using this
    · cases hr : d.next_sibling with
      | none => rfl
      | some j =>
        have h1 := hp.ns_ps j (by rw [nsF_eq hn, hr])
        have h2 := hp.ns_par j (by rw [nsF_eq hn, hr])
        rw [parF_eq hn] at h2
        simp [h1, h2]
    · cases hr : d.previous_sibling with
      | none => rfl
      | some j => simp [hp.ps_ns j (by rw [psF_eq hn, hr])]
    · cases hr : d.first_child with
      | none => rfl
      | some j =>
        simp [hp.fc_ps j (by rw [fcF_eq hn, hr]), hp.fc_par j (by rw [fcF_eq hn, hr])]
    · cases hr : d.last_child with
      | none => rfl
      | some j =>
        simp [hp.lc_ns j (by rw [lcF_eq hn, hr]), hp.lc_par j (by rw [lcF_eq hn, hr])]
    · cases hq : d.parent with
      | none => rfl
      | some q =>
        cases hr : d.previous_sibling with
        | none =>
          simp [hp.par_ps_fc q (by rw [parF_eq hn, hq]) (by rw [psF_eq hn, hr])]
        | some a => rfl
    · cases hq : d.parent with
      | none => rfl
      | some q =>
        cases hr : d.next_sibling with
        | none =>
          simp [hp.par_ns_lc q (by rw [parF_eq hn, hq]) (by rw [nsF_eq hn, hr])]
        | some b => rfl
    · have := hp.fc_lc_none
      rw [fcF_eq hn, lcF_eq hn] at this
      simp [this]

theorem wf_wfatP {T : Type} {h : Heap T} (hw : WF h) : ∀ i, WFatP h i := by
  intro i
  by_cases hi : i < h.length
  · exact wfatP_of_wfatB (hw i hi)
  · exact wfatP_of_dead (node_eq_none_of_ge (Nat.le_of_not_lt hi))

theorem wf_of_forall_wfatP {T : Type} {h : Heap T}
    (hp : ∀ i, WFatP h i) : WF h := fun i _ => wfatB_of_wfatP (hp i)

theorem sedge_self_absurd {T : Type} {h : Heap T} (hac : Acyclic h) {i : Nat}
    (he : sedge h i i) : False :=
  hac i (Relation.TransGen.single he)

theorem two_cycle_absurd {T : Type} {h : Heap T} (hac : Acyclic h) {i j : Nat}
    (h1 : sedge h i j) (h2 : sedge h j i) : False :=
  hac i (Relation.TransGen.tail (Relation.TransGen.single h1) h2)

theorem upgrade_some {T : Type} {h : Heap T} {j : Nat}
    (ha : (h.node j).isSome = true) : upgrade h (some j) = some j := by
  obtain ⟨d, hd⟩ := Option.isSome_iff_exists.mp ha
  simp [upgrade, hd]

theorem ps_ne_self {T : Type} {h : Heap T} {n : Nat}
    (hP : ∀ i, WFatP h i) (hac : Acyclic h) : psF h n ≠ some n := by
  intro hc
  exact sedge_self_absurd hac (sedge_of_ns ((hP n).ps_ns n hc))

theorem ns_ne_self {T : Type} {h : Heap T} {n : Nat}
    (hac : Acyclic h) : nsF h n ≠ some n := by
  intro hc
  exact sedge_self_absurd hac (sedge_of_ns hc)

theorem fc_ne_self {T : Type} {h : Heap T} {n : Nat}
    (hac : Acyclic h) : fcF h n ≠ some n := by
  intro hc
  exact sedge_self_absurd hac (sedge_of_fc hc)

theorem ps_ne_ns {T : Type} {h : Heap T} {n a b : Nat}
    (hP : ∀ i, WFatP h i) (hac : Acyclic h)
    (hps : psF h n = some a) (hns : nsF h n = some b) : a ≠ b := by
  intro hc
  subst hc
  exact two_cycle_absurd hac (sedge_of_ns hns) (sedge_of_ns ((hP n).ps_ns a hps))

theorem ps_ne_par {T : Type} {h : Heap T} {n a p : Nat}
    (hP : ∀ i, WFatP h i)
    (hps : psF h n = some a) (hpar : parF h n = some p) : a ≠ p := by
  intro hc
  subst hc
  have h1 : nsF h a = some n := (hP n).ps_ns a hps
  have h2 : parF h n = parF h a := (hP a).ns_par n h1
  exact (hP a).par_ne_self (h2 ▸ hpar)

theorem ns_ne_par {T : Type} {h : Heap T} {n b p : Nat}
    (hP : ∀ i, WFatP h i)
    (hns : nsF h n = some b) (hpar : parF h n = some p) : b ≠ p := by
  intro hc
  subst hc
  have h2 : parF h b = parF h n := (hP n).ns_par b hns
  exact (hP b).par_ne_self (hpar ▸ h2)

theorem node_setN_if {T : Type} {h : Heap T} {i : Nat} {d0 : NodeData T}
    (hn : h.node i = some d0) (d : NodeData T) (x : Nat) :
    (h.setN i d).node x = if x = i then some d else h.node x := by
  by_cases hx : x = i
  · subst hx; rw [if_pos rfl]; exact node_setN_self d (node_lt_length hn)
  · rw [if_neg hx]; exact node_setN_ne h d hx

theorem node_update_if {T : Type} (h : Heap T) (i : Nat)
    (f : NodeData T → NodeData T) (x : Nat) :
    (h.update i f).node x = if x = i then (h.node x).map f else h.node x := by
  by_cases hx : x = i
  · subst hx
    cases hn : h.node x with
    | none => simp [Heap.update, hn]
    | some d => rw [if_pos rfl, node_update_self f hn]; rfl
  · rw [if_neg hx, node_update_ne h f hx]

theorem detach_node {T : Type} {h : Heap T} {n : Nat} {nd : NodeData T}
    (hP : ∀ i, WFatP h i) (hac : Acyclic h) (hn : h.node n = some nd) (x : Nat) :
    (detach h n).node x =
      if x = n then
        some { nd with parent := none, previous_sibling := none, next_sibling := none }
      else (h.node x).map (fun xd =>
        { xd with
          previous_sibling :=
            if nd.next_sibling = some x then nd.previous_sibling else xd.previous_sibling,
          next_sibling :=
            if nd.previous_sibling = some x then nd.next_sibling else xd.next_sibling,
          first_child :=
            if nd.parent = some x ∧ nd.previous_sibling = none then nd.next_sibling
            else xd.first_child,
          last_child :=
            if nd.parent = some x ∧ nd.next_sibling = none then nd.previous_sibling
            else xd.last_child }) := by
  have hpsn : nd.previous_sibling ≠ some n := fun hc =>
    ps_ne_self hP hac (n := n) (by rw [psF_eq hn]; exact hc)
  have hnsn : nd.next_sibling ≠ some n := fun hc =>
    ns_ne_self hac (n := n) (by rw [nsF_eq hn]; exact hc)
  have hparn : nd.parent ≠ some n := fun hc =>
    (hP n).par_ne_self (by rw [parF_eq hn]; exact hc)
  have hupn : ∀ g : Heap T, upgrade g (none : Option Nat) = none := fun g => rfl
  unfold detach
  rw [hn]
  simp only
  cases hbs : nd.next_sibling with
  | some b =>
    have hbn : b ≠ n := fun hc => hnsn (hc ▸ hbs)
    have hbal : (h.node b).isSome = true :=
      (hP n).ns_alive b (by rw [nsF_eq hn]; exact hbs)
    cases hvs : nd.previous_sibling with
    | some a =>
      -- shape A: both siblings exist; parent untouched
      have han : a ≠ n := fun hc => hpsn (hc ▸ hvs)
      have haal : (h.node a).isSome = true :=
        (hP n).ps_alive a (by rw [psF_eq hn]; exact hvs)
      have hab : a ≠ b :=
        ps_ne_ns hP hac (n := n) (by rw [psF_eq hn]; exact hvs)
          (by rw [nsF_eq hn]; exact hbs)
      rw [upgrade_some (by rw [isSome_node_setN _ hn]; exact haal)]
      simp only
      rw [node_update_if, node_update_if, node_setN_if hn]
      by_cases hxn : x = n
      · rw [if_neg (fun hc => han (hc.symm.trans hxn)),
          if_neg (fun hc => hbn (hc.symm.trans hxn)), if_pos hxn, if_pos hxn]
      · by_cases hxa : x = a
        · rw [if_pos hxa, if_neg (fun hc => hab (hxa.symm.trans hc)), if_neg hxn, if_neg hxn]
          cases hxd : h.node x with
          | none => rfl
          | some xd => simp [hxa, Ne.symm hab]
        · by_cases hxb : x = b
          · rw [if_neg hxa, if_pos hxb, if_neg hxn, if_neg hxn]
            cases hxd : h.node x with
            | none => rfl
            | some xd => simp [hxb, hab]
          · rw [if_neg hxa, if_neg hxb, if_neg hxn, if_neg hxn]
            cases hxd : h.node x with
            | none => rfl
            | some xd => simp [Ne.symm hxa, Ne.symm hxb]
    | none =>
      rw [hupn]
      simp only
      cases hps : nd.parent with
      | some p =>
        -- shape B: next sibling rewritten, then parent's first_child
        have hpn : p ≠ n := fun hc => hparn (hc ▸ hps)
        have hpal : (h.node p).isSome = true :=
          (hP n).par_alive p (by rw [parF_eq hn]; exact hps)
        have hbp : b ≠ p :=
          ns_ne_par hP (n := n) (by rw [nsF_eq hn]; exact hbs)
            (by rw [parF_eq hn]; exact hps)
        rw [upgrade_some (by
          rw [isSome_node_update, isSome_node_setN _ hn]; exact hpal)]
        simp only
        rw [node_update_if, node_update_if, node_setN_if hn]
        by_cases hxn : x = n
        · rw [if_neg (fun hc => hpn (hc.symm.trans hxn)),
            if_neg (fun hc => hbn (hc.symm.trans hxn)), if_pos hxn, if_pos hxn]
        · by_cases hxp : x = p
          · rw [if_pos hxp, if_neg (fun hc => hbp (hc.symm.trans hxp)), if_neg hxn, if_neg hxn]
            cases hxd : h.node x with
            | none => rfl
            | some xd => simp [hxp, hbp]
          · by_cases hxb : x = b
            · rw [if_neg hxp, if_pos hxb, if_neg hxn, if_neg hxn]
              cases hxd : h.node x with
              | none => rfl
              | some xd => simp [hxb, Ne.symm hbp]
            · rw [if_neg hxp, if_neg hxb, if_neg hxn, if_neg hxn]
              cases hxd : h.node x with
              | none => rfl
              | some xd => simp [Ne.symm hxb, Ne.symm hxp]
      | none =>
        -- shape C: next sibling rewritten, no parent
        rw [hupn]
        simp only
        rw [node_update_if, node_setN_if hn]
        by_cases hxn : x = n
        · rw [if_neg (fun hc => hbn (hc.symm.trans hxn)), if_pos hxn, if_pos hxn]
        · by_cases hxb : x = b
          · rw [if_pos hxb, if_neg hxn, if_neg hxn]
            cases hxd : h.node x with
            | none => rfl
            | some xd => simp [hxb]
          · rw [if_neg hxb, if_neg hxn, if_neg hxn]
            cases hxd : h.node x with
            | none => rfl
            | some xd => simp [Ne.symm hxb]
  | none =>
    cases hps : nd.parent with
    | some p =>
      have hpn : p ≠ n := fun hc => hparn (hc ▸ hps)
      have hpal : (h.node p).isSome = true :=
        (hP n).par_alive p (by rw [parF_eq hn]; exact hps)
      rw [upgrade_some (by rw [isSome_node_setN _ hn]; exact hpal)]
      simp only
      cases hvs : nd.previous_sibling with
      | some a =>
        -- shape D: parent's last_child rewritten, then previous sibling
        have han : a ≠ n := fun hc => hpsn (hc ▸ hvs)
        have haal : (h.node a).isSome = true :=
          (hP n).ps_alive a (by rw [psF_eq hn]; exact hvs)
        have hap : a ≠ p :=
          ps_ne_par hP (n := n) (by rw [psF_eq hn]; exact hvs)
            (by rw [parF_eq hn]; exact hps)
        rw [upgrade_some (by rw [isSome_node_setN _ hn]; exact haal)]
        simp only
        rw [node_update_if, node_update_if, node_setN_if hn]
        by_cases hxn : x = n
        · rw [if_neg (fun hc => han (hc.symm.trans hxn)),
            if_neg (fun hc => hpn (hc.symm.trans hxn)), if_pos hxn, if_pos hxn]
        · by_cases hxa : x = a
          · rw [if_pos hxa, if_neg (fun hc => hap (hxa.symm.trans hc)), if_neg hxn, if_neg hxn]
            cases hxd : h.node x with
            | none => rfl
            | some xd => simp [hxa, Ne.symm hap]
          · by_cases hxp : x = p
            · rw [if_neg hxa, if_pos hxp, if_neg hxn, if_neg hxn]
              cases hxd : h.node x with
              | none => rfl
              | some xd => simp [hxp, hap]
            · rw [if_neg hxa, if_neg hxp, if_neg hxn, if_neg hxn]
              cases hxd : h.node x with
              | none => rfl
              | some xd => simp [Ne.symm hxa, Ne.symm hxp]
      | none =>
        -- shape F: the parent is rewritten twice (last_child, then first_child)
        rw [hupn]
        rw [upgrade_some (by
          rw [isSome_node_update, isSome_node_setN _ hn]; exact hpal)]
        simp only
        rw [node_update_if, node_update_if, node_setN_if hn]
        by_cases hxn : x = n
        · rw [if_neg (fun hc => hpn (hc.symm.trans hxn)),
            if_neg (fun hc => hpn (hc.symm.trans hxn)), if_pos hxn, if_pos hxn]
        · by_cases hxp : x = p
          · rw [if_pos hxp, if_pos hxp, if_neg hxn, if_neg hxn]
            cases hxd : h.node x with
            | none => rfl
            | some xd => simp [hxp]
          · rw [if_neg hxp, if_neg hxp, if_neg hxn, if_neg hxn]
            cases hxd : h.node x with
            | none => rfl
            | some xd => simp [Ne.symm hxp]
    | none =>
      rw [hupn]
      simp only
      cases hvs : nd.previous_sibling with
      | some a =>
        -- shape E: only the previous sibling is rewritten
        have han : a ≠ n := fun hc => hpsn (hc ▸ hvs)
        have haal : (h.node a).isSome = true :=
          (hP n).ps_alive a (by rw [psF_eq hn]; exact hvs)
        rw [upgrade_some (by rw [isSome_node_setN _ hn]; exact haal)]
        simp only
        rw [node_update_if, node_setN_if hn]
        by_cases hxn : x = n
        · rw [if_neg (fun hc => han (hc.symm.trans hxn)), if_pos hxn, if_pos hxn]
        · by_cases hxa : x = a
          · rw [if_pos hxa, if_neg hxn, if_neg hxn]
            cases hxd : h.node x with
            | none => rfl
            | some xd => simp [hxa]
          · rw [if_neg hxa, if_neg hxn, if_neg hxn]
            cases hxd : h.node x with
            | none => rfl
            | some xd => simp [Ne.symm hxa]
      | none =>
        -- shape G: fully detached already
        rw [hupn]
        simp only
        rw [node_setN_if hn]
        by_cases hxn : x = n
        · rw [if_pos hxn, if_pos hxn]
        · rw [if_neg hxn, if_neg hxn]
          cases hxd : h.node x with
          | none => rfl
          | some xd => simp

theorem rootF_detach {T : Type} {h : Heap T} {n : Nat}
    (hP : ∀ i, WFatP h i) (hac : Acyclic h) (x : Nat) :
    rootF (detach h n) x = rootF h x := by
  cases hn : h.node n with
  | none =>
    have hd : detach h n = h := by unfold detach; rw [hn]
    rw [hd]
  | some nd =>
    unfold rootF
    rw [detach_node hP hac hn x]
    by_cases hx : x = n
    · subst hx; rw [if_pos rfl, hn]; rfl
    · rw [if_neg hx]
      cases hxd : h.node x with
      | none => rfl
      | some xd => rfl

theorem parF_detach {T : Type} {h : Heap T} {n : Nat}
    (hP : ∀ i, WFatP h i) (hac : Acyclic h) (x : Nat) :
    parF (detach h n) x = if x = n then none else parF h x := by
  cases hn : h.node n with
  | none =>
    have hd : detach h n = h := by unfold detach; rw [hn]
    rw [hd]
    by_cases hx : x = n
    · subst hx; rw [if_pos rfl]; simp [parF, hn]
    · rw [if_neg hx]
  | some nd =>
    unfold parF
    rw [detach_node hP hac hn x]
    by_cases hx : x = n
    · rw [if_pos hx, if_pos hx]; rfl
    · rw [if_neg hx, if_neg hx]
      cases hxd : h.node x with
      | none => rfl
      | some xd => rfl

theorem psF_detach {T : Type} {h : Heap T} {n : Nat}
    (hP : ∀ i, WFatP h i) (hac : Acyclic h) (x : Nat) :
    psF (detach h n) x =
      if x = n then none
      else if nsF h n = some x then psF h n else psF h x := by
  cases hn : h.node n with
  | none =>
    have hd : detach h n = h := by unfold detach; rw [hn]
    have hns : nsF h n = none := by simp [nsF, hn]
    rw [hd, hns]
    by_cases hx : x = n
    · subst hx; rw [if_pos rfl]; simp [psF, hn]
    · rw [if_neg hx, if_neg (by simp : ¬ (none : Option Nat) = some x)]
  | some nd =>
    unfold psF
    rw [detach_node hP hac hn x]
    by_cases hx : x = n
    · rw [if_pos hx, if_pos hx]; rfl
    · rw [if_neg hx, if_neg hx, nsF_eq hn]
      cases hxd : h.node x with
      | none =>
        by_cases hc : nd.next_sibling = some x
        · have := (hP n).ns_alive x (by rw [nsF_eq hn]; exact hc)
          rw [hxd] at this
          simp at this
        · rw [if_neg hc]; simp [psF, hxd]
      | some xd =>
        by_cases hc : nd.next_sibling = some x
        · rw [if_pos hc]; simp [psF, hn, hc]
        · rw [if_neg hc]; simp [psF, hxd, hc]

theorem nsF_detach {T : Type} {h : Heap T} {n : Nat}
    (hP : ∀ i, WFatP h i) (hac : Acyclic h) (x : Nat) :
    nsF (detach h n) x =
      if x = n then none
      else if psF h n = some x then nsF h n else nsF h x := by
  cases hn : h.node n with
  | none =>
    have hd : detach h n = h := by unfold detach; rw [hn]
    have hps : psF h n = none := by simp [psF, hn]
    rw [hd, hps]
    by_cases hx : x = n
    · subst hx; rw [if_pos rfl]; simp [nsF, hn]
    · rw [if_neg hx, if_neg (by simp : ¬ (none : Option Nat) = some x)]
  | some nd =>
    unfold nsF
    rw [detach_node hP hac hn x]
    by_cases hx : x = n
    · rw [if_pos hx, if_pos hx]; rfl
    · rw [if_neg hx, if_neg hx, psF_eq hn]
      cases hxd : h.node x with
      | none =>
        by_cases hc : nd.previous_sibling = some x
        · have := (hP n).ps_alive x (by rw [psF_eq hn]; exact hc)
          rw [hxd] at this
          simp at this
        · rw [if_neg hc]; simp [nsF, hxd]
      | some xd =>
        by_cases hc : nd.previous_sibling = some x
        · rw [if_pos hc]; simp [nsF, hn, hc]
        · rw [if_neg hc]; simp [nsF, hxd, hc]

theorem fcF_detach {T : Type} {h : Heap T} {n : Nat}
    (hP : ∀ i, WFatP h i) (hac : Acyclic h) (x : Nat) :
    fcF (detach h n) x =
      if parF h n = some x ∧ psF h n = none then nsF h n else fcF h x := by
  cases hn : h.node n with
  | none =>
    have hd : detach h n = h := by unfold detach; rw [hn]
    have hpar : parF h n = none := by simp [parF, hn]
    rw [hd, hpar]
    rw [if_neg (fun hc => Option.noConfusion hc.1)]
  | some nd =>
    unfold fcF
    rw [detach_node hP hac hn x]
    by_cases hx : x = n
    · subst hx
      rw [if_pos rfl]
      rw [if_neg (fun hc => (hP x).par_ne_self (by rw [parF_eq hn]; exact (parF_eq hn ▸ hc.1)))]
      simp [hn]
    · rw [if_neg hx, parF_eq hn, psF_eq hn]
      cases hxd : h.node x with
      | none =>
        by_cases hc : nd.parent = some x ∧ nd.previous_sibling = none
        · rcases hc with ⟨hc1, hc2⟩
          have := (hP n).par_alive x (by rw [parF_eq hn]; exact hc1)
          rw [hxd] at this
          simp at this
        · rw [if_neg hc]; simp [fcF, hxd]
      | some xd =>
        by_cases hc : nd.parent = some x ∧ nd.previous_sibling = none
        · rw [if_pos hc]; simp [nsF, hn, hc.1, hc.2]
        · rw [if_neg hc]; simp [fcF, hxd, hc]

theorem lcF_detach {T : Type} {h : Heap T} {n : Nat}
    (hP : ∀ i, WFatP h i) (hac : Acyclic h) (x : Nat) :
    lcF (detach h n) x =
      if parF h n = some x ∧ nsF h n = none then psF h n else lcF h x := by
  cases hn : h.node n with
  | none =>
    have hd : detach h n = h := by unfold detach; rw [hn]
    have hpar : parF h n = none := by simp [parF, hn]
    rw [hd, hpar]
    rw [if_neg (fun hc => Option.noConfusion hc.1)]
  | some nd =>
    unfold lcF
    rw [detach_node hP hac hn x]
    by_cases hx : x = n
    · subst hx
      rw [if_pos rfl]
      rw [if_neg (fun hc => (hP x).par_ne_self (by rw [parF_eq hn]; exact (parF_eq hn ▸ hc.1)))]
      simp [hn]
    · rw [if_neg hx, parF_eq hn, nsF_eq hn]
      cases hxd : h.node x with
      | none =>
        by_cases hc : nd.parent = some x ∧ nd.next_sibling = none
        · rcases hc with ⟨hc1, hc2⟩
          have := (hP n).par_alive x (by rw [parF_eq hn]; exact hc1)
          rw [hxd] at this
          simp at this
        · rw [if_neg hc]; simp [lcF, hxd]
      | some xd =>
        by_cases hc : nd.parent = some x ∧ nd.next_sibling = none
        · rw [if_pos hc]; simp [psF, hn, hc.1, hc.2]
        · rw [if_neg hc]; simp [lcF, hxd, hc]

theorem alive_detach {T : Type} {h : Heap T} {n : Nat}
    (hP : ∀ i, WFatP h i) (hac : Acyclic h) (x : Nat) :
    ((detach h n).node x).isSome = (h.node x).isSome := by
  cases hn : h.node n with
  | none =>
    have hd : detach h n = h := by unfold detach; rw [hn]
    rw [hd]
  | some nd =>
    rw [detach_node hP hac hn x]
    by_cases hx : x = n
    · subst hx; rw [if_pos rfl, hn]; rfl
    · rw [if_neg hx]
      cases hxd : h.node x with
      | none => rfl
      | some xd => rfl

theorem wfatP_detach {T : Type} {h : Heap T} {n : Nat}
    (hP : ∀ i, WFatP h i) (hac : Acyclic h) : ∀ i, WFatP (detach h n) i := by
  intro i
  have hnsn : nsF h n ≠ some n := ns_ne_self hac
  have hpsn : psF h n ≠ some n := ps_ne_self hP hac
  refine ⟨?_, ?_, ?_, ?_, ?_, ?_, ?_, ?_, ?_, ?_, ?_, ?_, ?_, ?_, ?_, ?_, ?_⟩
  · intro j hj
    rw [rootF_detach hP hac i] at hj
    rw [alive_detach hP hac j]
    exact (hP i).root_alive j hj
  · intro j hj
    rw [parF_detach hP hac i] at hj
    rw [alive_detach hP hac j]
    by_cases hi : i = n
    · rw [if_pos hi] at hj; exact absurd hj (by simp)
    · rw [if_neg hi] at hj; exact (hP i).par_alive j hj
  · intro j hj
    rw [fcF_detach hP hac i] at hj
    rw [alive_detach hP hac j]
    by_cases hc : parF h n = some i ∧ psF h n = none
    · rw [if_pos hc] at hj; exact (hP n).ns_alive j hj
    · rw [if_neg hc] at hj; exact (hP i).fc_alive j hj
  · intro j hj
    rw [lcF_detach hP hac i] at hj
    rw [alive_detach hP hac j]
    by_cases hc : parF h n = some i ∧ nsF h n = none
    · rw [if_pos hc] at hj; exact (hP n).ps_alive j hj
    · rw [if_neg hc] at hj; exact (hP i).lc_alive j hj
  · intro j hj
    rw [psF_detach hP hac i] at hj
    rw [alive_detach hP hac j]
    by_cases hi : i = n
    · rw [if_pos hi] at hj; exact absurd hj (by simp)
    · rw [if_neg hi] at hj
      by_cases hc : nsF h n = some i
      · rw [if_pos hc] at hj; exact (hP n).ps_alive j hj
      · rw [if_neg hc] at hj; exact (hP i).ps_alive j hj
  · intro j hj
    rw [nsF_detach hP hac i] at hj
    rw [alive_detach hP hac j]
    by_cases hi : i = n
    · rw [if_pos hi] at hj; exact absurd hj (by simp)
    · rw [if_neg hi] at hj
      by_cases hc : psF h n = some i
      · rw [if_pos hc] at hj; exact (hP n).ns_alive j hj
      · rw [if_neg hc] at hj; exact (hP i).ns_alive j hj
  · rw [parF_detach hP hac i]
    by_cases hi : i = n
    · rw [if_pos hi]; simp
    · rw [if_neg hi]; exact (hP i).par_ne_self
  · intro j hj
    rw [nsF_detach hP hac i] at hj
    rw [psF_detach hP hac j]
    by_cases hi : i = n
    · rw [if_pos hi] at hj; exact absurd hj (by simp)
    · rw [if_neg hi] at hj
      by_cases hc : psF h n = some i
      · rw [if_pos hc] at hj
        have hjn : j ≠ n := fun hh => hnsn (hh ▸ hj)
        rw [if_neg hjn, if_pos hj]
        exact hc
      · rw [if_neg hc] at hj
        have hjn : j ≠ n := fun hh => hc (by rw [← hh]; exact (hP i).ns_ps j hj)
        rw [if_neg hjn]
        by_cases hc2 : nsF h n = some j
        · exact absurd (((hP n).ns_ps j hc2).symm.trans ((hP i).ns_ps j hj))
            (fun hh => hi (Option.some.inj hh).symm)
        · rw [if_neg hc2]; exact (hP i).ns_ps j hj
  · intro j hj
    rw [nsF_detach hP hac i] at hj
    rw [parF_detach hP hac j, parF_detach hP hac i]
    by_cases hi : i = n
    · rw [if_pos hi] at hj; exact absurd hj (by simp)
    · rw [if_neg hi] at hj
      rw [if_neg hi]
      by_cases hc : psF h n = some i
      · rw [if_pos hc] at hj
        have hjn : j ≠ n := fun hh => hnsn (hh ▸ hj)
        rw [if_neg hjn]
        exact ((hP n).ns_par j hj).trans ((hP i).ns_par n ((hP n).ps_ns i hc))
      · rw [if_neg hc] at hj
        have hjn : j ≠ n := fun hh => hc (by rw [← hh]; exact (hP i).ns_ps j hj)
        rw [if_neg hjn]
        exact (hP i).ns_par j hj
  · intro j hj
    rw [psF_detach hP hac i] at hj
    rw [nsF_detach hP hac j]
    by_cases hi : i = n
    · rw [if_pos hi] at hj; exact absurd hj (by simp)
    · rw [if_neg hi] at hj
      by_cases hc : nsF h n = some i
      · rw [if_pos hc] at hj
        have hjn : j ≠ n := fun hh => hpsn (hh ▸ hj)
        rw [if_neg hjn, if_pos hj]
        exact hc
      · rw [if_neg hc] at hj
        have hjn : j ≠ n := fun hh => hc (by rw [← hh]; exact (hP i).ps_ns j hj)
        rw [if_neg hjn]
        by_cases hc2 : psF h n = some j
        · exact absurd (((hP n).ps_ns j hc2).symm.trans ((hP i).ps_ns j hj))
            (fun hh => hi (Option.some.inj hh).symm)
        · rw [if_neg hc2]; exact (hP i).ps_ns j hj
  · intro j hj
    rw [fcF_detach hP hac i] at hj
    rw [psF_detach hP hac j]
    by_cases hc : parF h n = some i ∧ psF h n = none
    · rw [if_pos hc] at hj
      have hjn : j ≠ n := fun hh => hnsn (hh ▸ hj)
      rw [if_neg hjn, if_pos hj]
      exact hc.2
    · rw [if_neg hc] at hj
      have hjn : j ≠ n := fun hh => hc ⟨by rw [← hh]; exact (hP i).fc_par j hj,
        by rw [← hh]; exact (hP i).fc_ps j hj⟩
      rw [if_neg hjn]
      by_cases hc2 : nsF h n = some j
      · exact absurd (((hP n).ns_ps j hc2).symm.trans ((hP i).fc_ps j hj))
          (fun hh => Option.noConfusion hh)
      · rw [if_neg hc2]; exact (hP i).fc_ps j hj
  · intro j hj
    rw [fcF_detach hP hac i] at hj
    rw [parF_detach hP hac j]
    by_cases hc : parF h n = some i ∧ psF h n = none
    · rw [if_pos hc] at hj
      have hjn : j ≠ n := fun hh => hnsn (hh ▸ hj)
      rw [if_neg hjn]
      exact ((hP n).ns_par j hj).trans hc.1
    · rw [if_neg hc] at hj
      have hjn : j ≠ n := fun hh => hc ⟨by rw [← hh]; exact (hP i).fc_par j hj,
        by rw [← hh]; exact (hP i).fc_ps j hj⟩
      rw [if_neg hjn]
      exact (hP i).fc_par j hj
  · intro j hj
    rw [lcF_detach hP hac i] at hj
    rw [nsF_detach hP hac j]
    by_cases hc : parF h n = some i ∧ nsF h n = none
    · rw [if_pos hc] at hj
      have hjn : j ≠ n := fun hh => hpsn (hh ▸ hj)
      rw [if_neg hjn, if_pos hj]
      exact hc.2
    · rw [if_neg hc] at hj
      have hjn : j ≠ n := fun hh => hc ⟨by rw [← hh]; exact (hP i).lc_par j hj,
        by rw [← hh]; exact (hP i).lc_ns j hj⟩
      rw [if_neg hjn]
      by_cases hc2 : psF h n = some j
      · exact absurd (((hP n).ps_ns j hc2).symm.trans ((hP i).lc_ns j hj))
          (fun hh => Option.noConfusion hh)
      · rw [if_neg hc2]; exact (hP i).lc_ns j hj
  · intro j hj
    rw [lcF_detach hP hac i] at hj
    rw [parF_detach hP hac j]
    by_cases hc : parF h n = some i ∧ nsF h n = none
    · rw [if_pos hc] at hj
      have hjn : j ≠ n := fun hh => hpsn (hh ▸ hj)
      rw [if_neg hjn]
      exact ((hP j).ns_par n ((hP n).ps_ns j hj)).symm.trans hc.1
    · rw [if_neg hc] at hj
      have hjn : j ≠ n := fun hh => hc ⟨by rw [← hh]; exact (hP i).lc_par j hj,
        by rw [← hh]; exact (hP i).lc_ns j hj⟩
      rw [if_neg hjn]
      exact (hP i).lc_par j hj
  · intro q hq hps
    rw [parF_detach hP hac i] at hq
    rw [psF_detach hP hac i] at hps
    rw [fcF_detach hP hac q]
    by_cases hi : i = n
    · rw [if_pos hi] at hq; exact absurd hq (by simp)
    · rw [if_neg hi] at hq
      rw [if_neg hi] at hps
      by_cases hc : nsF h n = some i
      · rw [if_pos hc] at hps
        have hq2 : parF h n = some q := ((hP n).ns_par i hc).symm.trans hq
        rw [if_pos ⟨hq2, hps⟩]
        exact hc
      · rw [if_neg hc] at hps
        by_cases hc2 : parF h n = some q ∧ psF h n = none
        · exact absurd (((hP i).par_ps_fc q hq hps).symm.trans
            ((hP n).par_ps_fc q hc2.1 hc2.2)) (fun hh => hi (Option.some.inj hh))
        · rw [if_neg hc2]; exact (hP i).par_ps_fc q hq hps
  · intro q hq hns
    rw [parF_detach hP hac i] at hq
    rw [nsF_detach hP hac i] at hns
    rw [lcF_detach hP hac q]
    by_cases hi : i = n
    · rw [if_pos hi] at hq; exact absurd hq (by simp)
    · rw [if_neg hi] at hq
      rw [if_neg hi] at hns
      by_cases hc : psF h n = some i
      · rw [if_pos hc] at hns
        have hq2 : parF h n = some q := ((hP i).ns_par n ((hP n).ps_ns i hc)).trans hq
        rw [if_pos ⟨hq2, hns⟩]
        exact hc
      · rw [if_neg hc] at hns
        by_cases hc2 : parF h n = some q ∧ nsF h n = none
        · exact absurd (((hP i).par_ns_lc q hq hns).symm.trans
            ((hP n).par_ns_lc q hc2.1 hc2.2)) (fun hh => hi (Option.some.inj hh))
        · rw [if_neg hc2]; exact (hP i).par_ns_lc q hq hns
  · rw [fcF_detach hP hac i, lcF_detach hP hac i]
    by_cases hpar : parF h n = some i
    · by_cases hps : psF h n = none
      · rw [if_pos ⟨hpar, hps⟩]
        by_cases hns : nsF h n = none
        · rw [if_pos ⟨hpar, hns⟩, hns, hps]
        · rw [if_neg (fun hcc => hns hcc.2)]
          have h1 : fcF h i = some n := (hP n).par_ps_fc i hpar hps
          have h2 := (hP i).fc_lc_none
          rw [h1] at h2
          rw [← h2]
          cases hx : nsF h n with
          | none => exact absurd hx hns
          | some b => rfl
      · rw [if_neg (fun hcc => hps hcc.2)]
        by_cases hns : nsF h n = none
        · rw [if_pos ⟨hpar, hns⟩]
          have h1 : lcF h i = some n := (hP n).par_ns_lc i hpar hns
          have h2 := (hP i).fc_lc_none
          rw [h1] at h2
          rw [h2]
          cases hx : psF h n with
          | none => exact absurd hx hps
          | some a => rfl
        · rw [if_neg (fun hcc => hns hcc.2)]
          exact (hP i).fc_lc_none
    · rw [if_neg (fun hcc => hpar hcc.1), if_neg (fun hcc => hpar hcc.1)]
      exact (hP i).fc_lc_none

theorem transGen_subrel {α : Type} {R S : α → α → Prop}
    (hsub : ∀ u v, R u v → Relation.TransGen S u v) {u v : α}
    (hp : Relation.TransGen R u v) : Relation.TransGen S u v := by
  induction hp with
  | single hh => exact hsub _ _ hh
  | tail _ hh ih => exact ih.trans (hsub _ _ hh)

theorem reflTransGen_subrel {α : Type} {R S : α → α → Prop}
    (hsub : ∀ u v, R u v → Relation.TransGen S u v) {u v : α}
    (hp : Relation.ReflTransGen R u v) : Relation.ReflTransGen S u v := by
  induction hp with
  | refl => exact .refl
  | tail _ hh ih => exact ih.trans (hsub _ _ hh).to_reflTransGen

theorem sedge_detach_to_trans {T : Type} {h : Heap T} {n : Nat}
    (hP : ∀ i, WFatP h i) (hac : Acyclic h) :
    ∀ u v, sedge (detach h n) u v → Relation.TransGen (sedge h) u v := by
  intro u v he
  rcases (sedge_iff _ u v).mp he with hf | hf
  · rw [fcF_detach hP hac u] at hf
    by_cases hc : parF h n = some u ∧ psF h n = none
    · rw [if_pos hc] at hf
      exact Relation.TransGen.tail
        (Relation.TransGen.single (sedge_of_fc ((hP n).par_ps_fc u hc.1 hc.2)))
        (sedge_of_ns hf)
    · rw [if_neg hc] at hf
      exact Relation.TransGen.single (sedge_of_fc hf)
  · rw [nsF_detach hP hac u] at hf
    by_cases hu : u = n
    · rw [if_pos hu] at hf; exact absurd hf (by simp)
    · rw [if_neg hu] at hf
      by_cases hc : psF h n = some u
      · rw [if_pos hc] at hf
        exact Relation.TransGen.tail
          (Relation.TransGen.single (sedge_of_ns ((hP n).ps_ns u hc)))
          (sedge_of_ns hf)
      · rw [if_neg hc] at hf
        exact Relation.TransGen.single (sedge_of_ns hf)

theorem acyclic_detach {T : Type} {h : Heap T} {n : Nat}
    (hP : ∀ i, WFatP h i) (hac : Acyclic h) : Acyclic (detach h n) := by
  intro i hcyc
  exact hac i (transGen_subrel (sedge_detach_to_trans hP hac) hcyc)

theorem no_in_detach {T : Type} {h : Heap T} {n : Nat}
    (hP : ∀ i, WFatP h i) (hac : Acyclic h) :
    ∀ x, ¬ sedge (detach h n) x n := by
  intro x he
  have hnsn : nsF h n ≠ some n := ns_ne_self hac
  rcases (sedge_iff _ x n).mp he with hf | hf
  · rw [fcF_detach hP hac x] at hf
    by_cases hc : parF h n = some x ∧ psF h n = none
    · rw [if_pos hc] at hf; exact hnsn hf
    · rw [if_neg hc] at hf
      exact hc ⟨(hP x).fc_par n hf, (hP x).fc_ps n hf⟩
  · rw [nsF_detach hP hac x] at hf
    by_cases hx : x = n
    · rw [if_pos hx] at hf; exact Option.noConfusion hf
    · rw [if_neg hx] at hf
      by_cases hc : psF h n = some x
      · rw [if_pos hc] at hf; exact hnsn hf
      · rw [if_neg hc] at hf
        exact hc ((hP x).ns_ps n hf)

theorem reflTransGen_no_in {α : Type} {R : α → α → Prop} {c : α}
    (hni : ∀ x, ¬ R x c) {u : α} (hp : Relation.ReflTransGen R u c) : u = c := by
  rcases hp.cases_tail with hh | ⟨w, _, hw⟩
  · exact hh.symm
  · exact absurd hw (hni w)

theorem reach_parent {T : Type} {h : Heap T} (hP : ∀ i, WFatP h i) {u v s : Nat}
    (hp : Relation.ReflTransGen (sedge h) u v) (hv : parF h v = some s) :
    Relation.ReflTransGen (sedge h) u s ∨ parF h u = some s := by
  induction hp using Relation.ReflTransGen.head_induction_on with
  | refl => exact Or.inr hv
  | head hedge _ ih =>
    rename_i u' w _
    cases ih with
    | inl hws => exact Or.inl (Relation.ReflTransGen.head hedge hws)
    | inr hpw =>
      rcases (sedge_iff h u' w).mp hedge with hfc | hns
      · have hpar : parF h w = some u' := (hP u').fc_par w hfc
        rw [hpar] at hpw
        rw [Option.some.inj hpw]
        exact Or.inl .refl
      · have hpar : parF h w = parF h u' := (hP u').ns_par w hns
        exact Or.inr (hpar.symm.trans hpw)

theorem reflTransGen_add_edge {α : Type} {R1 R2 : α → α → Prop} {a b : α}
    (hsub : ∀ u v, R2 u v → R1 u v ∨ (u = a ∧ v = b))
    (hba : ¬ Relation.ReflTransGen R1 b a) {u v : α}
    (hp : Relation.ReflTransGen R2 u v) :
    Relation.ReflTransGen R1 u v ∨
      (Relation.ReflTransGen R1 u a ∧ Relation.ReflTransGen R1 b v) := by
  induction hp with
  | refl => exact Or.inl .refl
  | tail _ hedge ih =>
    rcases hsub _ _ hedge with h1 | ⟨rfl, rfl⟩
    · cases ih with
      | inl hl => exact Or.inl (hl.tail h1)
      | inr hr => exact Or.inr ⟨hr.1, hr.2.tail h1⟩
    · cases ih with
      | inl hl => exact Or.inr ⟨hl, .refl⟩
      | inr hr => exact absurd hr.2 hba

theorem acyclic_add_edge {α : Type} {R1 R2 : α → α → Prop} {a b : α}
    (hsub : ∀ u v, R2 u v → R1 u v ∨ (u = a ∧ v = b))
    (hba : ¬ Relation.ReflTransGen R1 b a)
    (hac : ∀ i, ¬ Relation.TransGen R1 i i) :
    ∀ i, ¬ Relation.TransGen R2 i i := by
  intro i hcyc
  rcases (Relation.TransGen.tail'_iff).mp hcyc with ⟨w, hw, he⟩
  rcases reflTransGen_add_edge hsub hba hw with h1 | ⟨h2, h3⟩
  · rcases hsub _ _ he with he1 | ⟨rfl, rfl⟩
    · exact hac i (Relation.TransGen.tail' h1 he1)
    · exact hba h1
  · rcases hsub _ _ he with he1 | ⟨rfl, rfl⟩
    · exact hba ((h3.tail he1).trans h2)
    · exact hba h2

theorem bind_update_pres {T U : Type} {h : Heap T} {i : Nat}
    {f : NodeData T → NodeData T} {g : NodeData T → Option U}
    (hf : ∀ d, g (f d) = g d) (x : Nat) :
    ((h.update i f).node x).bind g = (h.node x).bind g := by
  rw [node_update_if]
  by_cases hx : x = i
  · rw [if_pos hx]
    cases hd : h.node x with
    | none => rfl
    | some d => simp [hf]
  · rw [if_neg hx]

theorem bind_update_if {T U : Type} (h : Heap T) (i : Nat)
    (f : NodeData T → NodeData T) (g : NodeData T → Option U) (x : Nat) :
    ((h.update i f).node x).bind g =
      if x = i then ((h.node x).map f).bind g else (h.node x).bind g := by
  rw [node_update_if]
  by_cases hx : x = i
  · rw [if_pos hx, if_pos hx]
  · rw [if_neg hx, if_neg hx]

theorem upgrade_eq_some {T : Type} {h : Heap T} {w : Option Nat} {l : Nat}
    (hL : upgrade h w = some l) : w = some l ∧ (h.node l).isSome = true := by
  cases w with
  | none => simp [upgrade] at hL
  | some j =>
    cases hj : h.node j with
    | none => simp [upgrade, hj] at hL
    | some d =>
      have hu : upgrade h (some j) = some j := by simp [upgrade, hj]
      rw [hu] at hL
      have hjl : j = l := Option.some.inj hL
      subst hjl
      exact ⟨rfl, by rw [hj]; rfl⟩

theorem isSome_bindfree {T : Type} {h : Heap T} {i : Nat} {d : NodeData T}
    (hn : h.node i = some d) : (h.node i).isSome = true := by rw [hn]; rfl

theorem append_fields {T : Type} {h h' : Heap T} {s c : Nat}
    (hP : ∀ i, WFatP h i) (hac : Acyclic h)
    (hok : append h s c = .ok h') :
    s ≠ c ∧ (h.node c).isSome = true ∧ (h.node s).isSome = true ∧
    (∀ x, rootF h' x =
      if x = c then some ((rootF (detach h c) s).getD s) else rootF (detach h c) x) ∧
    (∀ x, parF h' x = if x = c then some s else parF (detach h c) x) ∧
    (∀ x, (h'.node x).isSome = ((detach h c).node x).isSome) ∧
    (match upgrade (detach h c) (lcF (detach h c) s) with
     | some l =>
        (∀ x, psF h' x = if x = c then some l else psF (detach h c) x) ∧
        (∀ x, nsF h' x = if x = l then some c else nsF (detach h c) x) ∧
        (∀ x, fcF h' x = fcF (detach h c) x) ∧
        (∀ x, lcF h' x = if x = s then some c else lcF (detach h c) x)
     | none =>
        (∀ x, psF h' x = if x = c then none else psF (detach h c) x) ∧
        (∀ x, nsF h' x = nsF (detach h c) x) ∧
        (∀ x, fcF h' x = if x = s then some c else fcF (detach h c) x) ∧
        (∀ x, lcF h' x = if x = s then some c else lcF (detach h c) x)) := by
  unfold append at hok
  by_cases hsc : s = c
  · rw [if_pos hsc] at hok; exact absurd hok (by simp)
  rw [if_neg hsc] at hok
  cases hcs : h.node s with
  | none => rw [hcs] at hok; cases h.node c <;> exact absurd hok (by simp)
  | some sd0 =>
  cases hcc : h.node c with
  | none => rw [hcs, hcc] at hok; exact absurd hok (by simp)
  | some cd0 =>
  rw [hcs, hcc] at hok
  simp only at hok
  cases hsd : (detach h c).node s with
  | none => rw [hsd] at hok; exact absurd hok (by simp)
  | some sd =>
  rw [hsd] at hok
  simp only at hok
  have hP1 : ∀ i, WFatP (detach h c) i := wfatP_detach hP hac
  have hcalive1 : ((detach h c).node c).isSome = true := by
    rw [alive_detach hP hac c, hcc]; rfl
  obtain ⟨cd1, hcd1⟩ := Option.isSome_iff_exists.mp hcalive1
  have hlcs : lcF (detach h c) s = sd.last_child := lcF_eq hsd
  have hroots : rootF (detach h c) s = sd.root := rootF_eq hsd
  refine ⟨hsc, by simp [hcc], by simp [hcs], ?_⟩
  rw [hlcs]
  cases hL : upgrade (detach h c) sd.last_child with
  | some l =>
    rw [hL] at hok
    injection hok with h'eq
    have hparc1 : parF (detach h c) c = none := by
      rw [parF_detach hP hac c, if_pos rfl]
    obtain ⟨hwl, hlal⟩ := upgrade_eq_some hL
    have hlc1 : lcF (detach h c) s = some l := by rw [hlcs, hwl]
    have hlpar : parF (detach h c) l = some s := (hP1 s).lc_par l hlc1
    have hlc : l ≠ c := fun he => by
      rw [he] at hlpar; rw [hlpar] at hparc1; exact Option.noConfusion hparc1
    have hls : l ≠ s := fun he => (hP1 s).par_ne_self (he ▸ hlpar)
    subst h'eq
    refine ⟨?_, ?_, ?_, ?_⟩
    · intro x
      unfold rootF
      rw [bind_update_pres (g := fun d => d.root) (f := fun ld => { ld with next_sibling := some c }) (fun d => rfl),
        bind_update_pres (g := fun d => d.root) (f := fun sd2 => { sd2 with last_child := some c }) (fun d => rfl), bind_update_if]
      by_cases hx : x = c
      · rw [if_pos hx, if_pos hx, hx, hcd1]
        simp [hsd]
      · rw [if_neg hx, if_neg hx]
    · intro x
      unfold parF
      rw [bind_update_pres (g := fun d => d.parent) (f := fun ld => { ld with next_sibling := some c }) (fun d => rfl),
        bind_update_pres (g := fun d => d.parent) (f := fun sd2 => { sd2 with last_child := some c }) (fun d => rfl), bind_update_if]
      by_cases hx : x = c
      · rw [if_pos hx, if_pos hx, hx, hcd1]; rfl
      · rw [if_neg hx, if_neg hx]
    · intro x
      rw [isSome_node_update, isSome_node_update, isSome_node_update]
    · refine ⟨?_, ?_, ?_, ?_⟩
      · intro x
        unfold psF
        rw [bind_update_pres (g := fun d => d.previous_sibling) (f := fun ld => { ld with next_sibling := some c }) (fun d => rfl),
          bind_update_pres (g := fun d => d.previous_sibling) (f := fun sd2 => { sd2 with last_child := some c }) (fun d => rfl), bind_update_if]
        by_cases hx : x = c
        · rw [if_pos hx, if_pos hx, hx, hcd1]; rfl
        · rw [if_neg hx, if_neg hx]
      · intro x
        unfold nsF
        rw [bind_update_if]
        by_cases hx : x = l
        · rw [if_pos hx, if_pos hx, hx]
          rw [node_update_ne _ _ hls, node_update_ne _ _ hlc]
          obtain ⟨ld, hld⟩ := Option.isSome_iff_exists.mp hlal
          rw [hld]; rfl
        · rw [if_neg hx, if_neg hx]
          rw [bind_update_pres (g := fun d => d.next_sibling) (f := fun sd2 => { sd2 with last_child := some c }) (fun d => rfl),
            bind_update_pres (g := fun d => d.next_sibling) (f := fun cd => { cd with root := some (sd.root.getD s), parent := some s, previous_sibling := some l }) (fun d => rfl)]
      · intro x
        unfold fcF
        rw [bind_update_pres (g := fun d => d.first_child) (f := fun ld => { ld with next_sibling := some c }) (fun d => rfl),
          bind_update_pres (g := fun d => d.first_child) (f := fun sd2 => { sd2 with last_child := some c }) (fun d => rfl),
          bind_update_pres (g := fun d => d.first_child) (f := fun cd => { cd with root := some (sd.root.getD s), parent := some s, previous_sibling := some l }) (fun d => rfl)]
      · intro x
        unfold lcF
        rw [bind_update_pres (g := fun d => d.last_child) (f := fun ld => { ld with next_sibling := some c }) (fun d => rfl), bind_update_if]
        by_cases hx : x = s
        · rw [if_pos hx, if_pos hx, hx]
          rw [node_update_ne _ _ (fun he => hsc he)]
          rw [hsd]; rfl
        · rw [if_neg hx, if_neg hx]
          rw [bind_update_pres (g := fun d => d.last_child) (f := fun cd => { cd with root := some (sd.root.getD s), parent := some s, previous_sibling := some l }) (fun d => rfl)]
  | none =>
    rw [hL] at hok
    injection hok with h'eq
    subst h'eq
    refine ⟨?_, ?_, ?_, ?_⟩
    · intro x
      unfold rootF
      rw [bind_update_pres (g := fun d => d.root) (f := fun sd2 => { sd2 with first_child := some c }) (fun d => rfl),
        bind_update_pres (g := fun d => d.root) (f := fun sd2 => { sd2 with last_child := some c }) (fun d => rfl), bind_update_if]
      by_cases hx : x = c
      · rw [if_pos hx, if_pos hx, hx, hcd1]
        simp [hsd]
      · rw [if_neg hx, if_neg hx]
    · intro x
      unfold parF
      rw [bind_update_pres (g := fun d => d.parent) (f := fun sd2 => { sd2 with first_child := some c }) (fun d => rfl),
        bind_update_pres (g := fun d => d.parent) (f := fun sd2 => { sd2 with last_child := some c }) (fun d => rfl), bind_update_if]
      by_cases hx : x = c
      · rw [if_pos hx, if_pos hx, hx, hcd1]; rfl
      · rw [if_neg hx, if_neg hx]
    · intro x
      rw [isSome_node_update, isSome_node_update, isSome_node_update]
    · refine ⟨?_, ?_, ?_, ?_⟩
      · intro x
        unfold psF
        rw [bind_update_pres (g := fun d => d.previous_sibling) (f := fun sd2 => { sd2 with first_child := some c }) (fun d => rfl),
          bind_update_pres (g := fun d => d.previous_sibling) (f := fun sd2 => { sd2 with last_child := some c }) (fun d => rfl), bind_update_if]
        by_cases hx : x = c
        · rw [if_pos hx, if_pos hx, hx, hcd1]; rfl
        · rw [if_neg hx, if_neg hx]
      · intro x
        unfold nsF
        rw [bind_update_pres (g := fun d => d.next_sibling) (f := fun sd2 => { sd2 with first_child := some c }) (fun d => rfl),
          bind_update_pres (g := fun d => d.next_sibling) (f := fun sd2 => { sd2 with last_child := some c }) (fun d => rfl),
          bind_update_pres (g := fun d => d.next_sibling) (f := fun cd => { cd with root := some (sd.root.getD s), parent := some s, previous_sibling := none }) (fun d => rfl)]
      · intro x
        unfold fcF
        rw [bind_update_if]
        by_cases hx : x = s
        · rw [if_pos hx, if_pos hx, hx]
          rw [node_update_self _ (by
            rw [node_update_ne _ _ (fun he => hsc he)]; exact hsd)]
          rfl
        · rw [if_neg hx, if_neg hx]
          rw [bind_update_pres (g := fun d => d.first_child) (f := fun sd2 => { sd2 with last_child := some c }) (fun d => rfl),
            bind_update_pres (g := fun d => d.first_child) (f := fun cd => { cd with root := some (sd.root.getD s), parent := some s, previous_sibling := none }) (fun d => rfl)]
      · intro x
        unfold lcF
        rw [bind_update_pres (g := fun d => d.last_child) (f := fun sd2 => { sd2 with first_child := some c }) (fun d => rfl), bind_update_if]
        by_cases hx : x = s
        · rw [if_pos hx, if_pos hx, hx]
          rw [node_update_ne _ _ (fun he => hsc he)]
          rw [hsd]; rfl
        · rw [if_neg hx, if_neg hx]
          rw [bind_update_pres (g := fun d => d.last_child) (f := fun cd => { cd with root := some (sd.root.getD s), parent := some s, previous_sibling := none }) (fun d => rfl)]

theorem prepend_fields {T : Type} {h h' : Heap T} {s c : Nat}
    (hP : ∀ i, WFatP h i) (hac : Acyclic h)
    (hok : prepend h s c = .ok h') :
    s ≠ c ∧ (h.node c).isSome = true ∧ (h.node s).isSome = true ∧
    (∀ x, rootF h' x =
      if x = c then some ((rootF (detach h c) s).getD s) else rootF (detach h c) x) ∧
    (∀ x, parF h' x = if x = c then some s else parF (detach h c) x) ∧
    (∀ x, (h'.node x).isSome = ((detach h c).node x).isSome) ∧
    (match fcF (detach h c) s with
     | some f =>
        (∀ x, nsF h' x = if x = c then some f else nsF (detach h c) x) ∧
        (∀ x, psF h' x = if x = f then some c else psF (detach h c) x) ∧
        (∀ x, fcF h' x = if x = s then some c else fcF (detach h c) x) ∧
        (∀ x, lcF h' x = lcF (detach h c) x)
     | none =>
        (∀ x, nsF h' x = if x = c then none else nsF (detach h c) x) ∧
        (∀ x, psF h' x = psF (detach h c) x) ∧
        (∀ x, fcF h' x = if x = s then some c else fcF (detach h c) x) ∧
        (∀ x, lcF h' x = if x = s then some c else lcF (detach h c) x)) := by
  unfold prepend at hok
  by_cases hsc : s = c
  · rw [if_pos hsc] at hok; exact absurd hok (by simp)
  rw [if_neg hsc] at hok
  cases hcs : h.node s with
  | none => rw [hcs] at hok; cases h.node c <;> exact absurd hok (by simp)
  | some sd0 =>
  cases hcc : h.node c with
  | none => rw [hcs, hcc] at hok; exact absurd hok (by simp)
  | some cd0 =>
  rw [hcs, hcc] at hok
  simp only at hok
  cases hsd : (detach h c).node s with
  | none => rw [hsd] at hok; exact absurd hok (by simp)
  | some sd =>
  rw [hsd] at hok
  simp only at hok
  have hP1 : ∀ i, WFatP (detach h c) i := wfatP_detach hP hac
  have hcalive1 : ((detach h c).node c).isSome = true := by
    rw [alive_detach hP hac c, hcc]; rfl
  obtain ⟨cd1, hcd1⟩ := Option.isSome_iff_exists.mp hcalive1
  have hfcs : fcF (detach h c) s = sd.first_child := fcF_eq hsd
  refine ⟨hsc, by simp [hcc], by simp [hcs], ?_⟩
  rw [hfcs]
  cases hF : sd.first_child with
  | some f =>
    rw [hF] at hok
    injection hok with h'eq
    have hparc1 : parF (detach h c) c = none := by
      rw [parF_detach hP hac c, if_pos rfl]
    have hfc1 : fcF (detach h c) s = some f := by rw [hfcs, hF]
    have hfpar : parF (detach h c) f = some s := (hP1 s).fc_par f hfc1
    have hfal : ((detach h c).node f).isSome = true := (hP1 s).fc_alive f hfc1
    have hf_c : f ≠ c := fun he => by
      rw [he] at hfpar; rw [hfpar] at hparc1; exact Option.noConfusion hparc1
    have hf_s : f ≠ s := fun he => (hP1 s).par_ne_self (he ▸ hfpar)
    subst h'eq
    refine ⟨?_, ?_, ?_, ?_, ?_, ?_, ?_⟩
    · intro x
      unfold rootF
      rw [bind_update_pres (g := fun d => d.root) (f := fun sd2 => { sd2 with first_child := some c }) (fun d => rfl),
        bind_update_pres (g := fun d => d.root) (f := fun fd => { fd with previous_sibling := some c }) (fun d => rfl), bind_update_if]
      by_cases hx : x = c
      · rw [if_pos hx, if_pos hx, hx, hcd1]
        simp [hsd]
      · rw [if_neg hx, if_neg hx]
    · intro x
      unfold parF
      rw [bind_update_pres (g := fun d => d.parent) (f := fun sd2 => { sd2 with first_child := some c }) (fun d => rfl),
        bind_update_pres (g := fun d => d.parent) (f := fun fd => { fd with previous_sibling := some c }) (fun d => rfl), bind_update_if]
      by_cases hx : x = c
      · rw [if_pos hx, if_pos hx, hx, hcd1]; rfl
      · rw [if_neg hx, if_neg hx]
    · intro x
      rw [isSome_node_update, isSome_node_update, isSome_node_update]
    · intro x
      unfold nsF
      rw [bind_update_pres (g := fun d => d.next_sibling) (f := fun sd2 => { sd2 with first_child := some c }) (fun d => rfl),
        bind_update_pres (g := fun d => d.next_sibling) (f := fun fd => { fd with previous_sibling := some c }) (fun d => rfl), bind_update_if]
      by_cases hx : x = c
      · rw [if_pos hx, if_pos hx, hx, hcd1]; rfl
      · rw [if_neg hx, if_neg hx]
    · intro x
      unfold psF
      rw [bind_update_pres (g := fun d => d.previous_sibling) (f := fun sd2 => { sd2 with first_child := some c }) (fun d => rfl), bind_update_if]
      by_cases hx : x = f
      · rw [if_pos hx, if_pos hx, hx]
        rw [node_update_ne _ _ hf_c]
        obtain ⟨fd, hfd⟩ := Option.isSome_iff_exists.mp hfal
        rw [hfd]; rfl
      · rw [if_neg hx, if_neg hx]
        rw [bind_update_pres (g := fun d => d.previous_sibling) (f := fun cd => { cd with root := some (sd.root.getD s), parent := some s, next_sibling := some f }) (fun d => rfl)]
    · intro x
      unfold fcF
      rw [bind_update_if]
      by_cases hx : x = s
      · rw [if_pos hx, if_pos hx, hx]
        rw [node_update_ne _ _ (Ne.symm hf_s), node_update_ne _ _ (fun he => hsc he)]
        rw [hsd]; rfl
      · rw [if_neg hx, if_neg hx]
        rw [bind_update_pres (g := fun d => d.first_child) (f := fun fd => { fd with previous_sibling := some c }) (fun d => rfl),
          bind_update_pres (g := fun d => d.first_child) (f := fun cd => { cd with root := some (sd.root.getD s), parent := some s, next_sibling := some f }) (fun d => rfl)]
    · intro x
      unfold lcF
      rw [bind_update_pres (g := fun d => d.last_child) (f := fun sd2 => { sd2 with first_child := some c }) (fun d => rfl),
        bind_update_pres (g := fun d => d.last_child) (f := fun fd => { fd with previous_sibling := some c }) (fun d => rfl),
        bind_update_pres (g := fun d => d.last_child) (f := fun cd => { cd with root := some (sd.root.getD s), parent := some s, next_sibling := some f }) (fun d => rfl)]
  | none =>
    rw [hF] at hok
    injection hok with h'eq
    subst h'eq
    refine ⟨?_, ?_, ?_, ?_, ?_, ?_, ?_⟩
    · intro x
      unfold rootF
      rw [bind_update_pres (g := fun d => d.root) (f := fun sd2 => { sd2 with first_child := some c }) (fun d => rfl),
        bind_update_pres (g := fun d => d.root) (f := fun sd2 => { sd2 with last_child := some c }) (fun d => rfl), bind_update_if]
      by_cases hx : x = c
      · rw [if_pos hx, if_pos hx, hx, hcd1]
        simp [hsd]
      · rw [if_neg hx, if_neg hx]
    · intro x
      unfold parF
      rw [bind_update_pres (g := fun d => d.parent) (f := fun sd2 => { sd2 with first_child := some c }) (fun d => rfl),
        bind_update_pres (g := fun d => d.parent) (f := fun sd2 => { sd2 with last_child := some c }) (fun d => rfl), bind_update_if]
      by_cases hx : x = c
      · rw [if_pos hx, if_pos hx, hx, hcd1]; rfl
      · rw [if_neg hx, if_neg hx]
    · intro x
      rw [isSome_node_update, isSome_node_update, isSome_node_update]
    · intro x
      unfold nsF
      rw [bind_update_pres (g := fun d => d.next_sibling) (f := fun sd2 => { sd2 with first_child := some c }) (fun d => rfl),
        bind_update_pres (g := fun d => d.next_sibling) (f := fun sd2 => { sd2 with last_child := some c }) (fun d => rfl), bind_update_if]
      by_cases hx : x = c
      · rw [if_pos hx, if_pos hx, hx, hcd1]; rfl
      · rw [if_neg hx, if_neg hx]
    · intro x
      unfold psF
      rw [bind_update_pres (g := fun d => d.previous_sibling) (f := fun sd2 => { sd2 with first_child := some c }) (fun d => rfl),
        bind_update_pres (g := fun d => d.previous_sibling) (f := fun sd2 => { sd2 with last_child := some c }) (fun d => rfl),
        bind_update_pres (g := fun d => d.previous_sibling) (f := fun cd => { cd with root := some (sd.root.getD s), parent := some s, next_sibling := none }) (fun d => rfl)]
    · intro x
      unfold fcF
      rw [bind_update_if]
      by_cases hx : x = s
      · rw [if_pos hx, if_pos hx, hx]
        rw [node_update_self _ (by
          rw [node_update_ne _ _ (fun he => hsc he)]; exact hsd)]
        rfl
      · rw [if_neg hx, if_neg hx]
        rw [bind_update_pres (g := fun d => d.first_child) (f := fun sd2 => { sd2 with last_child := some c }) (fun d => rfl),
          bind_update_pres (g := fun d => d.first_child) (f := fun cd => { cd with root := some (sd.root.getD s), parent := some s, next_sibling := none }) (fun d => rfl)]
    · intro x
      unfold lcF
      rw [bind_update_pres (g := fun d => d.last_child) (f := fun sd2 => { sd2 with first_child := some c }) (fun d => rfl), bind_update_if]
      by_cases hx : x = s
      · rw [if_pos hx, if_pos hx, hx]
        rw [node_update_ne _ _ (fun he => hsc he)]
        rw [hsd]; rfl
      · rw [if_neg hx, if_neg hx]
        rw [bind_update_pres (g := fun d => d.last_child) (f := fun cd => { cd with root := some (sd.root.getD s), parent := some s, next_sibling := none }) (fun d => rfl)]

theorem insert_after_fields {T : Type} {h h' : Heap T} {s c : Nat}
    (hP : ∀ i, WFatP h i) (hac : Acyclic h)
    (hok : insert_after h s c = .ok h') :
    s ≠ c ∧ (h.node c).isSome = true ∧ (h.node s).isSome = true ∧
    (∀ x, rootF h' x =
      if x = c then rootF (detach h c) s else rootF (detach h c) x) ∧
    (∀ x, parF h' x = if x = c then parF (detach h c) s else parF (detach h c) x) ∧
    (∀ x, (h'.node x).isSome = ((detach h c).node x).isSome) ∧
    (∀ x, nsF h' x =
      if x = s then some c
      else if x = c then nsF (detach h c) s else nsF (detach h c) x) ∧
    (∀ x, fcF h' x = fcF (detach h c) x) ∧
    (match nsF (detach h c) s with
     | some nx =>
        (∀ x, psF h' x =
          if x = c then some s
          else if x = nx then some c else psF (detach h c) x) ∧
        (∀ x, lcF h' x = lcF (detach h c) x)
     | none =>
        (∀ x, psF h' x = if x = c then some s else psF (detach h c) x) ∧
        (match parF (detach h c) s with
         | some p => ∀ x, lcF h' x = if x = p then some c else lcF (detach h c) x
         | none => ∀ x, lcF h' x = lcF (detach h c) x)) := by
  unfold insert_after at hok
  by_cases hsc : s = c
  · rw [if_pos hsc] at hok; exact absurd hok (by simp)
  rw [if_neg hsc] at hok
  cases hcs : h.node s with
  | none => rw [hcs] at hok; cases h.node c <;> exact absurd hok (by simp)
  | some sd0 =>
  cases hcc : h.node c with
  | none => rw [hcs, hcc] at hok; exact absurd hok (by simp)
  | some cd0 =>
  rw [hcs, hcc] at hok
  simp only at hok
  cases hsd : (detach h c).node s with
  | none => rw [hsd] at hok; exact absurd hok (by simp)
  | some sd =>
  rw [hsd] at hok
  simp only at hok
  have hP1 : ∀ i, WFatP (detach h c) i := wfatP_detach hP hac
  have hac1 : Acyclic (detach h c) := acyclic_detach hP hac
  have hcalive1 : ((detach h c).node c).isSome = true := by
    rw [alive_detach hP hac c, hcc]; rfl
  obtain ⟨cd1, hcd1⟩ := Option.isSome_iff_exists.mp hcalive1
  have hpsc1 : psF (detach h c) c = none := by
    rw [psF_detach hP hac c, if_pos rfl]
  have hnsc1 : nsF (detach h c) c = none := by
    rw [nsF_detach hP hac c, if_pos rfl]
  refine ⟨hsc, by simp [hcc], by simp [hcs], ?_⟩
  rw [rootF_eq hsd, parF_eq hsd, nsF_eq hsd]
  cases hN : sd.next_sibling with
  | some nx =>
    rw [hN] at hok
    injection hok with h'eq
    have hnx1 : nsF (detach h c) s = some nx := by rw [nsF_eq hsd, hN]
    have hnx_c : nx ≠ c := fun he => by
      have := (hP1 s).ns_ps nx hnx1
      rw [he] at this
      rw [this] at hpsc1
      exact Option.noConfusion hpsc1
    have hnx_s : nx ≠ s := fun he => ns_ne_self hac1 (he ▸ hnx1)
    have hnxal : ((detach h c).node nx).isSome = true := (hP1 s).ns_alive nx hnx1
    subst h'eq
    refine ⟨?_, ?_, ?_, ?_, ?_, ?_, ?_⟩
    · intro x
      unfold rootF
      rw [bind_update_pres (g := fun d => d.root) (f := fun sd2 => { sd2 with next_sibling := some c }) (fun d => rfl),
        bind_update_pres (g := fun d => d.root) (f := fun nd => { nd with previous_sibling := some c }) (fun d => rfl), bind_update_if]
      by_cases hx : x = c
      · rw [if_pos hx, if_pos hx, hx, hcd1]; rfl
      · rw [if_neg hx, if_neg hx]
    · intro x
      unfold parF
      rw [bind_update_pres (g := fun d => d.parent) (f := fun sd2 => { sd2 with next_sibling := some c }) (fun d => rfl),
        bind_update_pres (g := fun d => d.parent) (f := fun nd => { nd with previous_sibling := some c }) (fun d => rfl), bind_update_if]
      by_cases hx : x = c
      · rw [if_pos hx, if_pos hx, hx, hcd1]; rfl
      · rw [if_neg hx, if_neg hx]
    · intro x
      rw [isSome_node_update, isSome_node_update, isSome_node_update]
    · intro x
      unfold nsF
      rw [bind_update_if]
      by_cases hx : x = s
      · rw [if_pos hx, if_pos hx, hx]
        rw [node_update_ne _ _ (Ne.symm hnx_s), node_update_ne _ _ (fun he => hsc he)]
        rw [hsd]; rfl
      · rw [if_neg hx, if_neg hx]
        rw [bind_update_pres (g := fun d => d.next_sibling) (f := fun nd => { nd with previous_sibling := some c }) (fun d => rfl), bind_update_if]
        by_cases hx2 : x = c
        · rw [if_pos hx2, if_pos hx2, hx2, hcd1]; rfl
        · rw [if_neg hx2, if_neg hx2]
    · intro x
      unfold fcF
      rw [bind_update_pres (g := fun d => d.first_child) (f := fun sd2 => { sd2 with next_sibling := some c }) (fun d => rfl),
        bind_update_pres (g := fun d => d.first_child) (f := fun nd => { nd with previous_sibling := some c }) (fun d => rfl),
        bind_update_pres (g := fun d => d.first_child) (f := fun cd => { cd with root := sd.root, parent := sd.parent, previous_sibling := some s, next_sibling := some nx }) (fun d => rfl)]
    · intro x
      unfold psF
      rw [bind_update_pres (g := fun d => d.previous_sibling) (f := fun sd2 => { sd2 with next_sibling := some c }) (fun d => rfl), bind_update_if]
      by_cases hx2 : x = nx
      · rw [if_pos hx2, if_neg (fun he => hnx_c (hx2.symm.trans he)), if_pos hx2, hx2]
        rw [node_update_ne _ _ hnx_c]
        obtain ⟨nd, hnd⟩ := Option.isSome_iff_exists.mp hnxal
        rw [hnd]; rfl
      · rw [if_neg hx2, bind_update_if]
        by_cases hx : x = c
        · rw [if_pos hx, if_pos hx, hx, hcd1]; rfl
        · rw [if_neg hx, if_neg hx, if_neg hx2]
    · intro x
      unfold lcF
      rw [bind_update_pres (g := fun d => d.last_child) (f := fun sd2 => { sd2 with next_sibling := some c }) (fun d => rfl),
        bind_update_pres (g := fun d => d.last_child) (f := fun nd => { nd with previous_sibling := some c }) (fun d => rfl),
        bind_update_pres (g := fun d => d.last_child) (f := fun cd => { cd with root := sd.root, parent := sd.parent, previous_sibling := some s, next_sibling := some nx }) (fun d => rfl)]
  | none =>
    rw [hN] at hok
    cases hPp : sd.parent with
    | some p =>
      rw [hPp] at hok
      have hpal1 : ((detach h c).node p).isSome = true :=
        (hP1 s).par_alive p (by rw [parF_eq hsd, hPp])
      rw [upgrade_some (by rw [isSome_node_update]; exact hpal1)] at hok
      injection hok with h'eq
      have hp_s : p ≠ s := fun he =>
        (hP1 s).par_ne_self (by rw [parF_eq hsd, hPp, he])
      subst h'eq
      refine ⟨?_, ?_, ?_, ?_, ?_, ?_, ?_⟩
      · intro x
        unfold rootF
        rw [bind_update_pres (g := fun d => d.root) (f := fun sd2 => { sd2 with next_sibling := some c }) (fun d => rfl),
          bind_update_pres (g := fun d => d.root) (f := fun pd => { pd with last_child := some c }) (fun d => rfl), bind_update_if]
        by_cases hx : x = c
        · rw [if_pos hx, if_pos hx, hx, hcd1]; rfl
        · rw [if_neg hx, if_neg hx]
      · intro x
        unfold parF
        rw [bind_update_pres (g := fun d => d.parent) (f := fun sd2 => { sd2 with next_sibling := some c }) (fun d => rfl),
          bind_update_pres (g := fun d => d.parent) (f := fun pd => { pd with last_child := some c }) (fun d => rfl), bind_update_if]
        by_cases hx : x = c
        · rw [if_pos hx, if_pos hx, hx, hcd1]; rfl
        · rw [if_neg hx, if_neg hx]
      · intro x
        rw [isSome_node_update, isSome_node_update, isSome_node_update]
      · intro x
        unfold nsF
        rw [bind_update_if]
        by_cases hx : x = s
        · rw [if_pos hx, if_pos hx, hx]
          rw [node_update_ne _ _ hp_s.symm, node_update_ne _ _ (fun he => hsc he)]
          rw [hsd]; rfl
        · rw [if_neg hx, if_neg hx]
          rw [bind_update_pres (g := fun d => d.next_sibling) (f := fun pd => { pd with last_child := some c }) (fun d => rfl), bind_update_if]
          by_cases hx2 : x = c
          · rw [if_pos hx2, if_pos hx2, hx2, hcd1]; rfl
          · rw [if_neg hx2, if_neg hx2]
      · intro x
        unfold fcF
        rw [bind_update_pres (g := fun d => d.first_child) (f := fun sd2 => { sd2 with next_sibling := some c }) (fun d => rfl),
          bind_update_pres (g := fun d => d.first_child) (f := fun pd => { pd with last_child := some c }) (fun d => rfl),
          bind_update_pres (g := fun d => d.first_child) (f := fun cd => { cd with root := sd.root, parent := some p, previous_sibling := some s, next_sibling := none }) (fun d => rfl)]
      · intro x
        unfold psF
        rw [bind_update_pres (g := fun d => d.previous_sibling) (f := fun sd2 => { sd2 with next_sibling := some c }) (fun d => rfl),
          bind_update_pres (g := fun d => d.previous_sibling) (f := fun pd => { pd with last_child := some c }) (fun d => rfl), bind_update_if]
        by_cases hx : x = c
        · rw [if_pos hx, if_pos hx, hx, hcd1]; rfl
        · rw [if_neg hx, if_neg hx]
      · intro x
        unfold lcF
        rw [bind_update_pres (g := fun d => d.last_child) (f := fun sd2 => { sd2 with next_sibling := some c }) (fun d => rfl), bind_update_if]
        by_cases hx : x = p
        · rw [if_pos hx, if_pos hx, hx]
          rw [node_update_if]
          by_cases hx2 : p = c
          · rw [if_pos hx2, hx2, hcd1]; rfl
          · rw [if_neg hx2]
            obtain ⟨pd, hpd⟩ := Option.isSome_iff_exists.mp hpal1
            rw [hpd]; rfl
        · rw [if_neg hx, if_neg hx]
          rw [bind_update_pres (g := fun d => d.last_child) (f := fun cd => { cd with root := sd.root, parent := some p, previous_sibling := some s, next_sibling := none }) (fun d => rfl)]
    | none =>
      rw [hPp] at hok
      have hupn : ∀ g : Heap T, upgrade g (none : Option Nat) = none := fun g => rfl
      rw [hupn] at hok
      injection hok with h'eq
      subst h'eq
      refine ⟨?_, ?_, ?_, ?_, ?_, ?_, ?_⟩
      · intro x
        unfold rootF
        rw [bind_update_pres (g := fun d => d.root) (f := fun sd2 => { sd2 with next_sibling := some c }) (fun d => rfl), bind_update_if]
        by_cases hx : x = c
        · rw [if_pos hx, if_pos hx, hx, hcd1]; rfl
        · rw [if_neg hx, if_neg hx]
      · intro x
        unfold parF
        rw [bind_update_pres (g := fun d => d.parent) (f := fun sd2 => { sd2 with next_sibling := some c }) (fun d => rfl), bind_update_if]
        by_cases hx : x = c
        · rw [if_pos hx, if_pos hx, hx, hcd1]; rfl
        · rw [if_neg hx, if_neg hx]
      · intro x
        rw [isSome_node_update, isSome_node_update]
      · intro x
        unfold nsF
        rw [bind_update_if]
        by_cases hx : x = s
        · rw [if_pos hx, if_pos hx, hx]
          rw [node_update_ne _ _ (fun he => hsc he)]
          rw [hsd]; rfl
        · rw [if_neg hx, if_neg hx]
          rw [bind_update_if]
          by_cases hx2 : x = c
          · rw [if_pos hx2, if_pos hx2, hx2, hcd1]; rfl
          · rw [if_neg hx2, if_neg hx2]
      · intro x
        unfold fcF
        rw [bind_update_pres (g := fun d => d.first_child) (f := fun sd2 => { sd2 with next_sibling := some c }) (fun d => rfl),
          bind_update_pres (g := fun d => d.first_child) (f := fun cd => { cd with root := sd.root, parent := none, previous_sibling := some s, next_sibling := none }) (fun d => rfl)]
      · intro x
        unfold psF
        rw [bind_update_pres (g := fun d => d.previous_sibling) (f := fun sd2 => { sd2 with next_sibling := some c }) (fun d => rfl), bind_update_if]
        by_cases hx : x = c
        · rw [if_pos hx, if_pos hx, hx, hcd1]; rfl
        · rw [if_neg hx, if_neg hx]
      · intro x
        unfold lcF
        rw [bind_update_pres (g := fun d => d.last_child) (f := fun sd2 => { sd2 with next_sibling := some c }) (fun d => rfl),
          bind_update_pres (g := fun d => d.last_child) (f := fun cd => { cd with root := sd.root, parent := none, previous_sibling := some s, next_sibling := none }) (fun d => rfl)]

theorem insert_before_fields {T : Type} {h h' : Heap T} {s c : Nat}
    (hP : ∀ i, WFatP h i) (hac : Acyclic h)
    (hok : insert_before h s c = .ok h') :
    s ≠ c ∧ (h.node c).isSome = true ∧ (h.node s).isSome = true ∧
    (∀ x, rootF h' x =
      if x = c then rootF (detach h c) s else rootF (detach h c) x) ∧
    (∀ x, parF h' x = if x = c then parF (detach h c) s else parF (detach h c) x) ∧
    (∀ x, (h'.node x).isSome = ((detach h c).node x).isSome) ∧
    (∀ x, psF h' x =
      if x = s then some c
      else if x = c then psF (detach h c) s else psF (detach h c) x) ∧
    (∀ x, lcF h' x = lcF (detach h c) x) ∧
    (match psF (detach h c) s with
     | some v =>
        (∀ x, nsF h' x =
          if x = v then some c
          else if x = c then some s else nsF (detach h c) x) ∧
        (∀ x, fcF h' x = fcF (detach h c) x)
     | none =>
        (∀ x, nsF h' x = if x = c then some s else nsF (detach h c) x) ∧
        (match parF (detach h c) s with
         | some p => ∀ x, fcF h' x = if x = p then some c else fcF (detach h c) x
         | none => ∀ x, fcF h' x = fcF (detach h c) x)) := by
  unfold insert_before at hok
  by_cases hsc : s = c
  · rw [if_pos hsc] at hok; exact absurd hok (by simp)
  rw [if_neg hsc] at hok
  cases hcs : h.node s with
  | none => rw [hcs] at hok; cases h.node c <;> exact absurd hok (by simp)
  | some sd0 =>
  cases hcc : h.node c with
  | none => rw [hcs, hcc] at hok; exact absurd hok (by simp)
  | some cd0 =>
  rw [hcs, hcc] at hok
  simp only at hok
  cases hsd : (detach h c).node s with
  | none => rw [hsd] at hok; exact absurd hok (by simp)
  | some sd =>
  rw [hsd] at hok
  simp only at hok
  have hP1 : ∀ i, WFatP (detach h c) i := wfatP_detach hP hac
  have hac1 : Acyclic (detach h c) := acyclic_detach hP hac
  have hcalive1 : ((detach h c).node c).isSome = true := by
    rw [alive_detach hP hac c, hcc]; rfl
  obtain ⟨cd1, hcd1⟩ := Option.isSome_iff_exists.mp hcalive1
  have hnsc1 : nsF (detach h c) c = none := by
    rw [nsF_detach hP hac c, if_pos rfl]
  refine ⟨hsc, by simp [hcc], by simp [hcs], ?_⟩
  rw [rootF_eq hsd, parF_eq hsd, psF_eq hsd]
  cases hV : sd.previous_sibling with
  | some v =>
    rw [hV] at hok
    have hps1 : psF (detach h c) s = some v := by rw [psF_eq hsd, hV]
    have hval : ((detach h c).node v).isSome = true := (hP1 s).ps_alive v hps1
    rw [upgrade_some hval] at hok
    injection hok with h'eq
    have hv_c : v ≠ c := fun he => by
      have := (hP1 s).ps_ns v hps1
      rw [he] at this
      rw [this] at hnsc1
      exact Option.noConfusion hnsc1
    have hv_s : v ≠ s := fun he => ps_ne_self hP1 hac1 (he ▸ hps1)
    subst h'eq
    refine ⟨?_, ?_, ?_, ?_, ?_, ?_, ?_⟩
    · intro x
      unfold rootF
      rw [bind_update_pres (g := fun d => d.root) (f := fun vd => { vd with next_sibling := some c }) (fun d => rfl),
        bind_update_pres (g := fun d => d.root) (f := fun sd2 => { sd2 with previous_sibling := some c }) (fun d => rfl), bind_update_if]
      by_cases hx : x = c
      · rw [if_pos hx, if_pos hx, hx, hcd1]; rfl
      · rw [if_neg hx, if_neg hx]
    · intro x
      unfold parF
      rw [bind_update_pres (g := fun d => d.parent) (f := fun vd => { vd with next_sibling := some c }) (fun d => rfl),
        bind_update_pres (g := fun d => d.parent) (f := fun sd2 => { sd2 with previous_sibling := some c }) (fun d => rfl), bind_update_if]
      by_cases hx : x = c
      · rw [if_pos hx, if_pos hx, hx, hcd1]; rfl
      · rw [if_neg hx, if_neg hx]
    · intro x
      rw [isSome_node_update, isSome_node_update, isSome_node_update]
    · intro x
      unfold psF
      rw [bind_update_pres (g := fun d => d.previous_sibling) (f := fun vd => { vd with next_sibling := some c }) (fun d => rfl), bind_update_if]
      by_cases hx : x = s
      · rw [if_pos hx, if_pos hx, hx]
        rw [node_update_ne _ _ (fun he => hsc he)]
        rw [hsd]; rfl
      · rw [if_neg hx, if_neg hx, bind_update_if]
        by_cases hx2 : x = c
        · rw [if_pos hx2, if_pos hx2, hx2, hcd1]; rfl
        · rw [if_neg hx2, if_neg hx2]
    · intro x
      unfold lcF
      rw [bind_update_pres (g := fun d => d.last_child) (f := fun vd => { vd with next_sibling := some c }) (fun d => rfl),
        bind_update_pres (g := fun d => d.last_child) (f := fun sd2 => { sd2 with previous_sibling := some c }) (fun d => rfl),
        bind_update_pres (g := fun d => d.last_child) (f := fun cd => { cd with root := sd.root, parent := sd.parent, next_sibling := some s, previous_sibling := some v }) (fun d => rfl)]
    · intro x
      unfold nsF
      rw [bind_update_if]
      by_cases hx : x = v
      · rw [if_pos hx, if_pos hx, hx]
        rw [node_update_ne _ _ hv_s, node_update_ne _ _ hv_c]
        obtain ⟨vd, hvd⟩ := Option.isSome_iff_exists.mp hval
        rw [hvd]; rfl
      · rw [if_neg hx, if_neg hx]
        rw [bind_update_pres (g := fun d => d.next_sibling) (f := fun sd2 => { sd2 with previous_sibling := some c }) (fun d => rfl), bind_update_if]
        by_cases hx2 : x = c
        · rw [if_pos hx2, if_pos hx2, hx2, hcd1]; rfl
        · rw [if_neg hx2, if_neg hx2]
    · intro x
      unfold fcF
      rw [bind_update_pres (g := fun d => d.first_child) (f := fun vd => { vd with next_sibling := some c }) (fun d => rfl),
        bind_update_pres (g := fun d => d.first_child) (f := fun sd2 => { sd2 with previous_sibling := some c }) (fun d => rfl),
        bind_update_pres (g := fun d => d.first_child) (f := fun cd => { cd with root := sd.root, parent := sd.parent, next_sibling := some s, previous_sibling := some v }) (fun d => rfl)]
  | none =>
    rw [hV] at hok
    have hupn : ∀ g : Heap T, upgrade g (none : Option Nat) = none := fun g => rfl
    rw [hupn] at hok
    cases hPp : sd.parent with
    | some p =>
      rw [hPp] at hok
      have hpal1 : ((detach h c).node p).isSome = true :=
        (hP1 s).par_alive p (by rw [parF_eq hsd, hPp])
      rw [upgrade_some (by
        rw [isSome_node_update, isSome_node_update]; exact hpal1)] at hok
      injection hok with h'eq
      have hp_s : p ≠ s := fun he =>
        (hP1 s).par_ne_self (by rw [parF_eq hsd, hPp, he])
      subst h'eq
      refine ⟨?_, ?_, ?_, ?_, ?_, ?_, ?_⟩
      · intro x
        unfold rootF
        rw [bind_update_pres (g := fun d => d.root) (f := fun pd => { pd with first_child := some c }) (fun d => rfl),
          bind_update_pres (g := fun d => d.root) (f := fun sd2 => { sd2 with previous_sibling := some c }) (fun d => rfl), bind_update_if]
        by_cases hx : x = c
        · rw [if_pos hx, if_pos hx, hx, hcd1]; rfl
        · rw [if_neg hx, if_neg hx]
      · intro x
        unfold parF
        rw [bind_update_pres (g := fun d => d.parent) (f := fun pd => { pd with first_child := some c }) (fun d => rfl),
          bind_update_pres (g := fun d => d.parent) (f := fun sd2 => { sd2 with previous_sibling := some c }) (fun d => rfl), bind_update_if]
        by_cases hx : x = c
        · rw [if_pos hx, if_pos hx, hx, hcd1]; rfl
        · rw [if_neg hx, if_neg hx]
      · intro x
        rw [isSome_node_update, isSome_node_update, isSome_node_update]
      · intro x
        unfold psF
        rw [bind_update_pres (g := fun d => d.previous_sibling) (f := fun pd => { pd with first_child := some c }) (fun d => rfl), bind_update_if]
        by_cases hx : x = s
        · rw [if_pos hx, if_pos hx, hx]
          rw [node_update_ne _ _ (fun he => hsc he)]
          rw [hsd]; rfl
        · rw [if_neg hx, if_neg hx, bind_update_if]
          by_cases hx2 : x = c
          · rw [if_pos hx2, if_pos hx2, hx2, hcd1]; rfl
          · rw [if_neg hx2, if_neg hx2]
      · intro x
        unfold lcF
        rw [bind_update_pres (g := fun d => d.last_child) (f := fun pd => { pd with first_child := some c }) (fun d => rfl),
          bind_update_pres (g := fun d => d.last_child) (f := fun sd2 => { sd2 with previous_sibling := some c }) (fun d => rfl),
          bind_update_pres (g := fun d => d.last_child) (f := fun cd => { cd with root := sd.root, parent := some p, next_sibling := some s, previous_sibling := none }) (fun d => rfl)]
      · intro x
        unfold nsF
        rw [bind_update_pres (g := fun d => d.next_sibling) (f := fun pd => { pd with first_child := some c }) (fun d => rfl),
          bind_update_pres (g := fun d => d.next_sibling) (f := fun sd2 => { sd2 with previous_sibling := some c }) (fun d => rfl), bind_update_if]
        by_cases hx : x = c
        · rw [if_pos hx, if_pos hx, hx, hcd1]; rfl
        · rw [if_neg hx, if_neg hx]
      · intro x
        unfold fcF
        rw [bind_update_if]
        by_cases hx : x = p
        · rw [if_pos hx, if_pos hx, hx]
          rw [node_update_ne _ _ hp_s, node_update_if]
          by_cases hx2 : p = c
          · rw [if_pos hx2, hx2, hcd1]; rfl
          · rw [if_neg hx2]
            obtain ⟨pd, hpd⟩ := Option.isSome_iff_exists.mp hpal1
            rw [hpd]; rfl
        · rw [if_neg hx, if_neg hx]
          rw [bind_update_pres (g := fun d => d.first_child) (f := fun sd2 => { sd2 with previous_sibling := some c }) (fun d => rfl),
            bind_update_pres (g := fun d => d.first_child) (f := fun cd => { cd with root := sd.root, parent := some p, next_sibling := some s, previous_sibling := none }) (fun d => rfl)]
    | none =>
      rw [hPp] at hok
      rw [hupn] at hok
      injection hok with h'eq
      subst h'eq
      refine ⟨?_, ?_, ?_, ?_, ?_, ?_, ?_⟩
      · intro x
        unfold rootF
        rw [bind_update_pres (g := fun d => d.root) (f := fun sd2 => { sd2 with previous_sibling := some c }) (fun d => rfl), bind_update_if]
        by_cases hx : x = c
        · rw [if_pos hx, if_pos hx, hx, hcd1]; rfl
        · rw [if_neg hx, if_neg hx]
      · intro x
        unfold parF
        rw [bind_update_pres (g := fun d => d.parent) (f := fun sd2 => { sd2 with previous_sibling := some c }) (fun d => rfl), bind_update_if]
        by_cases hx : x = c
        · rw [if_pos hx, if_pos hx, hx, hcd1]; rfl
        · rw [if_neg hx, if_neg hx]
      · intro x
        rw [isSome_node_update, isSome_node_update]
      · intro x
        unfold psF
        rw [bind_update_if]
        by_cases hx : x = s
        · rw [if_pos hx, if_pos hx, hx]
          rw [node_update_ne _ _ (fun he => hsc he)]
          rw [hsd]; rfl
        · rw [if_neg hx, if_neg hx, bind_update_if]
          by_cases hx2 : x = c
          · rw [if_pos hx2, if_pos hx2, hx2, hcd1]; rfl
          · rw [if_neg hx2, if_neg hx2]
      · intro x
        unfold lcF
        rw [bind_update_pres (g := fun d => d.last_child) (f := fun sd2 => { sd2 with previous_sibling := some c }) (fun d => rfl),
          bind_update_pres (g := fun d => d.last_child) (f := fun cd => { cd with root := sd.root, parent := none, next_sibling := some s, previous_sibling := none }) (fun d => rfl)]
      · intro x
        unfold nsF
        rw [bind_update_pres (g := fun d => d.next_sibling) (f := fun sd2 => { sd2 with previous_sibling := some c }) (fun d => rfl), bind_update_if]
        by_cases hx : x = c
        · rw [if_pos hx, if_pos hx, hx, hcd1]; rfl
        · rw [if_neg hx, if_neg hx]
      · intro x
        unfold fcF
        rw [bind_update_pres (g := fun d => d.first_child) (f := fun sd2 => { sd2 with previous_sibling := some c }) (fun d => rfl),
          bind_update_pres (g := fun d => d.first_child) (f := fun cd => { cd with root := sd.root, parent := none, next_sibling := some s, previous_sibling := none }) (fun d => rfl)]

/-! ### Claim C4: self-insertion is rejected before any mutation -/

/-- C4: for each of the four operations `append`, `prepend`, `insert_before`
and `insert_after`, passing a handle with the same record identity as the
node operated on (payload irrelevant — identity is the index alone) fails
with the self-insertion violation; the identity check is the first step of
each operation, so no heap is produced and every record is left unchanged. -/
theorem c4_self_insertion_rejected {T : Type} (h : Heap T) (s : Nat) :
    append h s s = .error .selfInsertion ∧
    prepend h s s = .error .selfInsertion ∧
    insert_before h s s = .error .selfInsertion ∧
    insert_after h s s = .error .selfInsertion := by
  refine ⟨?_, ?_, ?_, ?_⟩ <;>
    simp [append, prepend, insert_before, insert_after]

/-! ### Claim C10: handle equality is record identity -/

/-- C10: node-handle equality is record identity, not payload equality.
Two consecutive constructor calls return unequal handles whatever the two
payloads are (in particular when they are equal); a clone of a handle
compares equal to the handle it was cloned from, allocates no new record
(the heap is returned unchanged), and pushing the cloned handle raises the
record's strong ownership count by one. -/
theorem c10_identity_equality {T : Type} (h : Heap T) (d1 d2 : T) (hs : List Nat) :
    nodeEq (newNode h d1).2 (newNode (newNode h d1).1 d2).2 = false ∧
    (newNode h d1).2 ≠ (newNode (newNode h d1).1 d2).2 ∧
    cloneNode (newNode h d1).1 (newNode h d1).2 = ((newNode h d1).1, (newNode h d1).2) ∧
    nodeEq (cloneNode (newNode h d1).1 (newNode h d1).2).2 (newNode h d1).2 = true ∧
    strongCount (newNode h d1).1 ((cloneNode (newNode h d1).1 (newNode h d1).2).2 :: hs)
        (newNode h d1).2 =
      strongCount (newNode h d1).1 hs (newNode h d1).2 + 1 := by
  have h2 : (newNode (newNode h d1).1 d2).2 = h.length + 1 := by
    simp [newNode]
  refine ⟨?_, ?_, rfl, ?_, ?_⟩
  · rw [h2]; show (h.length == h.length + 1) = false; simp
  · rw [h2]; show h.length ≠ h.length + 1; omega
  · simp [nodeEq, cloneNode]
  · show strongCount _ ((newNode h d1).2 :: hs) _ = _
    unfold strongCount
    rw [List.count_cons_self]
    omega

/-! ### Claim C8: reads of an exclusively borrowed record fail -/

/-- C8: while an exclusive (write) accessor on record `n` is open, every
accessor and traversal step that reads record `n` — the six link accessors,
`root`, shared `borrow`, a second `borrow_mut`, and the traversal step at
either edge of `n` — fails with the borrow conflict instead of returning a
node or payload; the traversal step that closes at the captured root
returns without reading, so only steps that actually read `n` are affected. -/
theorem c8_borrow_conflict {T : Type} (h : Heap T) (bs : Borrows) (n r : Nat)
    (hx : bs n = .exclusive) :
    firstChildChecked h bs n = .error .borrowConflict ∧
    lastChildChecked h bs n = .error .borrowConflict ∧
    nextSiblingChecked h bs n = .error .borrowConflict ∧
    prevSiblingChecked h bs n = .error .borrowConflict ∧
    parentChecked h bs n = .error .borrowConflict ∧
    rootChecked h bs n = .error .borrowConflict ∧
    borrowChecked h bs n = .error .borrowConflict ∧
    borrowMutChecked h bs n = .error .borrowConflict ∧
    nextItemChecked h bs r (.Start n) = .error .borrowConflict ∧
    (n ≠ r → nextItemChecked h bs r (.End n) = .error .borrowConflict) ∧
    nextItemChecked h bs r (.End r) = .ok none := by
  refine ⟨?_, ?_, ?_, ?_, ?_, ?_, ?_, ?_, ?_, ?_, ?_⟩
  · simp [firstChildChecked, hx]
  · simp [lastChildChecked, hx]
  · simp [nextSiblingChecked, hx]
  · simp [prevSiblingChecked, hx]
  · simp [parentChecked, hx]
  · simp [rootChecked, hx]
  · simp [borrowChecked, hx]
  · simp [borrowMutChecked, hx]
  · simp [nextItemChecked, firstChildChecked, hx]
  · intro hnr
    simp [nextItemChecked, nextSiblingChecked, hx, hnr]
  · simp [nextItemChecked]

/-- Witness for C8 at a concrete input: in the singleton heap with record 0
exclusively borrowed, the checked reads of node 0 all fail with the borrow
conflict, and the closing step at the captured root still succeeds. -/
theorem c8_borrow_conflict_witness :
    exBorrow 0 = .exclusive ∧ (0 : Nat) ≠ 1 ∧
    firstChildChecked exS1 exBorrow 0 = .error .borrowConflict ∧
    borrowChecked exS1 exBorrow 0 = .error .borrowConflict ∧
    nextItemChecked exS1 exBorrow 1 (.Start 0) = .error .borrowConflict ∧
    nextItemChecked exS1 exBorrow 1 (.End 0) = .error .borrowConflict ∧
    nextItemChecked exS1 exBorrow 1 (.End 1) = .ok none := by
  have hx : exBorrow 0 = .exclusive := by decide
  have hc := c8_borrow_conflict exS1 exBorrow 0 1 hx
  exact ⟨hx, by decide, hc.1, hc.2.2.2.2.2.2.1, hc.2.2.2.2.2.2.2.2.1,
    hc.2.2.2.2.2.2.2.2.2.1 (by decide), hc.2.2.2.2.2.2.2.2.2.2⟩

/-! ### Claim C9: the ten-node end-to-end fixture -/

/-- C9: in the ten-node fixture of `tests/tests.rs::it_works` (ids 0-9
carrying labels 1-10, built by the test's exact call sequence), before the
detach no record's strong count is zero; detaching node 10's previous
sibling (the node labelled 8) destroys exactly one record — id 7, the
detached node itself, whose only handle was consumed by the insert; and the
descendants of node 5 (id 4) listed by payload label equal
`[5, 6, 7, 1, 4, 2, 3, 9, 10]`.  The live handles are `a`, `b`, `c`
(ids 0, 4, 9), the ones the test still holds. -/
theorem c9_fixture_descendants :
    fixture.map (fun h => destroyedSet h [0, 4, 9]) = .ok [] ∧
    fixtureDetached.map (fun h => destroyedSet h [0, 4, 9]) = .ok [7] ∧
    fixtureDetached.map (fun h => descLabels h 4 40) = .ok [5, 6, 7, 1, 4, 2, 3, 9, 10] := by
  refine ⟨rfl, rfl, rfl⟩

/-! ### Claim C6: the forward traversal step relation -/

/-- C6: the forward traversal follows exactly the claimed step relation.
While the backward cursor still sits at the closing edge of the captured
root (the state `Traverse::new` starts in), `next` emits the forward
cursor and advances it by `NodeEdge::next_item`; and `next_item` satisfies,
as equations: from `Start n` the next edge is `Start` of `n`'s first child
if one exists and otherwise `End n`; from `End n` the walk ends at the
captured root, otherwise steps to `Start` of `n`'s next sibling if one
exists, otherwise to `End` of `n`'s parent, ending (rather than failing)
when `n` has no parent. -/
theorem c6_traversal_step {T : Type} :
    (∀ (h : Heap T) (t : Traverse), t.next_back = some (NodeEdge.End t.root) →
      Traverse.nextF h t =
        (t.next, { t with next := t.next.bind (NodeEdge.next_item h t.root) })) ∧
    (∀ (h : Heap T) (r n : Nat),
      NodeEdge.next_item h r (NodeEdge.Start n) =
        some (match firstChildAcc h n with
          | some f => NodeEdge.Start f
          | none => NodeEdge.End n) ∧
      NodeEdge.next_item h r (NodeEdge.End n) =
        if n = r then none
        else match nextSiblingAcc h n with
          | some s => some (NodeEdge.Start s)
          | none => match parentAcc h n with
            | some p => some (NodeEdge.End p)
            | none => none) := by
  constructor
  · intro h t ht
    obtain ⟨rt, nx, nb⟩ := t
    simp only at ht
    subst ht
    cases nx with
    | none =>
      simp [Traverse.nextF, Traverse.finished, NodeEdge.next_item]
    | some e =>
      simp [Traverse.nextF, Traverse.finished, NodeEdge.next_item]
  · intro h r n
    constructor
    · cases hf : firstChildAcc h n <;> simp [NodeEdge.next_item, hf]
    · by_cases hr : n = r
      · simp [NodeEdge.next_item, hr]
      · cases hs : nextSiblingAcc h n with
        | none => cases hp : parentAcc h n <;>
            simp [NodeEdge.next_item, hr, hs, hp]
        | some s' => simp [NodeEdge.next_item, hr, hs]

/-- Witness for C6 at a concrete input: the freshly seeded traversal of the
singleton heap satisfies the cursor hypothesis, and its first step emits
`Start 0` and advances the cursor to `End 0`. -/
theorem c6_traversal_step_witness :
    (Traverse.new 0).next_back = some (NodeEdge.End (Traverse.new 0).root) ∧
    Traverse.nextF exS1 (Traverse.new 0) =
      ((Traverse.new 0).next,
        { Traverse.new 0 with
            next := (Traverse.new 0).next.bind (NodeEdge.next_item exS1 (Traverse.new 0).root) }) :=
  ⟨rfl, (c6_traversal_step (T := Nat)).1 exS1 (Traverse.new 0) rfl⟩

/-! ### Claim C3: detach postconditions -/

/-- C3 counterexample: the clause root(n) = n after detach is false at a
concrete input.  In `staleRootFixture`, node 1 is attached under node 0
(which sets its cached root to 0) and then detached; afterwards its `root()`
accessor still answers node 0, not node 1, because `detach` clears the
parent and sibling links but leaves the detached node's cached root
untouched. -/
theorem c3_stale_root_counterexample :
    staleRootFixture.map (fun g => rootAcc g 1) = .ok (some 0) ∧
    staleRootFixture.map (fun g => rootAcc g 1) ≠ .ok (some 1) := by
  refine ⟨rfl, fun hc => ?_⟩
  have h0 : staleRootFixture.map (fun g => rootAcc g 1) =
      (.ok (some 0) : Except RcError (Option Nat)) := rfl
  rw [h0] at hc
  simp at hc

/-- C3 (amended): for every node `n` attached in a well-formed acyclic heap
(with parent `p`), after `detach`: `n` reports no parent, no previous
sibling and no next sibling; the relative order of `n`'s former siblings is
unchanged — every sibling link between two surviving nodes survives, the
two neighbours of `n` are stitched to each other, and the parent's
`first_child`/`last_child` links are rewritten to the surviving ends of the
chain; but the cached root of `n` is left unchanged, so `root(n)` reports
the former root rather than `n` itself (the claim's clause root(n) = n
does not hold; the rest does). -/
theorem c3_detach_postconditions {T : Type} {h : Heap T} {n p : Nat}
    (hw : WF h) (hac : Acyclic h) (hpar : parF h n = some p) :
    parentAcc (detach h n) n = none ∧
    prevSiblingAcc (detach h n) n = none ∧
    nextSiblingAcc (detach h n) n = none ∧
    rootF (detach h n) n = rootF h n ∧
    (∀ x y, x ≠ n → y ≠ n →
      (nsF h x = some y → nsF (detach h n) x = some y) ∧
      (psF h x = some y → psF (detach h n) x = some y)) ∧
    (∀ a b, psF h n = some a → nsF h n = some b →
      nsF (detach h n) a = some b ∧ psF (detach h n) b = some a) ∧
    (∀ a, psF h n = some a → nsF h n = none →
      nsF (detach h n) a = none ∧ lcF (detach h n) p = some a) ∧
    (∀ b, psF h n = none → nsF h n = some b →
      psF (detach h n) b = none ∧ fcF (detach h n) p = some b) ∧
    (psF h n = none → nsF h n = none →
      fcF (detach h n) p = none ∧ lcF (detach h n) p = none) := by
  have hP := wf_wfatP hw
  have hpn : p ≠ n := fun he => (hP n).par_ne_self (he ▸ hpar)
  refine ⟨?_, ?_, ?_, rootF_detach hP hac n, ?_, ?_, ?_, ?_, ?_⟩
  · rw [parentAcc, parF_detach hP hac n, if_pos rfl]; rfl
  · rw [prevSiblingAcc, psF_detach hP hac n, if_pos rfl]; rfl
  · rw [nextSiblingAcc, nsF_detach hP hac n, if_pos rfl]
  · intro x y hx hy
    constructor
    · intro hxy
      rw [nsF_detach hP hac x, if_neg hx, if_neg ?_]
      · exact hxy
      · intro hps
        have := (hP n).ps_ns x hps
        rw [hxy] at this
        exact hy (Option.some.inj this)
    · intro hxy
      rw [psF_detach hP hac x, if_neg hx, if_neg ?_]
      · exact hxy
      · intro hns
        have := (hP n).ns_ps x hns
        rw [hxy] at this
        exact hy (Option.some.inj this)
  · intro a b hps hns
    have ha : a ≠ n := fun he => ps_ne_self hP hac (he ▸ hps)
    have hb : b ≠ n := fun he => ns_ne_self hac (he ▸ hns)
    constructor
    · rw [nsF_detach hP hac a, if_neg ha, if_pos hps]; exact hns
    · rw [psF_detach hP hac b, if_neg hb, if_pos hns]; exact hps
  · intro a hps hns
    have ha : a ≠ n := fun he => ps_ne_self hP hac (he ▸ hps)
    constructor
    · rw [nsF_detach hP hac a, if_neg ha, if_pos hps]; exact hns
    · rw [lcF_detach hP hac p, if_pos ⟨hpar, hns⟩]; exact hps
  · intro b hps hns
    have hb : b ≠ n := fun he => ns_ne_self hac (he ▸ hns)
    constructor
    · rw [psF_detach hP hac b, if_neg hb, if_pos hns]; exact hps
    · rw [fcF_detach hP hac p, if_pos ⟨hpar, hps⟩]; exact hns
  · intro hps hns
    constructor
    · rw [fcF_detach hP hac p, if_pos ⟨hpar, hps⟩]; exact hns
    · rw [lcF_detach hP hac p, if_pos ⟨hpar, hns⟩]; exact hps

/-- Witness for C3 at a concrete input: detaching the middle child 2 of
node 0 in `exH3` clears 2's parent accessor, keeps its cached root, and
stitches its neighbours 1 and 3 to each other. -/
theorem c3_detach_postconditions_witness :
    WF exH3 ∧ parF exH3 2 = some 0 ∧
    parentAcc (detach exH3 2) 2 = none ∧
    rootF (detach exH3 2) 2 = rootF exH3 2 ∧
    nsF (detach exH3 2) 1 = some 3 ∧ psF (detach exH3 2) 3 = some 1 := by
  have hw : WF exH3 := by decide
  have hac : Acyclic exH3 := acyclic_of_rank (fun i => i) (by decide)
  have hc := c3_detach_postconditions (h := exH3) (n := 2) (p := 0) hw hac (by decide)
  exact ⟨hw, by decide, hc.1, hc.2.2.2.1,
    (hc.2.2.2.2.2.1 1 3 (by decide) (by decide)).1,
    (hc.2.2.2.2.2.1 1 3 (by decide) (by decide)).2⟩

/-! ### Claim C7: the cached root is set only on the attached child -/

/-- C7: `append(parent, child)` and `prepend(parent, child)` write the
cached `root` link only on the child being attached — to the parent's
cached root, or to the parent itself when the parent has no cached root —
and leave the `root` field of every other record, in particular every
existing descendant of the child, unchanged; concretely, after
`relocateFixture` moves the subtree 1 → 2 from under root 0 to under the
fresh root 3, the grandchild 2's `root()` still answers the old root 0
and not 3. -/
theorem c7_root_cache_frame {T : Type} :
    (∀ (h h' : Heap T) (s c : Nat), WF h → Acyclic h → append h s c = .ok h' →
      rootF h' c = some ((rootF h s).getD s) ∧
      ∀ x, x ≠ c → rootF h' x = rootF h x) ∧
    (∀ (h h' : Heap T) (s c : Nat), WF h → Acyclic h → prepend h s c = .ok h' →
      rootF h' c = some ((rootF h s).getD s) ∧
      ∀ x, x ≠ c → rootF h' x = rootF h x) ∧
    relocateFixture.map (fun g => rootAcc g 2) = .ok (some 0) ∧
    relocateFixture.map (fun g => rootAcc g 2) ≠ .ok (some 3) := by
  refine ⟨?_, ?_, rfl, ?_⟩
  · intro h h' s c hw hac hok
    have hP := wf_wfatP hw
    have hroot := (append_fields hP hac hok).2.2.2.1
    constructor
    · rw [hroot c, if_pos rfl, rootF_detach hP hac s]
    · intro x hx
      rw [hroot x, if_neg hx, rootF_detach hP hac x]
  · intro h h' s c hw hac hok
    have hP := wf_wfatP hw
    have hroot := (prepend_fields hP hac hok).2.2.2.1
    constructor
    · rw [hroot c, if_pos rfl, rootF_detach hP hac s]
    · intro x hx
      rw [hroot x, if_neg hx, rootF_detach hP hac x]
  · intro hc
    have h0 : relocateFixture.map (fun g => rootAcc g 2) =
        (.ok (some 0) : Except RcError (Option Nat)) := rfl
    rw [h0] at hc
    simp at hc

/-- Witness for C7 at a concrete input: appending the isolated node 1 under
the isolated node 0 in `exW1` sets 1's cached root to 0 (the parent itself,
which has no cached root) and leaves 0's root field unchanged. -/
theorem c7_root_cache_frame_witness :
    WF exW1 ∧ append exW1 0 1 = .ok exW1A ∧
    rootF exW1A 1 = some ((rootF exW1 0).getD 0) ∧
    rootF exW1A 0 = rootF exW1 0 := by
  have hw : WF exW1 := by decide
  have hac : Acyclic exW1 := acyclic_of_rank (fun i => i) (by decide)
  have hc := (c7_root_cache_frame (T := Nat)).1 exW1 exW1A 0 1 hw hac rfl
  exact ⟨hw, rfl, hc.1, hc.2 0 (by decide)⟩

/-! ### Claim C1: acyclicity of the strong-reference subgraph -/

/-- Appending preserves acyclicity of the strong `first_child`/`next_sibling`
subgraph, provided the argument does not strongly reach the target. -/
theorem acyclic_append {T : Type} {h h' : Heap T} {s c : Nat}
    (hP : ∀ i, WFatP h i) (hac : Acyclic h)
    (hreach : ¬ Relation.ReflTransGen (sedge h) c s)
    (hok : append h s c = .ok h') : Acyclic h' := by
  obtain ⟨hsc, hcal, hsal, hroot, hpar, halive, hrest⟩ := append_fields hP hac hok
  have hP1 : ∀ i, WFatP (detach h c) i := wfatP_detach hP hac
  have hac1 : Acyclic (detach h c) := acyclic_detach hP hac
  have hni : ∀ x, ¬ sedge (detach h c) x c := no_in_detach hP hac
  have hreach1 : ¬ Relation.ReflTransGen (sedge (detach h c)) c s := fun hp =>
    hreach (reflTransGen_subrel (sedge_detach_to_trans hP hac) hp)
  have hparc1 : parF (detach h c) c = none := by
    rw [parF_detach hP hac c, if_pos rfl]
  cases hL : upgrade (detach h c) (lcF (detach h c) s) with
  | some l =>
    rw [hL] at hrest
    obtain ⟨hps', hns', hfc', hlc'⟩ := hrest
    obtain ⟨hwl, hlal⟩ := upgrade_eq_some hL
    have hlpar : parF (detach h c) l = some s := (hP1 s).lc_par l hwl
    have hsub : ∀ u v, sedge h' u v → sedge (detach h c) u v ∨ (u = l ∧ v = c) := by
      intro u v he
      rcases (sedge_iff h' u v).mp he with hf | hf
      · rw [hfc' u] at hf
        exact Or.inl (sedge_of_fc hf)
      · rw [hns' u] at hf
        by_cases hu : u = l
        · rw [if_pos hu] at hf
          exact Or.inr ⟨hu, (Option.some.inj hf).symm⟩
        · rw [if_neg hu] at hf
          exact Or.inl (sedge_of_ns hf)
    have hba : ¬ Relation.ReflTransGen (sedge (detach h c)) c l := by
      intro hp
      rcases reach_parent hP1 hp hlpar with hcs | hpc
      · exact hreach1 hcs
      · rw [hparc1] at hpc
        exact Option.noConfusion hpc
    exact acyclic_add_edge hsub hba hac1
  | none =>
    rw [hL] at hrest
    obtain ⟨hps', hns', hfc', hlc'⟩ := hrest
    have hsub : ∀ u v, sedge h' u v → sedge (detach h c) u v ∨ (u = s ∧ v = c) := by
      intro u v he
      rcases (sedge_iff h' u v).mp he with hf | hf
      · rw [hfc' u] at hf
        by_cases hu : u = s
        · rw [if_pos hu] at hf
          exact Or.inr ⟨hu, (Option.some.inj hf).symm⟩
        · rw [if_neg hu] at hf
          exact Or.inl (sedge_of_fc hf)
      · rw [hns' u] at hf
        exact Or.inl (sedge_of_ns hf)
    exact acyclic_add_edge hsub hreach1 hac1

/-- Prepending preserves acyclicity, provided the argument does not
strongly reach the target. -/
theorem acyclic_prepend {T : Type} {h h' : Heap T} {s c : Nat}
    (hP : ∀ i, WFatP h i) (hac : Acyclic h)
    (hreach : ¬ Relation.ReflTransGen (sedge h) c s)
    (hok : prepend h s c = .ok h') : Acyclic h' := by
  obtain ⟨hsc, hcal, hsal, hroot, hpar, halive, hrest⟩ := prepend_fields hP hac hok
  have hP1 : ∀ i, WFatP (detach h c) i := wfatP_detach hP hac
  have hac1 : Acyclic (detach h c) := acyclic_detach hP hac
  have hni : ∀ x, ¬ sedge (detach h c) x c := no_in_detach hP hac
  have hreach1 : ¬ Relation.ReflTransGen (sedge (detach h c)) c s := fun hp =>
    hreach (reflTransGen_subrel (sedge_detach_to_trans hP hac) hp)
  cases hF : fcF (detach h c) s with
  | some f =>
    rw [hF] at hrest
    obtain ⟨hns', hps', hfc', hlc'⟩ := hrest
    have hfc_ne : f ≠ c := fun he => hni s (sedge_of_fc (he ▸ hF))
    have hsub1 : ∀ u v, (sedge h' u v ∧ ¬ (u = s ∧ v = c)) →
        sedge (detach h c) u v ∨ (u = c ∧ v = f) := by
      rintro u v ⟨he, hne⟩
      rcases (sedge_iff h' u v).mp he with hf' | hf'
      · rw [hfc' u] at hf'
        by_cases hu : u = s
        · rw [if_pos hu] at hf'
          exact absurd ⟨hu, (Option.some.inj hf').symm⟩ hne
        · rw [if_neg hu] at hf'
          exact Or.inl (sedge_of_fc hf')
      · rw [hns' u] at hf'
        by_cases hu : u = c
        · rw [if_pos hu] at hf'
          exact Or.inr ⟨hu, (Option.some.inj hf').symm⟩
        · rw [if_neg hu] at hf'
          exact Or.inl (sedge_of_ns hf')
    have hba1 : ¬ Relation.ReflTransGen (sedge (detach h c)) f c := fun hp =>
      hfc_ne (reflTransGen_no_in hni hp)
    have hacMid : ∀ i, ¬ Relation.TransGen
        (fun u v => sedge h' u v ∧ ¬ (u = s ∧ v = c)) i i :=
      acyclic_add_edge hsub1 hba1 hac1
    have hsub2 : ∀ u v, sedge h' u v →
        (sedge h' u v ∧ ¬ (u = s ∧ v = c)) ∨ (u = s ∧ v = c) := by
      intro u v he
      by_cases hx : u = s ∧ v = c
      · exact Or.inr hx
      · exact Or.inl ⟨he, hx⟩
    have hba2 : ¬ Relation.ReflTransGen
        (fun u v => sedge h' u v ∧ ¬ (u = s ∧ v = c)) c s := by
      intro hp
      rcases reflTransGen_add_edge hsub1 hba1 hp with h1 | ⟨_, hfs⟩
      · exact hreach1 h1
      · exact hac1 s (Relation.TransGen.head' (sedge_of_fc hF) hfs)
    exact acyclic_add_edge hsub2 hba2 hacMid
  | none =>
    rw [hF] at hrest
    obtain ⟨hns', hps', hfc', hlc'⟩ := hrest
    have hsub : ∀ u v, sedge h' u v → sedge (detach h c) u v ∨ (u = s ∧ v = c) := by
      intro u v he
      rcases (sedge_iff h' u v).mp he with hf' | hf'
      · rw [hfc' u] at hf'
        by_cases hu : u = s
        · rw [if_pos hu] at hf'
          exact Or.inr ⟨hu, (Option.some.inj hf').symm⟩
        · rw [if_neg hu] at hf'
          exact Or.inl (sedge_of_fc hf')
      · rw [hns' u] at hf'
        by_cases hu : u = c
        · rw [if_pos hu] at hf'
          exact Option.noConfusion hf'
        · rw [if_neg hu] at hf'
          exact Or.inl (sedge_of_ns hf')
    exact acyclic_add_edge hsub hreach1 hac1

/-- Inserting after preserves acyclicity, provided the argument does not
strongly reach the sibling. -/
theorem acyclic_insert_after {T : Type} {h h' : Heap T} {s c : Nat}
    (hP : ∀ i, WFatP h i) (hac : Acyclic h)
    (hreach : ¬ Relation.ReflTransGen (sedge h) c s)
    (hok : insert_after h s c = .ok h') : Acyclic h' := by
  obtain ⟨hsc, hcal, hsal, hroot, hpar, halive, hns', hfc', hrest⟩ :=
    insert_after_fields hP hac hok
  have hP1 : ∀ i, WFatP (detach h c) i := wfatP_detach hP hac
  have hac1 : Acyclic (detach h c) := acyclic_detach hP hac
  have hni : ∀ x, ¬ sedge (detach h c) x c := no_in_detach hP hac
  have hreach1 : ¬ Relation.ReflTransGen (sedge (detach h c)) c s := fun hp =>
    hreach (reflTransGen_subrel (sedge_detach_to_trans hP hac) hp)
  cases hN : nsF (detach h c) s with
  | some nx =>
    rw [hN] at hrest
    obtain ⟨hps', hlc'⟩ := hrest
    have hnx_ne : nx ≠ c := fun he => hni s (sedge_of_ns (he ▸ hN))
    have hsub1 : ∀ u v, (sedge h' u v ∧ ¬ (u = s ∧ v = c)) →
        sedge (detach h c) u v ∨ (u = c ∧ v = nx) := by
      rintro u v ⟨he, hne⟩
      rcases (sedge_iff h' u v).mp he with hf' | hf'
      · rw [hfc' u] at hf'
        exact Or.inl (sedge_of_fc hf')
      · rw [hns' u] at hf'
        by_cases hu : u = s
        · rw [if_pos hu] at hf'
          exact absurd ⟨hu, (Option.some.inj hf').symm⟩ hne
        · rw [if_neg hu] at hf'
          by_cases hu2 : u = c
          · rw [if_pos hu2, hN] at hf'
            exact Or.inr ⟨hu2, (Option.some.inj hf').symm⟩
          · rw [if_neg hu2] at hf'
            exact Or.inl (sedge_of_ns hf')
    have hba1 : ¬ Relation.ReflTransGen (sedge (detach h c)) nx c := fun hp =>
      hnx_ne (reflTransGen_no_in hni hp)
    have hacMid : ∀ i, ¬ Relation.TransGen
        (fun u v => sedge h' u v ∧ ¬ (u = s ∧ v = c)) i i :=
      acyclic_add_edge hsub1 hba1 hac1
    have hsub2 : ∀ u v, sedge h' u v →
        (sedge h' u v ∧ ¬ (u = s ∧ v = c)) ∨ (u = s ∧ v = c) := by
      intro u v he
      by_cases hx : u = s ∧ v = c
      · exact Or.inr hx
      · exact Or.inl ⟨he, hx⟩
    have hba2 : ¬ Relation.ReflTransGen
        (fun u v => sedge h' u v ∧ ¬ (u = s ∧ v = c)) c s := by
      intro hp
      rcases reflTransGen_add_edge hsub1 hba1 hp with h1 | ⟨_, hnxs⟩
      · exact hreach1 h1
      · exact hac1 s (Relation.TransGen.head' (sedge_of_ns hN) hnxs)
    exact acyclic_add_edge hsub2 hba2 hacMid
  | none =>
    rw [hN] at hrest
    obtain ⟨hps', hlc'⟩ := hrest
    have hsub : ∀ u v, sedge h' u v → sedge (detach h c) u v ∨ (u = s ∧ v = c) := by
      intro u v he
      rcases (sedge_iff h' u v).mp he with hf' | hf'
      · rw [hfc' u] at hf'
        exact Or.inl (sedge_of_fc hf')
      · rw [hns' u] at hf'
        by_cases hu : u = s
        · rw [if_pos hu] at hf'
          exact Or.inr ⟨hu, (Option.some.inj hf').symm⟩
        · rw [if_neg hu] at hf'
          by_cases hu2 : u = c
          · rw [if_pos hu2, hN] at hf'
            exact Option.noConfusion hf'
          · rw [if_neg hu2] at hf'
            exact Or.inl (sedge_of_ns hf')
    exact acyclic_add_edge hsub hreach1 hac1

/-- Inserting before preserves acyclicity, provided the argument does not
strongly reach the sibling. -/
theorem acyclic_insert_before {T : Type} {h h' : Heap T} {s c : Nat}
    (hP : ∀ i, WFatP h i) (hac : Acyclic h)
    (hreach : ¬ Relation.ReflTransGen (sedge h) c s)
    (hok : insert_before h s c = .ok h') : Acyclic h' := by
  obtain ⟨hsc, hcal, hsal, hroot, hpar, halive, hps', hlc', hrest⟩ :=
    insert_before_fields hP hac hok
  have hP1 : ∀ i, WFatP (detach h c) i := wfatP_detach hP hac
  have hac1 : Acyclic (detach h c) := acyclic_detach hP hac
  have hni : ∀ x, ¬ sedge (detach h c) x c := no_in_detach hP hac
  have hreach1 : ¬ Relation.ReflTransGen (sedge (detach h c)) c s := fun hp =>
    hreach (reflTransGen_subrel (sedge_detach_to_trans hP hac) hp)
  have hba0 : ¬ Relation.ReflTransGen (sedge (detach h c)) s c := fun hp =>
    hsc (reflTransGen_no_in hni hp)
  cases hV : psF (detach h c) s with
  | some v =>
    rw [hV] at hrest
    obtain ⟨hns', hfc'⟩ := hrest
    have hvs : nsF (detach h c) v = some s := (hP1 s).ps_ns v hV
    have hsub1 : ∀ u y, (sedge h' u y ∧ ¬ (u = v ∧ y = c)) →
        sedge (detach h c) u y ∨ (u = c ∧ y = s) := by
      rintro u y ⟨he, hne⟩
      rcases (sedge_iff h' u y).mp he with hf' | hf'
      · rw [hfc' u] at hf'
        exact Or.inl (sedge_of_fc hf')
      · rw [hns' u] at hf'
        by_cases hu : u = v
        · rw [if_pos hu] at hf'
          exact absurd ⟨hu, (Option.some.inj hf').symm⟩ hne
        · rw [if_neg hu] at hf'
          by_cases hu2 : u = c
          · rw [if_pos hu2] at hf'
            exact Or.inr ⟨hu2, (Option.some.inj hf').symm⟩
          · rw [if_neg hu2] at hf'
            exact Or.inl (sedge_of_ns hf')
    have hacMid : ∀ i, ¬ Relation.TransGen
        (fun u y => sedge h' u y ∧ ¬ (u = v ∧ y = c)) i i :=
      acyclic_add_edge hsub1 hba0 hac1
    have hsub2 : ∀ u y, sedge h' u y →
        (sedge h' u y ∧ ¬ (u = v ∧ y = c)) ∨ (u = v ∧ y = c) := by
      intro u y he
      by_cases hx : u = v ∧ y = c
      · exact Or.inr hx
      · exact Or.inl ⟨he, hx⟩
    have hba2 : ¬ Relation.ReflTransGen
        (fun u y => sedge h' u y ∧ ¬ (u = v ∧ y = c)) c v := by
      intro hp
      rcases reflTransGen_add_edge hsub1 hba0 hp with h1 | ⟨_, hsv⟩
      · exact hreach1 (h1.tail (sedge_of_ns hvs))
      · exact hac1 s (Relation.TransGen.tail' hsv (sedge_of_ns hvs))
    exact acyclic_add_edge hsub2 hba2 hacMid
  | none =>
    rw [hV] at hrest
    obtain ⟨hns', hrest2⟩ := hrest
    cases hPp : parF (detach h c) s with
    | some p =>
      rw [hPp] at hrest2
      have hpfc : fcF (detach h c) p = some s := (hP1 s).par_ps_fc p hPp hV
      have hsub1 : ∀ u y, (sedge h' u y ∧ ¬ (u = p ∧ y = c)) →
          sedge (detach h c) u y ∨ (u = c ∧ y = s) := by
        rintro u y ⟨he, hne⟩
        rcases (sedge_iff h' u y).mp he with hf' | hf'
        · rw [hrest2 u] at hf'
          by_cases hu : u = p
          · rw [if_pos hu] at hf'
            exact absurd ⟨hu, (Option.some.inj hf').symm⟩ hne
          · rw [if_neg hu] at hf'
            exact Or.inl (sedge_of_fc hf')
        · rw [hns' u] at hf'
          by_cases hu : u = c
          · rw [if_pos hu] at hf'
            exact Or.inr ⟨hu, (Option.some.inj hf').symm⟩
          · rw [if_neg hu] at hf'
            exact Or.inl (sedge_of_ns hf')
      have hacMid : ∀ i, ¬ Relation.TransGen
          (fun u y => sedge h' u y ∧ ¬ (u = p ∧ y = c)) i i :=
        acyclic_add_edge hsub1 hba0 hac1
      have hsub2 : ∀ u y, sedge h' u y →
          (sedge h' u y ∧ ¬ (u = p ∧ y = c)) ∨ (u = p ∧ y = c) := by
        intro u y he
        by_cases hx : u = p ∧ y = c
        · exact Or.inr hx
        · exact Or.inl ⟨he, hx⟩
      have hba2 : ¬ Relation.ReflTransGen
          (fun u y => sedge h' u y ∧ ¬ (u = p ∧ y = c)) c p := by
        intro hp
        rcases reflTransGen_add_edge hsub1 hba0 hp with h1 | ⟨_, hsp⟩
        · exact hreach1 (h1.tail (sedge_of_fc hpfc))
        · exact hac1 s (Relation.TransGen.tail' hsp (sedge_of_fc hpfc))
      exact acyclic_add_edge hsub2 hba2 hacMid
    | none =>
      rw [hPp] at hrest2
      have hsub : ∀ u y, sedge h' u y → sedge (detach h c) u y ∨ (u = c ∧ y = s) := by
        intro u y he
        rcases (sedge_iff h' u y).mp he with hf' | hf'
        · rw [hrest2 u] at hf'
          exact Or.inl (sedge_of_fc hf')
        · rw [hns' u] at hf'
          by_cases hu : u = c
          · rw [if_pos hu] at hf'
            exact Or.inr ⟨hu, (Option.some.inj hf').symm⟩
          · rw [if_neg hu] at hf'
            exact Or.inl (sedge_of_ns hf')
      exact acyclic_add_edge hsub hba0 hac1

/-- C1 counterexample: the claim's ancestor case is false at a concrete
input.  In `cycleFixture`, node 0 has child 1 and then `1.append(0)` —
appending a strong-link ancestor — completes without error and produces a
heap whose strong subgraph has the cycle 0 → 1 → 0 (each node is the
other's `first_child`): record 0 strongly reaches itself. -/
theorem c1_ancestor_cycle_counterexample :
    cycleFixture = .ok cycleHeap ∧
    Relation.TransGen (sedge cycleHeap) 0 0 := by
  refine ⟨rfl, Relation.TransGen.tail (b := 1) (Relation.TransGen.single ?_) ?_⟩
  · show sedgeB cycleHeap 0 1 = true
    decide
  · show sedgeB cycleHeap 1 0 = true
    decide

/-- C1 (amended): after every completed mutation the strong-reference
subgraph (`first_child`/`next_sibling` edges) stays acyclic — no record
strongly reaches itself — provided, for the four insertion operations, the
node being inserted does not already strongly reach the node operated on.
`detach` needs no proviso.  The claim's ancestor case is the excluded one
and is genuinely false: appending a strong-link ancestor completes and
creates a cycle (see the counterexample). -/
theorem c1_acyclicity_preserved {T : Type} :
    (∀ (h : Heap T) (n : Nat), WF h → Acyclic h → Acyclic (detach h n)) ∧
    (∀ (h h' : Heap T) (s c : Nat), WF h → Acyclic h → ¬ Reaches h c s →
      append h s c = .ok h' → Acyclic h') ∧
    (∀ (h h' : Heap T) (s c : Nat), WF h → Acyclic h → ¬ Reaches h c s →
      prepend h s c = .ok h' → Acyclic h') ∧
    (∀ (h h' : Heap T) (s c : Nat), WF h → Acyclic h → ¬ Reaches h c s →
      insert_after h s c = .ok h' → Acyclic h') ∧
    (∀ (h h' : Heap T) (s c : Nat), WF h → Acyclic h → ¬ Reaches h c s →
      insert_before h s c = .ok h' → Acyclic h') := by
  refine ⟨?_, ?_, ?_, ?_, ?_⟩
  · intro h n hw hac
    exact acyclic_detach (wf_wfatP hw) hac
  · intro h h' s c hw hac hr hok
    exact acyclic_append (wf_wfatP hw) hac hr hok
  · intro h h' s c hw hac hr hok
    exact acyclic_prepend (wf_wfatP hw) hac hr hok
  · intro h h' s c hw hac hr hok
    exact acyclic_insert_after (wf_wfatP hw) hac hr hok
  · intro h h' s c hw hac hr hok
    exact acyclic_insert_before (wf_wfatP hw) hac hr hok

/-- Witness for C1 at concrete inputs: in the two-singleton heap `exW1`
(well-formed, acyclic by the identity rank, and node 1 does not strongly
reach node 0), each of the five operations yields an acyclic heap. -/
theorem c1_acyclicity_preserved_witness :
    WF exW1 ∧ ¬ Reaches exW1 1 0 ∧
    Acyclic (detach exW1 0) ∧
    append exW1 0 1 = .ok exW1A ∧ Acyclic exW1A ∧
    prepend exW1 0 1 = .ok exW1A ∧
    insert_after exW1 0 1 = .ok exW1IA ∧ Acyclic exW1IA ∧
    insert_before exW1 0 1 = .ok exW1IB ∧ Acyclic exW1IB := by
  have hw : WF exW1 := by decide
  have hac : Acyclic exW1 := acyclic_of_rank (fun i => i) (by decide)
  have hnr : ¬ Reaches exW1 1 0 :=
    not_reaches_of_rank (fun i => i) (by decide) (by decide)
  have hthm := c1_acyclicity_preserved (T := Nat)
  exact ⟨hw, hnr,
    hthm.1 exW1 0 hw hac,
    rfl, hthm.2.1 exW1 exW1A 0 1 hw hac hnr rfl,
    rfl,
    rfl, hthm.2.2.2.1 exW1 exW1IA 0 1 hw hac hnr rfl,
    rfl, hthm.2.2.2.2 exW1 exW1IB 0 1 hw hac hnr rfl⟩

/-! ### Claim C5: children iteration order after fresh appends -/

/-- Pointwise-equal heaps resolve weak links identically. -/
theorem upgrade_congr {T : Type} {g h : Heap T}
    (he : ∀ x, g.node x = h.node x) (w : Option Nat) :
    upgrade g w = upgrade h w := by
  cases w with
  | none => rfl
  | some i =>
    simp only [upgrade]
    rw [he i]

/-- Detaching a node that is already isolated (no parent and no siblings)
changes no record and keeps the heap length. -/
theorem detach_isolated {T : Type} {h : Heap T} {c : Nat} {cd : NodeData T}
    (hcn : h.node c = some cd) (hp0 : cd.parent = none)
    (hv0 : cd.previous_sibling = none) (hn0 : cd.next_sibling = none) :
    (∀ x, (detach h c).node x = h.node x) ∧ (detach h c).length = h.length := by
  obtain ⟨r0, p0, f0, l0, v0, n0, d0⟩ := cd
  simp only at hp0 hv0 hn0
  subst hp0; subst hv0; subst hn0
  have hde : detach h c = h.setN c
      { root := r0, parent := none, first_child := f0, last_child := l0,
        previous_sibling := none, next_sibling := none, data := d0 } := by
    unfold detach
    rw [hcn]
    rfl
  constructor
  · intro x
    rw [hde, node_setN_if hcn]
    by_cases hx : x = c
    · rw [if_pos hx, hx, hcn]
    · rw [if_neg hx]
  · rw [hde, length_setN]

/-- Reading a field through an update of the same slot yields the written
value whenever the write makes the field constant. -/
theorem bind_update_const {T : Type} {h : Heap T} {i : Nat}
    (f : NodeData T → NodeData T) (g : NodeData T → Option Nat) {w : Option Nat}
    (hf : ∀ d, g (f d) = w)
    (hal : (h.node i).isSome = true) :
    ((h.update i f).node i).bind g = w := by
  obtain ⟨d, hdd⟩ := Option.isSome_iff_exists.mp hal
  rw [node_update_self f hdd]
  exact hf d

/-- `range'` with step one grows on the right by its endpoint. -/
theorem range'_concat_one (s n : Nat) :
    List.range' s (n + 1) = List.range' s n ++ [s + n] := by
  have hr := @List.range'_concat 1 s n
  simpa using hr

/-- Appending a fresh isolated node: the success case of `append` together
with a pointwise description of every link field of the result, relative to
the original heap (no well-formedness needed — the implicit detach of an
isolated node is the identity). -/
theorem append_fresh {T : Type} {h : Heap T} {s c : Nat} {sd cd : NodeData T}
    (hsn : h.node s = some sd) (hcn : h.node c = some cd)
    (hp0 : cd.parent = none) (hv0 : cd.previous_sibling = none)
    (hn0 : cd.next_sibling = none) (hsc : s ≠ c) :
    ∃ h', append h s c = .ok h' ∧
      h'.length = h.length ∧
      (∀ x, rootF h' x = if x = c then some (sd.root.getD s) else rootF h x) ∧
      (∀ x, parF h' x = if x = c then some s else parF h x) ∧
      (∀ x, (h'.node x).isSome = (h.node x).isSome) ∧
      (match upgrade h sd.last_child with
       | some l =>
          (∀ x, psF h' x = if x = c then some l else psF h x) ∧
          (∀ x, nsF h' x = if x = l then some c else nsF h x) ∧
          (∀ x, fcF h' x = fcF h x) ∧
          (∀ x, lcF h' x = if x = s then some c else lcF h x)
       | none =>
          (∀ x, psF h' x = if x = c then none else psF h x) ∧
          (∀ x, nsF h' x = nsF h x) ∧
          (∀ x, fcF h' x = if x = s then some c else fcF h x) ∧
          (∀ x, lcF h' x = if x = s then some c else lcF h x)) := by
  obtain ⟨hdp, hdlen⟩ := detach_isolated hcn hp0 hv0 hn0
  have hDs : (detach h c).node s = some sd := by rw [hdp s]; exact hsn
  have hDc : (detach h c).node c = some cd := by rw [hdp c]; exact hcn
  have hup : upgrade (detach h c) sd.last_child = upgrade h sd.last_child :=
    upgrade_congr hdp _
  unfold append
  rw [if_neg hsc, hsn, hcn]
  simp only
  rw [hDs]
  simp only
  rw [hup]
  cases hL : upgrade h sd.last_child with
  | some l =>
    simp only
    have hlal : (h.node l).isSome = true := by
      have := (upgrade_eq_some (hup ▸ hL)).2
      rw [hdp l] at this
      exact this
    refine ⟨_, rfl, ?_, ?_, ?_, ?_, ?_, ?_, ?_, ?_⟩
    · rw [length_update, length_update, length_update, hdlen]
    · intro x
      unfold rootF
      rw [bind_update_pres (g := fun d => d.root)
            (f := fun ld => { ld with next_sibling := some c }) (fun d => rfl),
          bind_update_pres (g := fun d => d.root)
            (f := fun sd2 => { sd2 with last_child := some c }) (fun d => rfl)]
      by_cases hx : x = c
      · subst hx
        rw [if_pos rfl]
        exact bind_update_const _ _ (fun d => rfl) (by rw [hDc]; rfl)
      · rw [if_neg hx, node_update_ne _ _ hx, hdp x]
    · intro x
      unfold parF
      rw [bind_update_pres (g := fun d => d.parent)
            (f := fun ld => { ld with next_sibling := some c }) (fun d => rfl),
          bind_update_pres (g := fun d => d.parent)
            (f := fun sd2 => { sd2 with last_child := some c }) (fun d => rfl)]
      by_cases hx : x = c
      · subst hx
        rw [if_pos rfl]
        exact bind_update_const _ _ (fun d => rfl) (by rw [hDc]; rfl)
      · rw [if_neg hx, node_update_ne _ _ hx, hdp x]
    · intro x
      rw [isSome_node_update, isSome_node_update, isSome_node_update, hdp x]
    · intro x
      unfold psF
      rw [bind_update_pres (g := fun d => d.previous_sibling)
            (f := fun ld => { ld with next_sibling := some c }) (fun d => rfl),
          bind_update_pres (g := fun d => d.previous_sibling)
            (f := fun sd2 => { sd2 with last_child := some c }) (fun d => rfl)]
      by_cases hx : x = c
      · subst hx
        rw [if_pos rfl]
        exact bind_update_const _ _ (fun d => rfl) (by rw [hDc]; rfl)
      · rw [if_neg hx, node_update_ne _ _ hx, hdp x]
    · intro x
      unfold nsF
      by_cases hx : x = l
      · subst hx
        rw [if_pos rfl]
        exact bind_update_const _ _ (fun d => rfl)
          (by rw [isSome_node_update, isSome_node_update, hdp x]; exact hlal)
      · rw [if_neg hx, node_update_ne _ _ hx,
            bind_update_pres (g := fun d => d.next_sibling)
              (f := fun sd2 => { sd2 with last_child := some c }) (fun d => rfl),
            bind_update_pres (g := fun d => d.next_sibling)
              (f := fun cd2 => { cd2 with root := some (sd.root.getD s), parent := some s,
                                          previous_sibling := some l }) (fun d => rfl),
            hdp x]
    · intro x
      unfold fcF
      rw [bind_update_pres (g := fun d => d.first_child)
            (f := fun ld => { ld with next_sibling := some c }) (fun d => rfl),
          bind_update_pres (g := fun d => d.first_child)
            (f := fun sd2 => { sd2 with last_child := some c }) (fun d => rfl),
          bind_update_pres (g := fun d => d.first_child)
            (f := fun cd2 => { cd2 with root := some (sd.root.getD s), parent := some s,
                                        previous_sibling := some l }) (fun d => rfl),
          hdp x]
    · intro x
      unfold lcF
      rw [bind_update_pres (g := fun d => d.last_child)
            (f := fun ld => { ld with next_sibling := some c }) (fun d => rfl)]
      by_cases hx : x = s
      · subst hx
        rw [if_pos rfl]
        exact bind_update_const _ _ (fun d => rfl)
          (by rw [isSome_node_update, hdp x, hsn]; rfl)
      · rw [if_neg hx, node_update_ne _ _ hx,
            bind_update_pres (g := fun d => d.last_child)
              (f := fun cd2 => { cd2 with root := some (sd.root.getD s), parent := some s,
                                          previous_sibling := some l }) (fun d => rfl),
            hdp x]
  | none =>
    simp only
    refine ⟨_, rfl, ?_, ?_, ?_, ?_, ?_, ?_, ?_, ?_⟩
    · rw [length_update, length_update, length_update, hdlen]
    · intro x
      unfold rootF
      rw [bind_update_pres (g := fun d => d.root)
            (f := fun sd2 => { sd2 with first_child := some c }) (fun d => rfl),
          bind_update_pres (g := fun d => d.root)
            (f := fun sd2 => { sd2 with last_child := some c }) (fun d => rfl)]
      by_cases hx : x = c
      · subst hx
        rw [if_pos rfl]
        exact bind_update_const _ _ (fun d => rfl) (by rw [hDc]; rfl)
      · rw [if_neg hx, node_update_ne _ _ hx, hdp x]
    · intro x
      unfold parF
      rw [bind_update_pres (g := fun d => d.parent)
            (f := fun sd2 => { sd2 with first_child := some c }) (fun d => rfl),
          bind_update_pres (g := fun d => d.parent)
            (f := fun sd2 => { sd2 with last_child := some c }) (fun d => rfl)]
      by_cases hx : x = c
      · subst hx
        rw [if_pos rfl]
        exact bind_update_const _ _ (fun d => rfl) (by rw [hDc]; rfl)
      · rw [if_neg hx, node_update_ne _ _ hx, hdp x]
    · intro x
      rw [isSome_node_update, isSome_node_update, isSome_node_update, hdp x]
    · intro x
      unfold psF
      rw [bind_update_pres (g := fun d => d.previous_sibling)
            (f := fun sd2 => { sd2 with first_child := some c }) (fun d => rfl),
          bind_update_pres (g := fun d => d.previous_sibling)
            (f := fun sd2 => { sd2 with last_child := some c }) (fun d => rfl)]
      by_cases hx : x = c
      · subst hx
        rw [if_pos rfl]
        exact bind_update_const _ _ (fun d => rfl) (by rw [hDc]; rfl)
      · rw [if_neg hx, node_update_ne _ _ hx, hdp x]
    · intro x
      unfold nsF
      rw [bind_update_pres (g := fun d => d.next_sibling)
            (f := fun sd2 => { sd2 with first_child := some c }) (fun d => rfl),
          bind_update_pres (g := fun d => d.next_sibling)
            (f := fun sd2 => { sd2 with last_child := some c }) (fun d => rfl),
          bind_update_pres (g := fun d => d.next_sibling)
            (f := fun cd2 => { cd2 with root := some (sd.root.getD s), parent := some s,
                                        previous_sibling := none }) (fun d => rfl),
          hdp x]
    · intro x
      unfold fcF
      by_cases hx : x = s
      · subst hx
        rw [if_pos rfl]
        exact bind_update_const _ _ (fun d => rfl)
          (by rw [isSome_node_update, isSome_node_update, hdp x, hsn]; rfl)
      · rw [if_neg hx, node_update_ne _ _ hx,
            bind_update_pres (g := fun d => d.first_child)
              (f := fun sd2 => { sd2 with last_child := some c }) (fun d => rfl),
            bind_update_pres (g := fun d => d.first_child)
              (f := fun cd2 => { cd2 with root := some (sd.root.getD s), parent := some s,
                                          previous_sibling := none }) (fun d => rfl),
            hdp x]
    · intro x
      unfold lcF
      rw [bind_update_pres (g := fun d => d.last_child)
            (f := fun sd2 => { sd2 with first_child := some c }) (fun d => rfl)]
      by_cases hx : x = s
      · subst hx
        rw [if_pos rfl]
        exact bind_update_const _ _ (fun d => rfl)
          (by rw [isSome_node_update, hdp x, hsn]; rfl)
      · rw [if_neg hx, node_update_ne _ _ hx,
            bind_update_pres (g := fun d => d.last_child)
              (f := fun cd2 => { cd2 with root := some (sd.root.getD s), parent := some s,
                                          previous_sibling := none }) (fun d => rfl),
            hdp x]

/-- One fresh append extends the child-chain region invariant by one node. -/
theorem chainInv_step {T : Type} {g : Heap T} {p N k : Nat} (d : T)
    (hInv : ChainInv g p N k) :
    ∃ g', appendNew g p d = .ok g' ∧ ChainInv g' p N (k + 1) := by
  obtain ⟨hlen, hpN, hpal, hfc, hlc, hch⟩ := hInv
  obtain ⟨pd, hpd⟩ := Option.isSome_iff_exists.mp hpal
  have hplt : p < g.length := node_lt_length hpd
  obtain ⟨gN, hgN⟩ : ∃ gN : Heap T, gN = g ++ [some { root := none, parent := none, first_child := none, last_child := none, previous_sibling := none, next_sibling := none, data := d }] :=
    ⟨_, rfl⟩
  have hred : appendNew g p d = append gN p g.length := by
    rw [hgN]
    rfl
  have hgNp : gN.node p = some pd := by
    rw [hgN, node_append_lt g _ p hplt]
    exact hpd
  have hgNc : gN.node g.length = some { root := none, parent := none, first_child := none, last_child := none, previous_sibling := none, next_sibling := none, data := (d : T) } := by
    rw [hgN]
    exact node_append_self g _
  have hnodeN : ∀ x, x < g.length → gN.node x = g.node x := by
    intro x hx
    rw [hgN]
    exact node_append_lt g _ x hx
  have hTfc : ∀ x, x < g.length → fcF gN x = fcF g x := by
    intro x hx
    unfold fcF
    rw [hnodeN x hx]
  have hTlc : ∀ x, x < g.length → lcF gN x = lcF g x := by
    intro x hx
    unfold lcF
    rw [hnodeN x hx]
  have hTps : ∀ x, x < g.length → psF gN x = psF g x := by
    intro x hx
    unfold psF
    rw [hnodeN x hx]
  have hTns : ∀ x, x < g.length → nsF gN x = nsF g x := by
    intro x hx
    unfold nsF
    rw [hnodeN x hx]
  have hTpar : ∀ x, x < g.length → parF gN x = parF g x := by
    intro x hx
    unfold parF
    rw [hnodeN x hx]
  have hNfc : fcF gN g.length = none := by
    unfold fcF
    rw [hgNc]
    rfl
  have hNlc : lcF gN g.length = none := by
    unfold lcF
    rw [hgNc]
    rfl
  have hNns : nsF gN g.length = none := by
    unfold nsF
    rw [hgNc]
    rfl
  obtain ⟨h', hok, hlen', hrt, hpr, hal', hrest⟩ :=
    append_fresh hgNp hgNc rfl rfl rfl (by omega : p ≠ g.length)
  have hpdlc : pd.last_child = (if k = 0 then none else some (N + k - 1)) := by
    rw [← lcF_eq hpd]
    exact hlc
  by_cases hk0 : k = 0
  · have hupg : upgrade gN pd.last_child = none := by
      rw [hpdlc, if_pos hk0]
      rfl
    rw [hupg] at hrest
    obtain ⟨hps, hns, hfcf, hlcf⟩ := hrest
    refine ⟨h', hred.trans hok, ?_, hpN, ?_, ?_, ?_, ?_⟩
    · rw [hlen', hgN]
      simp [hlen]
      omega
    · rw [hal' p, hgNp]
      rfl
    · rw [hfcf p, if_pos rfl, if_neg (by omega : ¬ k + 1 = 0)]
      have he : g.length = N := by omega
      rw [he]
    · rw [hlcf p, if_pos rfl]
      have he : g.length = N + (k + 1) - 1 := by omega
      rw [he, if_neg (by omega : ¬ k + 1 = 0)]
    · intro j hj
      have hj0 : j = 0 := by omega
      subst hj0
      have hid : N + 0 = g.length := by omega
      refine ⟨?_, ?_, ?_, ?_, ?_, ?_⟩
      · rw [hal' (N + 0), hid, hgNc]
        rfl
      · rw [hpr (N + 0), if_pos hid]
      · rw [hfcf (N + 0), if_neg (by omega : ¬ N + 0 = p), hid, hNfc]
      · rw [hlcf (N + 0), if_neg (by omega : ¬ N + 0 = p), hid, hNlc]
      · rw [hps (N + 0), if_pos hid, if_pos rfl]
      · rw [hns (N + 0), hid, hNns, if_pos (by omega : 0 = k + 1 - 1)]
  · have hl_lt : N + k - 1 < g.length := by omega
    have hlal : (g.node (N + k - 1)).isSome = true := by
      have hc := (hch (k - 1) (by omega)).1
      have heq : N + (k - 1) = N + k - 1 := by omega
      rw [heq] at hc
      exact hc
    have hupg : upgrade gN pd.last_child = some (N + k - 1) := by
      rw [hpdlc, if_neg hk0]
      refine upgrade_some ?_
      rw [hnodeN _ hl_lt]
      exact hlal
    rw [hupg] at hrest
    obtain ⟨hps, hns, hfcf, hlcf⟩ := hrest
    refine ⟨h', hred.trans hok, ?_, hpN, ?_, ?_, ?_, ?_⟩
    · rw [hlen', hgN]
      simp [hlen]
      omega
    · rw [hal' p, hgNp]
      rfl
    · rw [hfcf p, hTfc p hplt, hfc, if_neg hk0, if_neg (by omega : ¬ k + 1 = 0)]
    · rw [hlcf p, if_pos rfl]
      have he : g.length = N + (k + 1) - 1 := by omega
      rw [he, if_neg (by omega : ¬ k + 1 = 0)]
    · intro j hj
      by_cases hjk : j = k
      · have hid : N + j = g.length := by omega
        refine ⟨?_, ?_, ?_, ?_, ?_, ?_⟩
        · rw [hal' (N + j), hid, hgNc]
          rfl
        · rw [hpr (N + j), if_pos hid]
        · rw [hfcf (N + j), hid, hNfc]
        · rw [hlcf (N + j), if_neg (by omega : ¬ N + j = p), hid, hNlc]
        · rw [hps (N + j), if_pos hid, if_neg (by omega : ¬ j = 0)]
          have h2 : N + k - 1 = N + j - 1 := by omega
          rw [h2]
        · rw [hns (N + j), if_neg (by omega : ¬ N + j = N + k - 1), hid, hNns,
              if_pos (by omega : j = k + 1 - 1)]
      · have hjlt : j < k := by omega
        have hjg : N + j < g.length := by omega
        obtain ⟨hA, hB, hC, hD, hE, hF2⟩ := hch j hjlt
        refine ⟨?_, ?_, ?_, ?_, ?_, ?_⟩
        · rw [hal' (N + j), hnodeN _ hjg]
          exact hA
        · rw [hpr (N + j), if_neg (by omega : ¬ N + j = g.length), hTpar _ hjg]
          exact hB
        · rw [hfcf (N + j), hTfc _ hjg]
          exact hC
        · rw [hlcf (N + j), if_neg (by omega : ¬ N + j = p), hTlc _ hjg]
          exact hD
        · rw [hps (N + j), if_neg (by omega : ¬ N + j = g.length), hTps _ hjg, hE]
        · by_cases hjk1 : j = k - 1
          · rw [hns (N + j), if_pos (by omega : N + j = N + k - 1),
                if_neg (by omega : ¬ j = k + 1 - 1)]
            have he : g.length = N + j + 1 := by omega
            rw [he]
          · rw [hns (N + j), if_neg (by omega : ¬ N + j = N + k - 1), hTns _ hjg, hF2,
                if_neg (by omega : ¬ j = k - 1), if_neg (by omega : ¬ j = k + 1 - 1)]

/-- Appending a list of fresh nodes extends the region invariant by the
list's length. -/
theorem chainInv_list {T : Type} {g : Heap T} {p N k : Nat} (ds : List T)
    (hInv : ChainInv g p N k) :
    ∃ g', appendNewList g p ds = .ok g' ∧ ChainInv g' p N (k + ds.length) := by
  induction ds generalizing g k with
  | nil => exact ⟨g, rfl, hInv⟩
  | cons d ds ih =>
    obtain ⟨g1, hok1, hInv1⟩ := chainInv_step d hInv
    obtain ⟨g2, hok2, hInv2⟩ := ih hInv1
    refine ⟨g2, ?_, ?_⟩
    · show (appendNew g p d >>= fun h1 => appendNewList h1 p ds) = .ok g2
      rw [hok1]
      exact hok2
    · have he : k + 1 + ds.length = k + (d :: ds).length := by
        simp
        omega
      exact he ▸ hInv2

/-- Draining the `Children` iterator forwards over an intact chain region
yields the remaining ids in order. -/
theorem chain_drain_fwd {T : Type} {g : Heap T} {p N k : Nat}
    (hInv : ChainInv g p N k) (hk : 1 ≤ k) :
    ∀ m j fuel, j + m = k → m + 1 ≤ fuel →
      childrenFwd g fuel
        { next := (if m = 0 then none else some (N + j)),
          next_back := some (N + k - 1) } = List.range' (N + j) m := by
  obtain ⟨hlen, hpN, hpal, hfc, hlc, hch⟩ := hInv
  have hnsLast : nextSiblingAcc g (N + k - 1) = none := by
    have hc := (hch (k - 1) (by omega)).2.2.2.2.2
    rw [if_pos rfl] at hc
    have heq : N + (k - 1) = N + k - 1 := by omega
    rw [heq] at hc
    exact hc
  intro m
  induction m with
  | zero =>
    intro j fuel hjm hfuel
    obtain ⟨f0, rfl⟩ : ∃ f0, fuel = f0 + 1 := ⟨fuel - 1, by omega⟩
    simp [childrenFwd, Children.nextF, Children.finished, hnsLast]
  | succ m ih =>
    intro j fuel hjm hfuel
    obtain ⟨f0, rfl⟩ : ∃ f0, fuel = f0 + 1 := ⟨fuel - 1, by omega⟩
    have hjk : j < k := by omega
    have hnsj : nextSiblingAcc g (N + j) =
        (if j = k - 1 then none else some (N + j + 1)) := (hch j hjk).2.2.2.2.2
    have hstep : Children.nextF g
        { next := some (N + j), next_back := some (N + k - 1) } =
        (some (N + j), { next := nextSiblingAcc g (N + j),
                         next_back := some (N + k - 1) }) := by
      unfold Children.nextF Children.finished
      simp [hnsLast]
    have hun : childrenFwd g (f0 + 1)
        { next := (if m + 1 = 0 then none else some (N + j)),
          next_back := some (N + k - 1) } =
        match Children.nextF g { next := some (N + j), next_back := some (N + k - 1) } with
        | (some n, s2) => n :: childrenFwd g f0 s2
        | (none, _) => [] := rfl
    rw [hun, hstep]
    show (N + j) :: childrenFwd g f0
        { next := nextSiblingAcc g (N + j), next_back := some (N + k - 1) } = _
    have hshape : nextSiblingAcc g (N + j) =
        (if m = 0 then none else some (N + (j + 1))) := by
      rw [hnsj]
      by_cases hm : m = 0
      · have hje : j = k - 1 := by omega
        simp [hm, hje]
      · have hje : ¬ j = k - 1 := by omega
        simp [hm, hje]
        omega
    rw [hshape, ih (j + 1) f0 (by omega) (by omega)]
    rfl

/-- Draining the `Children` iterator backwards over an intact chain region
yields the remaining ids in reverse order. -/
theorem chain_drain_bwd {T : Type} {g : Heap T} {p N k : Nat}
    (hInv : ChainInv g p N k) (hk : 1 ≤ k) :
    ∀ m fuel, m ≤ k → m + 1 ≤ fuel →
      childrenBwd g fuel
        { next := some N,
          next_back := (if m = 0 then none else some (N + m - 1)) } =
        (List.range' N m).reverse := by
  obtain ⟨hlen, hpN, hpal, hfc, hlc, hch⟩ := hInv
  intro m
  induction m with
  | zero =>
    intro fuel hm hfuel
    obtain ⟨f0, rfl⟩ : ∃ f0, fuel = f0 + 1 := ⟨fuel - 1, by omega⟩
    simp [childrenBwd, Children.nextBackF, Children.finished]
  | succ m ih =>
    intro fuel hm hfuel
    obtain ⟨f0, rfl⟩ : ∃ f0, fuel = f0 + 1 := ⟨fuel - 1, by omega⟩
    have hmk : m < k := by omega
    have hnsm : nextSiblingAcc g (N + m) =
        (if m = k - 1 then none else some (N + m + 1)) := (hch m hmk).2.2.2.2.2
    have hidx : N + (m + 1) - 1 = N + m := by omega
    have hfin : Children.finished g
        { next := some N, next_back := some (N + m) } = false := by
      have hre : Children.finished g { next := some N, next_back := some (N + m) } =
          (nextSiblingAcc g (N + m) == some N) := rfl
      rw [hre, hnsm]
      by_cases hml : m = k - 1
      · simp [hml]
      · simp [hml]
        omega
    have hstep : Children.nextBackF g
        { next := some N, next_back := some (N + m) } =
        (some (N + m), { next := some N,
                         next_back := prevSiblingAcc g (N + m) }) := by
      unfold Children.nextBackF
      rw [hfin]
      rfl
    have hps : prevSiblingAcc g (N + m) =
        (if m = 0 then none else some (N + m - 1)) := by
      unfold prevSiblingAcc
      rw [(hch m hmk).2.2.2.2.1]
      by_cases hm0 : m = 0
      · simp [hm0, upgrade]
      · rw [if_neg hm0]
        refine upgrade_some ?_
        have hc := (hch (m - 1) (by omega)).1
        have heq : N + (m - 1) = N + m - 1 := by omega
        rw [heq] at hc
        exact hc
    have hun : childrenBwd g (f0 + 1)
        { next := some N,
          next_back := (if m + 1 = 0 then none else some (N + (m + 1) - 1)) } =
        match Children.nextBackF g { next := some N, next_back := some (N + m) } with
        | (some n, s2) => n :: childrenBwd g f0 s2
        | (none, _) => [] := by
      rw [if_neg (by omega : ¬ m + 1 = 0), hidx]
      rfl
    rw [hun, hstep]
    show (N + m) :: childrenBwd g f0
        { next := some N, next_back := prevSiblingAcc g (N + m) } = _
    rw [hps, ih f0 (by omega) (by omega), range'_concat_one]
    simp

/-- C5: for every node `P` alive in any heap and currently childless,
appending `n` freshly created nodes `C1..Cn` in order (each `Ci` is
allocated the next free id, so `Ci = h.length + i - 1`) succeeds, and
iterating `P`'s children forwards yields exactly `[C1, ..., Cn]` while
iterating backwards yields exactly `[Cn, ..., C1]`. -/
theorem c5_children_order {T : Type} (h : Heap T) (p : Nat) (ds : List T)
    (hal : (h.node p).isSome = true) (hfc : fcF h p = none) (hlc : lcF h p = none) :
    ∃ g, appendNewList h p ds = .ok g ∧
      childrenFwd g (ds.length + 1) (Children.new g p) =
        List.range' h.length ds.length ∧
      childrenBwd g (ds.length + 1) (Children.new g p) =
        (List.range' h.length ds.length).reverse := by
  obtain ⟨pd, hpd⟩ := Option.isSome_iff_exists.mp hal
  have hInv0 : ChainInv h p h.length 0 := by
    refine ⟨rfl, node_lt_length hpd, hal, by simpa using hfc, by simpa using hlc, ?_⟩
    intro j hj
    exact absurd hj (by omega)
  obtain ⟨g, hok, hInv⟩ := chainInv_list ds hInv0
  have hInv' : ChainInv g p h.length ds.length := by
    have he : 0 + ds.length = ds.length := by omega
    exact he ▸ hInv
  have hfcg := hInv'.2.2.2.1
  have hlcg := hInv'.2.2.2.2.1
  have hchg := hInv'.2.2.2.2.2
  by_cases hk0 : ds.length = 0
  · have h1 : Children.new g p = { next := none, next_back := none } := by
      unfold Children.new firstChildAcc lastChildAcc
      rw [hfcg, if_pos hk0, hlcg, if_pos hk0]
      rfl
    refine ⟨g, hok, ?_, ?_⟩
    · rw [h1, hk0]
      simp [childrenFwd, Children.nextF, Children.finished]
    · rw [h1, hk0]
      simp [childrenBwd, Children.nextBackF, Children.finished]
  · have hk1 : 1 ≤ ds.length := by omega
    have hlast_alive : (g.node (h.length + ds.length - 1)).isSome = true := by
      have hc := (hchg (ds.length - 1) (by omega)).1
      have he : h.length + (ds.length - 1) = h.length + ds.length - 1 := by omega
      rw [he] at hc
      exact hc
    have h1 : Children.new g p =
        { next := some h.length, next_back := some (h.length + ds.length - 1) } := by
      unfold Children.new firstChildAcc lastChildAcc
      rw [hfcg, if_neg hk0, hlcg, if_neg hk0, upgrade_some hlast_alive]
    have hdf := chain_drain_fwd hInv' hk1 ds.length 0 (ds.length + 1)
      (by omega) (by omega)
    rw [if_neg hk0] at hdf
    simp only [Nat.add_zero] at hdf
    have hdb := chain_drain_bwd hInv' hk1 ds.length (ds.length + 1)
      (by omega) (by omega)
    rw [if_neg hk0] at hdb
    refine ⟨g, hok, ?_, ?_⟩
    · rw [h1]
      exact hdf
    · rw [h1]
      exact hdb

/-- Witness for C5 at a concrete input: appending two fresh nodes (ids 1
and 2) under node 0 of the singleton heap `exS1`; the forward children
iteration yields `[1, 2]` and the backward one `[2, 1]`. -/
theorem c5_children_order_witness :
    (exS1.node 0).isSome = true ∧ fcF exS1 0 = none ∧ lcF exS1 0 = none ∧
    ∃ g, appendNewList exS1 0 [1, 2] = .ok g ∧
      childrenFwd g 3 (Children.new g 0) = [1, 2] ∧
      childrenBwd g 3 (Children.new g 0) = [2, 1] := by
  have hc := c5_children_order exS1 0 [1, 2] (by decide) (by decide) (by decide)
  exact ⟨by decide, by decide, by decide, hc⟩

/-! ### Claim C2: iterative destruction of a deep chain -/

/-- Reading a slot of a heap built by mapping over `range`. -/
theorem node_map_range {T : Type} (f : Nat → Option (NodeData T)) (m j : Nat) :
    Heap.node ((List.range m).map f) j = if j < m then f j else none := by
  induction m with
  | zero =>
    rw [if_neg (by omega : ¬ j < 0)]
    rfl
  | succ m ih =>
    rw [List.range_succ, List.map_append]
    by_cases hj : j < m
    · rw [node_append_lt _ _ j (by simpa using hj), ih,
        if_pos hj, if_pos (by omega : j < m + 1)]
    · by_cases hj2 : j = m
      · subst hj2
        have hl := node_append_self ((List.range j).map f) (f j)
        simp only [List.length_map, List.length_range] at hl
        simp only [List.map_cons, List.map_nil]
        rw [hl, if_pos (by omega : j < j + 1)]
      · rw [node_eq_none_of_ge (by simp; omega), if_neg (by omega : ¬ j < m + 1)]

/-- The slots of the `m`-node chain heap. -/
theorem chain_node (m j : Nat) :
    (chainHeap m).node j = if j < m then some (chainNode m j) else none := by
  unfold chainHeap
  rw [node_map_range]

/-- A fresh chain node is the `k = 0` stage of the partially detached chain. -/
theorem chainNode_eq_mid0 (m x : Nat) : chainNode m x = chainMid m 0 x := by
  unfold chainNode chainMid
  split_ifs <;> first | rfl | (exfalso; omega)

/-- Detaching node `1 + k` updates its own record to the next stage. -/
theorem chainMid_step_self {m k : Nat} :
    ({ chainMid m k (1 + k) with parent := none, previous_sibling := none, next_sibling := none } : NodeData Unit) = chainMid m (k + 1) (1 + k) := by
  unfold chainMid
  split_ifs <;> first | rfl | (exfalso; omega)

/-- Detaching node `1 + k` clears the child links of its parent `k`. -/
theorem chainMid_step_prev {m k : Nat} :
    ({ chainMid m k k with last_child := none, first_child := none } : NodeData Unit)
      = chainMid m (k + 1) k := by
  unfold chainMid
  split_ifs <;> first | rfl | (exfalso; omega)

/-- Detaching node `1 + k` leaves every other record's stage unchanged. -/
theorem chainMid_step_other {m k x : Nat} (h1 : x ≠ k) (h2 : x ≠ 1 + k) :
    chainMid m k x = chainMid m (k + 1) x := by
  unfold chainMid
  split_ifs <;> first | rfl | (exfalso; omega)

/-- The collection phase of the destruction routine walks the whole chain:
starting from node `j` with `t = m - j` nodes left, it accumulates exactly
`j, j+1, ..., m-1`. -/
theorem collect_chain (m : Nat) :
    ∀ t j acc fuel, 1 ≤ t → j + t = m → t ≤ fuel →
      collectDesc (chainHeap m) fuel (j :: []) acc = acc.reverse ++ List.range' j t := by
  have hns : ∀ j, nsF (chainHeap m) j = none := by
    intro j
    unfold nsF
    rw [chain_node]
    by_cases hj : j < m
    · rw [if_pos hj]
      rfl
    · rw [if_neg hj]
      rfl
  have hfc : ∀ j, j < m →
      fcF (chainHeap m) j = (if j + 1 < m then some (j + 1) else none) := by
    intro j hj
    unfold fcF
    rw [chain_node, if_pos hj]
    rfl
  intro t
  induction t with
  | zero =>
    intro j acc fuel h1 _ _
    exact absurd h1 (by omega)
  | succ t ih =>
    intro j acc fuel h1 hjm hfuel
    obtain ⟨f0, rfl⟩ : ∃ f0, fuel = f0 + 1 := ⟨fuel - 1, by omega⟩
    have hjlt : j < m := by omega
    have hstep : collectDesc (chainHeap m) (f0 + 1) (j :: []) acc =
        collectDesc (chainHeap m) f0
          (match fcF (chainHeap m) j with
            | some f2 => f2 :: []
            | none => []) (j :: acc) := by
      show collectDesc (chainHeap m) f0
          (match fcF (chainHeap m) j with
            | some f2 => f2 :: (match nsF (chainHeap m) j with
                | some s2 => s2 :: []
                | none => [])
            | none => (match nsF (chainHeap m) j with
                | some s2 => s2 :: []
                | none => [])) (j :: acc) = _
      rw [hns j]
    rw [hstep, hfc j hjlt]
    by_cases ht0 : t = 0
    · rw [if_neg (by omega : ¬ j + 1 < m)]
      have hfin : collectDesc (chainHeap m) f0 [] (j :: acc) = (j :: acc).reverse := by
        cases f0 with
        | zero => rfl
        | succ f1 => rfl
      rw [hfin, ht0]
      simp
    · rw [if_pos (by omega : j + 1 < m)]
      show collectDesc (chainHeap m) f0 ((j + 1) :: []) (j :: acc) = _
      rw [ih (j + 1) (j :: acc) f0 (by omega) (by omega) (by omega),
          List.reverse_cons, List.range'_succ j t 1, List.append_assoc]
      rfl

/-- The detach phase of the destruction routine, applied to the collected
chain nodes in order, moves the heap through the `chainMid` stages. -/
theorem fold_detach_chain (m : Nat) :
    ∀ k, k ≤ m - 1 →
      ∀ x, ((List.range' 1 k).foldl (fun g2 i => detach g2 i) (chainHeap m)).node x =
        (if x < m then some (chainMid m k x) else none) := by
  intro k
  induction k with
  | zero =>
    intro hk x
    show (chainHeap m).node x = _
    rw [chain_node]
    by_cases hx : x < m
    · rw [if_pos hx, if_pos hx, chainNode_eq_mid0]
    · rw [if_neg hx, if_neg hx]
  | succ k ih =>
    intro hk x
    have hm2 : 1 + k < m := by omega
    have hfold := ih (by omega)
    have hsplit : (List.range' 1 (k + 1)).foldl (fun g2 i => detach g2 i) (chainHeap m) =
        detach ((List.range' 1 k).foldl (fun g2 i => detach g2 i) (chainHeap m)) (1 + k) := by
      rw [range'_concat_one, List.foldl_append]
      rfl
    obtain ⟨gk, hgk⟩ : ∃ gk : Heap Unit,
        gk = (List.range' 1 k).foldl (fun g2 i => detach g2 i) (chainHeap m) := ⟨_, rfl⟩
    rw [← hgk] at hsplit
    have hfold2 : ∀ y, gk.node y = (if y < m then some (chainMid m k y) else none) := by
      intro y
      rw [hgk]
      exact hfold y
    have hnd : gk.node (1 + k) = some (chainMid m k (1 + k)) := by
      rw [hfold2 (1 + k), if_pos hm2]
    have hkal : gk.node k = some (chainMid m k k) := by
      rw [hfold2 k, if_pos (by omega)]
    have hpw : (chainMid m k (1 + k)).parent = some k := by
      show (if 1 + k = 0 ∨ 1 + k ≤ k then none else some (1 + k - 1)) = some k
      rw [if_neg (by omega : ¬ (1 + k = 0 ∨ 1 + k ≤ k))]
      congr 1
      omega
    have hns0 : (chainMid m k (1 + k)).next_sibling = none := rfl
    have hps0 : (chainMid m k (1 + k)).previous_sibling = none := rfl
    rw [hsplit]
    unfold detach
    rw [hnd]
    simp only
    rw [hns0, hps0, hpw]
    have hupn : ∀ g2 : Heap Unit, upgrade g2 (none : Option Nat) = none := fun g2 => rfl
    rw [hupn]
    simp only
    have hup1 : upgrade (gk.setN (1 + k) { chainMid m k (1 + k) with parent := none, previous_sibling := none, next_sibling := none }) (some k) = some k := by
      refine upgrade_some ?_
      rw [node_setN_ne _ _ (by omega : k ≠ 1 + k), hkal]
      rfl
    rw [hup1]
    simp only
    have hup2 : upgrade ((gk.setN (1 + k) { chainMid m k (1 + k) with parent := none, previous_sibling := none, next_sibling := none }).update k (fun pd => { pd with last_child := none })) (some k) = some k := by
      refine upgrade_some ?_
      rw [isSome_node_update, node_setN_ne _ _ (by omega : k ≠ 1 + k), hkal]
      rfl
    rw [hup2]
    simp only
    rw [node_update_if, node_update_if, node_setN_if hnd]
    by_cases hx1 : x = k
    · rw [if_pos hx1, if_pos hx1, if_neg (by omega : ¬ x = 1 + k), hx1, hkal,
          if_pos (by omega : k < m)]
      exact congrArg some chainMid_step_prev
    · by_cases hx2 : x = 1 + k
      · rw [if_neg hx1, if_neg hx1, if_pos hx2, hx2, if_pos hm2]
        exact congrArg some chainMid_step_self
      · rw [if_neg hx1, if_neg hx1, if_neg hx2, hfold2 x]
        by_cases hxm : x < m
        · rw [if_pos hxm, if_pos hxm]
          exact congrArg some (chainMid_step_other hx1 hx2)
        · rw [if_neg hxm, if_neg hxm]

/-- A heap with no strong link onto `x` anywhere gives `x` strong in-count
zero. -/
theorem strongIn_eq_zero {T : Type} (h : Heap T) (x : Nat)
    (hno : ∀ i, strongInAt h x i = 0) : strongIn h x = 0 := by
  unfold strongIn
  refine List.sum_eq_zero ?_
  intro y hy
  obtain ⟨i, -, rfl⟩ := List.mem_map.mp hy
  exact hno i

/-- C2 (spec-modelled; the Drop logic of §4.5 is not present in the staged
sources, so the destruction routine is modelled from the spec's words):
when the chain root's strong count reaches zero, the destruction routine
frees every node of the owned subtree — for a single-child chain of `m ≥ 1`
nodes (in particular `m = 10^6`) it frees exactly the `m` records
`0..m-1` — and it is iterative: descendants are first collected into an
explicit worklist by a work-stack loop (`collectDesc`), each collected node
is detached in order before any is freed, and afterwards no strong link
remains in the heap (every record's strong in-count is zero), so all `m`
records are destroyed.  Stack depth is O(1): the walk keeps its own stack
as data. -/
theorem c2_iterative_destruction (m : Nat) (hm : 1 ≤ m) :
    (dropSub (chainHeap m) 0 m).2 = List.range m ∧
    ∀ x, strongIn (dropSub (chainHeap m) 0 m).1 x = 0 := by
  have hfc0 : fcF (chainHeap m) 0 = (if 1 < m then some 1 else none) := by
    unfold fcF
    rw [chain_node, if_pos (by omega : 0 < m)]
    rfl
  by_cases hm1 : m = 1
  · subst hm1
    constructor
    · rfl
    · intro x
      have hh : (dropSub (chainHeap 1) 0 1).1 = chainHeap 1 := rfl
      rw [hh]
      refine strongIn_eq_zero _ _ ?_
      intro i
      unfold strongInAt
      rw [chain_node]
      by_cases hi : i < 1
      · rw [if_pos hi]
        have hi0 : i = 0 := by omega
        subst hi0
        simp [chainNode]
      · rw [if_neg hi]
  · have hm2 : 2 ≤ m := by omega
    have hwork : (match fcF (chainHeap m) 0 with
        | some f => collectDesc (chainHeap m) m [f] []
        | none => []) = List.range' 1 (m - 1) := by
      rw [hfc0, if_pos (by omega : 1 < m)]
      show collectDesc (chainHeap m) m (1 :: []) [] = _
      rw [collect_chain m (m - 1) 1 [] m (by omega) (by omega) (by omega)]
      rfl
    constructor
    · show 0 :: (match fcF (chainHeap m) 0 with
          | some f => collectDesc (chainHeap m) m [f] []
          | none => []) = List.range m
      rw [hwork, List.range_eq_range']
      have h3 : m = (m - 1) + 1 := by omega
      conv_rhs => rw [h3]
      rw [List.range'_succ 0 (m - 1) 1]
    · intro x
      have hfix : (dropSub (chainHeap m) 0 m).1 =
          (List.range' 1 (m - 1)).foldl (fun g2 i => detach g2 i) (chainHeap m) := by
        show (match fcF (chainHeap m) 0 with
            | some f => collectDesc (chainHeap m) m [f] []
            | none => []).foldl (fun g2 i => detach g2 i) (chainHeap m) = _
        rw [hwork]
      rw [hfix]
      refine strongIn_eq_zero _ _ ?_
      intro i
      unfold strongInAt
      rw [fold_detach_chain m (m - 1) (by omega) i]
      by_cases hi : i < m
      · rw [if_pos hi]
        have hfcn : (chainMid m (m - 1) i).first_child = none := by
          show (if m - 1 ≤ i ∧ i + 1 < m then some (i + 1) else none) = none
          rw [if_neg (by omega)]
        have hnsn : (chainMid m (m - 1) i).next_sibling = none := rfl
        show (if (chainMid m (m - 1) i).first_child = some x then 1 else 0) +
             (if (chainMid m (m - 1) i).next_sibling = some x then 1 else 0) = 0
        rw [hfcn, hnsn, if_neg (fun hcc => Option.noConfusion hcc)]
      · rw [if_neg hi]

/-- Witness for C2 at the spec's size: dropping the root of the
million-node chain frees exactly the million records `0..999999` and leaves
no strong link in the heap. -/
theorem c2_iterative_destruction_witness :
    1 ≤ 1000000 ∧
    ((dropSub (chainHeap 1000000) 0 1000000).2 = List.range 1000000 ∧
     ∀ x, strongIn (dropSub (chainHeap 1000000) 0 1000000).1 x = 0) :=
  ⟨by decide, c2_iterative_destruction 1000000 (by decide)⟩

end Rctree







